import Mathlib

/-!
# visualgo-ai: sorting, graph and tree step-producers

A shallow embedding of the algorithm bodies of
`src/pages/SortingVisualizer.jsx`, `src/pages/GraphVisualizer.jsx` and
`src/pages/TreeVisualizer.jsx`, and the properties proved about them.

Conventions of the embedding.

* Array values are `Int` (the page fills the array with
  `Math.floor(Math.random() * 100) + 5`), node ids and edge weights are `Nat`.
* A JavaScript array that is updated in place is a `List` passed from one step
  to the next; `arr[i] = v` is `List.set`.
* The React setters (`setComparing`, `setSwapping`, `setSorted`, `setArray`,
  `setCurrentNode`, ...) and the `await sleep(speed)` pauses do not feed back
  into the algorithms and are left out, except for the values the properties
  below talk about.
* The sort producers are embedded for a run in which `stopRef.current` is
  `false` at every check, that is, a run that goes to completion.
* A counted `for` loop whose bound and counter the body does not assign is a
  recursion on its trip count, and the descending `while` loop of
  `insertionSort` is a recursion on `j + 1`.  The tree functions recurse on
  the tree.  Every other loop or recursion of the source is a recursion on a
  fuel argument that answers `none` (or `outOfFuel`) when the fuel is used up
  before the loop condition fails; the proofs show that this does not happen.
-/

namespace Visualgo

/-! ## Sorting page -/

/-- Read of `arr[i]`.  Every read the producers perform is inside the array;
the default `0` stands for an out-of-range read. -/
def idx (arr : List Int) (i : Nat) : Int := arr[i]?.getD 0

/-- Destructuring swap `[arr[i], arr[j]] = [arr[j], arr[i]]`: both reads happen
before the two writes. -/
def swap (arr : List Int) (i j : Nat) : List Int :=
  (arr.set i (idx arr j)).set j (idx arr i)

/-- Inner loop of `bubbleSort`: `for (let j = 0; j < n - i - 1; j++)`, with
`cnt` the number of iterations left. -/
def bubbleInner : List Int → Nat → Nat → List Int
  | arr, _, 0 => arr
  | arr, j, cnt + 1 =>
    bubbleInner (if idx arr j > idx arr (j + 1) then swap arr j (j + 1) else arr) (j + 1) cnt

/-- Outer loop of `bubbleSort`: `for (let i = 0; i < n - 1; i++)`. -/
def bubbleOuter (n : Nat) : List Int → Nat → Nat → List Int
  | arr, _, 0 => arr
  | arr, i, cnt + 1 => bubbleOuter n (bubbleInner arr 0 (n - i - 1)) (i + 1) cnt

/-- Final working array `arr` of `bubbleSort` on the page array `array`. -/
def bubbleSort (array : List Int) : List Int :=
  bubbleOuter array.length array 0 (array.length - 1)

/-- Inner loop of `selectionSort`: `for (let j = i + 1; j < n; j++)`, returns
`minIdx`. -/
def selectionInner (arr : List Int) : Nat → Nat → Nat → Nat
  | minIdx, _, 0 => minIdx
  | minIdx, j, cnt + 1 =>
    selectionInner arr (if idx arr j < idx arr minIdx then j else minIdx) (j + 1) cnt

/-- Outer loop of `selectionSort`: `for (let i = 0; i < n; i++)`. -/
def selectionOuter (n : Nat) : List Int → Nat → Nat → List Int
  | arr, _, 0 => arr
  | arr, i, cnt + 1 =>
    let minIdx := selectionInner arr i (i + 1) (n - (i + 1))
    selectionOuter n (if minIdx ≠ i then swap arr i minIdx else arr) (i + 1) cnt

/-- Final working array `arr` of `selectionSort`. -/
def selectionSort (array : List Int) : List Int :=
  selectionOuter array.length array 0 array.length

/-- Inner loop of `insertionSort`:
`while (j >= 0 && arr[j] > key) { arr[j + 1] = arr[j]; j = j - 1 }`.
The numeric argument is `j + 1` (so that `j = -1` is `0`); the result is the
array and the final `j + 1`. -/
def insertionInner (key : Int) : List Int → Nat → List Int × Nat
  | arr, 0 => (arr, 0)
  | arr, j + 1 =>
    if idx arr j > key then insertionInner key (arr.set (j + 1) (idx arr j)) j
    else (arr, j + 1)

/-- Outer loop of `insertionSort`: `for (let i = 1; i < n; i++)`; after the
inner loop `arr[j + 1] = key`. -/
def insertionOuter : List Int → Nat → Nat → List Int
  | arr, _, 0 => arr
  | arr, i, cnt + 1 =>
    let key := idx arr i
    let r := insertionInner key arr i
    insertionOuter (r.1.set r.2 key) (i + 1) cnt

/-- Final working array `arr` of `insertionSort`. -/
def insertionSort (array : List Int) : List Int :=
  insertionOuter array 1 (array.length - 1)

/-- The call `arr.slice(s, e)` for `s` and `e` inside the array. -/
def slice (arr : List Int) (s e : Nat) : List Int := (arr.take e).drop s

/-- First loop of `merge`: `while (i < n1 && j < n2)`; the result is
`(arr, i, j, k)` when the loop condition fails. -/
def mergeMain (L R : List Int) (n1 n2 : Nat) :
    Nat → List Int → Nat → Nat → Nat → Option (List Int × Nat × Nat × Nat)
  | 0, arr, i, j, k => if i < n1 ∧ j < n2 then none else some (arr, i, j, k)
  | fuel + 1, arr, i, j, k =>
    if i < n1 ∧ j < n2 then
      if idx L i ≤ idx R j then mergeMain L R n1 n2 fuel (arr.set k (idx L i)) (i + 1) j (k + 1)
      else mergeMain L R n1 n2 fuel (arr.set k (idx R j)) i (j + 1) (k + 1)
    else some (arr, i, j, k)

/-- Second and third loop of `merge`:
`while (i < n1) { arr[k] = L[i]; i++; k++ }` (and the same with `R`, `j`,
`n2`), with `cnt` the number of iterations left.  The result is `(arr, k)`. -/
def copyRest (src : List Int) : List Int → Nat → Nat → Nat → List Int × Nat
  | arr, _, k, 0 => (arr, k)
  | arr, i, k, cnt + 1 => copyRest src (arr.set k (idx src i)) (i + 1) (k + 1) cnt

/-- The closure `merge(left, mid, right)` of `mergeSort`, acting on `arr`. -/
def merge (arr : List Int) (left mid right : Nat) : Option (List Int) :=
  let n1 := mid - left + 1
  let n2 := right - mid
  let L := slice arr left (mid + 1)
  let R := slice arr (mid + 1) (right + 1)
  match mergeMain L R n1 n2 (n1 + n2) arr 0 0 left with
  | none => none
  | some (a, i, j, k) =>
    let r2 := copyRest L a i k (n1 - i)
    let r3 := copyRest R r2.1 j r2.2 (n2 - j)
    some r3.1

/-- The closure `mergeSortRec(l, r)` of `mergeSort`, acting on `arr`. -/
def mergeSortRec : Nat → List Int → Nat → Nat → Option (List Int)
  | 0, arr, l, r => if l ≥ r then some arr else none
  | fuel + 1, arr, l, r =>
    if l ≥ r then some arr
    else
      let m := (l + r) / 2
      match mergeSortRec fuel arr l m with
      | none => none
      | some a1 =>
        match mergeSortRec fuel a1 (m + 1) r with
        | none => none
        | some a2 => merge a2 l m r

/-- Final working array `arr` of `mergeSort`: `mergeSortRec(0, arr.length - 1)`. -/
def mergeSort (array : List Int) : Option (List Int) :=
  mergeSortRec array.length array 0 (array.length - 1)

/-- Scan loop of `partition`: `for (let j = low; j <= high - 1; j++)`.  The
second numeric argument is `i + 1` (the source starts `i` at `low - 1`, which
is `-1` for `low = 0`, and increments it before it is used as an index); the
result is the array and the final `i + 1`. -/
def partitionLoop (pivot : Int) : List Int → Nat → Nat → Nat → List Int × Nat
  | arr, i1, _, 0 => (arr, i1)
  | arr, i1, j, cnt + 1 =>
    if idx arr j < pivot then partitionLoop pivot (swap arr i1 j) (i1 + 1) (j + 1) cnt
    else partitionLoop pivot arr i1 (j + 1) cnt

/-- The closure `partition(low, high)` of `quickSort`: the array after the
final pivot swap and the returned index `i + 1`. -/
def partition (arr : List Int) (low high : Nat) : List Int × Nat :=
  let pivot := idx arr high
  let r := partitionLoop pivot arr low low (high - low)
  (swap r.1 r.2 high, r.2)

/-- The closure `qsort(low, high)` of `quickSort`, acting on `arr`.  The bound
`pi - 1` is a truncated subtraction: for `pi = 0` the source calls
`qsort(low, -1)`, which like `qsort(low, 0)` with `low = 0` does nothing. -/
def qsort : Nat → List Int → Nat → Nat → Option (List Int)
  | 0, arr, low, high => if low < high then none else some arr
  | fuel + 1, arr, low, high =>
    if low < high then
      let p := partition arr low high
      match qsort fuel p.1 low (p.2 - 1) with
      | none => none
      | some a1 => qsort fuel a1 (p.2 + 1) high
    else some arr

/-- Final working array `arr` of `quickSort`: `qsort(0, arr.length - 1)`. -/
def quickSort (array : List Int) : Option (List Int) :=
  qsort array.length array 0 (array.length - 1)

/-! ## Sorting page: a run with its observer calls

The producers of the sorting page once more, now with every call of a React
setter, the two counters of `stats`, the reads of `stopRef.current` and the
calls of `sleep`.  The flags `stopRef` and `pauseRef` are written by the
click handlers between two steps of a producer, so what a producer reads from
them is an input of the run (`Env`). -/

/-- One call of a React setter (with the value the state takes) or of
`showMessage` by a sort producer. -/
inductive Step where
  | comparing (l : List Nat) : Step
  | swapping (l : List Nat) : Step
  | array (a : List Int) : Step
  | sorted (l : List Nat) : Step
  | stats (comparisons swaps : Nat) : Step
  | isSorting (b : Bool) : Step
  | message (text : String) : Step
  deriving DecidableEq, Repr

/-- The flags as a run reads them.  `stop k` is the value of the `k`-th read of
`stopRef.current` in a producer body.  For the `k`-th call of `sleep`,
`pausedPolls k` is the number of its polls that found `pauseRef.current` set
(each waits 50 ms and polls again) and `stopSeen k` tells whether its last
poll found `stopRef.current` set (it then resolves at once) or found the run
not paused (it then waits `ms`). -/
structure Env where
  stop : Nat → Bool
  pausedPolls : Nat → Nat
  stopSeen : Nat → Bool

/-- State of a run: the working array `arr` of the producer, the React state
of the page (`array`, `comparing`, `swapping`, `sorted`, `stats`, `isSorting`,
`message`), the log of the setter calls so far, the number of reads of
`stopRef.current` and of calls of `sleep` so far, and the time spent in
`sleep`, in ms. -/
structure SortState where
  arr : List Int
  array : List Int
  comparing : List Nat
  swapping : List Nat
  sorted : List Nat
  comparisons : Nat
  swaps : Nat
  isSorting : Bool
  message : Option String
  steps : List Step
  reads : Nat
  sleeps : Nat
  waited : Nat
  deriving DecidableEq, Repr

/-- Outcome of a loop that can leave the producer through
`return finishEarly()`. -/
inductive Ctl where
  -- the loop ran to its end
  | go (s : SortState) : Ctl
  -- the producer returned from inside the loop
  | halt (s : SortState) : Ctl
  deriving DecidableEq, Repr

/-- The call `await sleep(ms)`. -/
def sleep (env : Env) (ms : Nat) (s : SortState) : SortState :=
  { s with
    sleeps := s.sleeps + 1
    waited := s.waited + 50 * env.pausedPolls s.sleeps + (if env.stopSeen s.sleeps then 0 else ms) }

/-- A read of `stopRef.current` has been made. -/
def tick (s : SortState) : SortState := { s with reads := s.reads + 1 }

/-- The call `setComparing(l)`. -/
def setComparing (l : List Nat) (s : SortState) : SortState :=
  { s with comparing := l, steps := s.steps ++ [Step.comparing l] }

/-- The call `setSwapping(l)`. -/
def setSwapping (l : List Nat) (s : SortState) : SortState :=
  { s with swapping := l, steps := s.steps ++ [Step.swapping l] }

/-- The call `setArray(a)`. -/
def setArray (a : List Int) (s : SortState) : SortState :=
  { s with array := a, steps := s.steps ++ [Step.array a] }

/-- The call `setSorted(l)`. -/
def setSorted (l : List Nat) (s : SortState) : SortState :=
  { s with sorted := l, steps := s.steps ++ [Step.sorted l] }

/-- The call `setSorted((prev) => [...prev, k])`. -/
def addSorted (k : Nat) (s : SortState) : SortState := setSorted (s.sorted ++ [k]) s

/-- The call `setStats({ comparisons: 0, swaps: 0 })`. -/
def resetStats (s : SortState) : SortState :=
  { s with comparisons := 0, swaps := 0, steps := s.steps ++ [Step.stats 0 0] }

/-- The call `setStats((s) => ({ ...s, comparisons: s.comparisons + 1 }))`. -/
def addComparison (s : SortState) : SortState :=
  { s with
    comparisons := s.comparisons + 1
    steps := s.steps ++ [Step.stats (s.comparisons + 1) s.swaps] }

/-- The call `setStats((s) => ({ ...s, swaps: s.swaps + 1 }))`. -/
def addSwap (s : SortState) : SortState :=
  { s with swaps := s.swaps + 1, steps := s.steps ++ [Step.stats s.comparisons (s.swaps + 1)] }

/-- The call `setIsSorting(b)`. -/
def setIsSorting (b : Bool) (s : SortState) : SortState :=
  { s with isSorting := b, steps := s.steps ++ [Step.isSorting b] }

/-- The call `showMessage(text, "success")`. -/
def showMessage (text : String) (s : SortState) : SortState :=
  { s with message := some text, steps := s.steps ++ [Step.message text] }

/-- The helper `swapAndSet(arr, i, j)`, called with the working array: it
copies the array, swaps the two positions in the copy and publishes the
copy. -/
def swapAndSet (i j : Nat) (s : SortState) : SortState := setArray (swap s.arr i j) s

/-- The in-place swap `[arr[i], arr[j]] = [arr[j], arr[i]]` of the working
array. -/
def swapArr (i j : Nat) (s : SortState) : SortState := { s with arr := swap s.arr i j }

/-- The in-place write `arr[k] = v` of the working array. -/
def writeArr (k : Nat) (v : Int) (s : SortState) : SortState := { s with arr := s.arr.set k v }

/-- The helper `finishEarly()`. -/
def finishEarly (s : SortState) : SortState :=
  setIsSorting false (setSwapping [] (setComparing [] s))

/-- State of a run when `handleSort` calls a producer on the page array
`array`: `handleSort` has cleared `comparing`, `swapping` and `sorted` and set
`isSorting`; the counters are those of a freshly generated array. -/
def startState (array : List Int) : SortState :=
  { arr := array, array := array, comparing := [], swapping := [], sorted := [],
    comparisons := 0, swaps := 0, isSorting := true, message := none, steps := [],
    reads := 0, sleeps := 0, waited := 0 }

/-- Start of every producer: `const arr = [...array]; setIsSorting(true);
setStats({ comparisons: 0, swaps: 0 })`. -/
def beginRun (s : SortState) : SortState :=
  resetStats (setIsSorting true { s with arr := s.array })

/-- Inner loop of `bubbleSort` with its observer calls. -/
def bubbleInnerRun (env : Env) (speed : Nat) : SortState → Nat → Nat → Ctl
  | s, _, 0 => Ctl.go s
  | s, j, cnt + 1 =>
    if env.stop s.reads then Ctl.halt (finishEarly (tick s))
    else
      let s1 := sleep env speed (addComparison (setComparing [j, j + 1] (tick s)))
      if idx s1.arr j > idx s1.arr (j + 1) then
        bubbleInnerRun env speed
          (setSwapping [] (sleep env speed (addSwap (setSwapping [j, j + 1]
            (swapAndSet j (j + 1) (swapArr j (j + 1) s1))))))
          (j + 1) cnt
      else bubbleInnerRun env speed s1 (j + 1) cnt

/-- Outer loop of `bubbleSort` with its observer calls. -/
def bubbleOuterRun (env : Env) (speed n : Nat) : SortState → Nat → Nat → Ctl
  | s, _, 0 => Ctl.go s
  | s, i, cnt + 1 =>
    match bubbleInnerRun env speed s 0 (n - i - 1) with
    | Ctl.halt s1 => Ctl.halt s1
    | Ctl.go s1 => bubbleOuterRun env speed n (addSorted (n - 1 - i) s1) (i + 1) cnt

/-- The producer `bubbleSort`: the state when it returns. -/
def bubbleSortRun (env : Env) (speed : Nat) (s0 : SortState) : SortState :=
  match bubbleOuterRun env speed s0.array.length (beginRun s0) 0 (s0.array.length - 1) with
  | Ctl.halt s1 => s1
  | Ctl.go s1 =>
    showMessage "Bubble sort completed"
      (setIsSorting false (setComparing [] (setSorted (List.range s0.array.length) s1)))

/-- Inner loop of `selectionSort` with its observer calls; the second
component is `minIdx`, or `none` when the producer returned from inside the
loop. -/
def selectionInnerRun (env : Env) (speed : Nat) : SortState → Nat → Nat → Nat → SortState × Option Nat
  | s, minIdx, _, 0 => (s, some minIdx)
  | s, minIdx, j, cnt + 1 =>
    if env.stop s.reads then (finishEarly (tick s), none)
    else
      let s1 := sleep env speed (addComparison (setComparing [minIdx, j] (tick s)))
      selectionInnerRun env speed s1 (if idx s1.arr j < idx s1.arr minIdx then j else minIdx)
        (j + 1) cnt

/-- Outer loop of `selectionSort` with its observer calls. -/
def selectionOuterRun (env : Env) (speed n : Nat) : SortState → Nat → Nat → Ctl
  | s, _, 0 => Ctl.go s
  | s, i, cnt + 1 =>
    match selectionInnerRun env speed s i (i + 1) (n - (i + 1)) with
    | (s1, none) => Ctl.halt s1
    | (s1, some minIdx) =>
      selectionOuterRun env speed n
        (addSorted i
          (if minIdx ≠ i then
            setSwapping [] (sleep env speed (addSwap (setSwapping [i, minIdx]
              (swapAndSet i minIdx (swapArr i minIdx s1)))))
          else s1))
        (i + 1) cnt

/-- The producer `selectionSort`: the state when it returns. -/
def selectionSortRun (env : Env) (speed : Nat) (s0 : SortState) : SortState :=
  match selectionOuterRun env speed s0.array.length (beginRun s0) 0 s0.array.length with
  | Ctl.halt s1 => s1
  | Ctl.go s1 => showMessage "Selection sort completed" (setIsSorting false (setComparing [] s1))

/-- Inner loop of `insertionSort` with its observer calls; the numeric
argument and the second component of the result are `j + 1`. -/
def insertionInnerRun (env : Env) (speed : Nat) (key : Int) : SortState → Nat → SortState × Nat
  | s, 0 => (s, 0)
  | s, j + 1 =>
    if idx s.arr j > key then
      let s1 := sleep env speed (addComparison (setComparing [j, j + 1] s))
      insertionInnerRun env speed key
        (addSwap (swapAndSet (j + 1) j (writeArr (j + 1) (idx s1.arr j) s1))) j
    else (s, j + 1)

/-- Outer loop of `insertionSort` with its observer calls. -/
def insertionOuterRun (env : Env) (speed : Nat) : SortState → Nat → Nat → Ctl
  | s, _, 0 => Ctl.go s
  | s, i, cnt + 1 =>
    if env.stop s.reads then Ctl.halt (finishEarly (tick s))
    else
      let r := insertionInnerRun env speed (idx s.arr i) (tick s) i
      let s2 := writeArr r.2 (idx s.arr i) r.1
      insertionOuterRun env speed (sleep env speed (addSorted i (setArray s2.arr s2))) (i + 1) cnt

/-- The producer `insertionSort`: the state when it returns. -/
def insertionSortRun (env : Env) (speed : Nat) (s0 : SortState) : SortState :=
  match insertionOuterRun env speed (beginRun s0) 1 (s0.array.length - 1) with
  | Ctl.halt s1 => s1
  | Ctl.go s1 => showMessage "Insertion sort completed" (setIsSorting false (setComparing [] s1))

/-- First loop of `merge` with its observer calls. -/
def mergeMainRun (env : Env) (speed : Nat) (L R : List Int) (n1 n2 left mid : Nat) :
    Nat → SortState → Nat → Nat → Nat → Option (SortState × Nat × Nat × Nat)
  | 0, s, i, j, k => if i < n1 ∧ j < n2 then none else some (s, i, j, k)
  | fuel + 1, s, i, j, k =>
    if i < n1 ∧ j < n2 then
      let s1 := sleep env speed (addComparison (setComparing [left + i, mid + 1 + j] s))
      if idx L i ≤ idx R j then
        let s2 := writeArr k (idx L i) s1
        mergeMainRun env speed L R n1 n2 left mid fuel (sleep env speed (setArray s2.arr s2))
          (i + 1) j (k + 1)
      else
        let s2 := writeArr k (idx R j) s1
        mergeMainRun env speed L R n1 n2 left mid fuel (sleep env speed (setArray s2.arr s2))
          i (j + 1) (k + 1)
    else some (s, i, j, k)

/-- Second and third loop of `merge` with their observer calls. -/
def copyRestRun (env : Env) (speed : Nat) (src : List Int) :
    SortState → Nat → Nat → Nat → SortState × Nat
  | s, _, k, 0 => (s, k)
  | s, i, k, cnt + 1 =>
    let s1 := writeArr k (idx src i) s
    copyRestRun env speed src (sleep env speed (setArray s1.arr s1)) (i + 1) (k + 1) cnt

/-- The closure `merge(left, mid, right)` with its observer calls. -/
def mergeRun (env : Env) (speed : Nat) (s : SortState) (left mid right : Nat) : Option SortState :=
  if env.stop s.reads then some (tick s)
  else
    let n1 := mid - left + 1
    let n2 := right - mid
    let L := slice s.arr left (mid + 1)
    let R := slice s.arr (mid + 1) (right + 1)
    match mergeMainRun env speed L R n1 n2 left mid (n1 + n2) (tick s) 0 0 left with
    | none => none
    | some (s1, i, j, k) =>
      let r2 := copyRestRun env speed L s1 i k (n1 - i)
      let r3 := copyRestRun env speed R r2.1 j r2.2 (n2 - j)
      some r3.1

/-- The closure `mergeSortRec(l, r)` with its observer calls; the guard
`l >= r || stopRef.current` reads the flag only when `l < r`. -/
def mergeSortRecRun (env : Env) (speed : Nat) : Nat → SortState → Nat → Nat → Option SortState
  | 0, s, l, r => if l ≥ r then some s else if env.stop s.reads then some (tick s) else none
  | fuel + 1, s, l, r =>
    if l ≥ r then some s
    else if env.stop s.reads then some (tick s)
    else
      match mergeSortRecRun env speed fuel (tick s) l ((l + r) / 2) with
      | none => none
      | some s1 =>
        match mergeSortRecRun env speed fuel s1 ((l + r) / 2 + 1) r with
        | none => none
        | some s2 => mergeRun env speed s2 l ((l + r) / 2) r

/-- The producer `mergeSort`: the state when it returns. -/
def mergeSortRun (env : Env) (speed : Nat) (s0 : SortState) : Option SortState :=
  match mergeSortRecRun env speed s0.array.length (beginRun s0) 0 (s0.array.length - 1) with
  | none => none
  | some s1 =>
    some (showMessage "Merge sort completed"
      (setIsSorting false (setComparing [] (setSorted (List.range s1.arr.length) s1))))

/-- Scan loop of `partition` with its observer calls; the second component is
the final `i + 1`, or `none` when the loop returned `-1`. -/
def partitionLoopRun (env : Env) (speed : Nat) (pivot : Int) (high : Nat) :
    SortState → Nat → Nat → Nat → SortState × Option Nat
  | s, i1, _, 0 => (s, some i1)
  | s, i1, j, cnt + 1 =>
    if env.stop s.reads then (tick s, none)
    else
      let s1 := sleep env speed (addComparison (setComparing [j, high] (tick s)))
      if idx s1.arr j < pivot then
        partitionLoopRun env speed pivot high
          (setSwapping [] (sleep env speed (setSwapping [i1, j] (addSwap
            (swapAndSet i1 j (swapArr i1 j s1))))))
          (i1 + 1) (j + 1) cnt
      else partitionLoopRun env speed pivot high s1 i1 (j + 1) cnt

/-- The closure `partition(low, high)` with its observer calls; the second
component is the returned index, or `none` for `-1`. -/
def partitionRun (env : Env) (speed : Nat) (s : SortState) (low high : Nat) :
    SortState × Option Nat :=
  match partitionLoopRun env speed (idx s.arr high) high s low low (high - low) with
  | (s1, none) => (s1, none)
  | (s1, some i1) =>
    (sleep env speed (addSwap (swapAndSet i1 high (swapArr i1 high s1))), some i1)

/-- The closure `qsort(low, high)` with its observer calls. -/
def qsortRun (env : Env) (speed : Nat) : Nat → SortState → Nat → Nat → Option SortState
  | 0, s, low, high =>
    if low < high then (if env.stop s.reads then some (tick s) else none) else some s
  | fuel + 1, s, low, high =>
    if low < high then
      if env.stop s.reads then some (tick s)
      else
        match partitionRun env speed (tick s) low high with
        | (s1, none) => some s1
        | (s1, some pi) =>
          match qsortRun env speed fuel s1 low (pi - 1) with
          | none => none
          | some s2 => qsortRun env speed fuel s2 (pi + 1) high
    else some s

/-- The producer `quickSort`: the state when it returns. -/
def quickSortRun (env : Env) (speed : Nat) (s0 : SortState) : Option SortState :=
  match qsortRun env speed s0.array.length (beginRun s0) 0 (s0.array.length - 1) with
  | none => none
  | some s1 =>
    some (showMessage "Quick sort completed"
      (setIsSorting false (setComparing [] (setSorted (List.range s1.arr.length) s1))))

/-- The flags of a run that is never stopped and never paused. -/
def quietEnv : Env :=
  { stop := fun _ => false, pausedPolls := fun _ => 0, stopSeen := fun _ => false }

/-- The React state and the two refs of the sorting page that the click
handlers write. -/
structure SortPage where
  array : List Int
  comparing : List Nat
  swapping : List Nat
  sorted : List Nat
  comparisons : Nat
  swaps : Nat
  isSorting : Bool
  isPaused : Bool
  pauseRef : Bool
  stopRef : Bool
  deriving DecidableEq, Repr

/-- The function `generateArray(size)`; `newArray` is the array of random
values it draws. -/
def generateArray (newArray : List Int) (p : SortPage) : SortPage :=
  { p with
    array := newArray
    comparing := []
    swapping := []
    sorted := []
    comparisons := 0
    swaps := 0
    isSorting := false
    pauseRef := false
    stopRef := false }

/-- The function `handleReset`: it sets `stopRef.current`, clears
`pauseRef.current`, `isSorting` and `isPaused`, and calls `generateArray`. -/
def handleReset (newArray : List Int) (p : SortPage) : SortPage :=
  generateArray newArray
    { p with stopRef := true, pauseRef := false, isSorting := false, isPaused := false }

/-- The state of a run without the time spent in `sleep`. -/
def SortState.unwait (s : SortState) : SortState := { s with waited := 0 }

/-- The outcome of a loop without the time spent in `sleep`. -/
def Ctl.unwait : Ctl → Ctl
  | Ctl.go s => Ctl.go s.unwait
  | Ctl.halt s => Ctl.halt s.unwait

/-- Relation between an array and a later state of it in which only the
positions `lo ≤ k < hi` were rearranged among themselves: the length is kept,
the whole is a permutation, every position outside the range keeps its value
and every value inside the range was inside the range before. -/
def SegRel (arr out : List Int) (lo hi : Nat) : Prop :=
  out.length = arr.length ∧ List.Perm out arr ∧
    (∀ k, k < lo ∨ hi ≤ k → idx out k = idx arr k) ∧
    (∀ k, lo ≤ k → k < hi → ∃ k2, lo ≤ k2 ∧ k2 < hi ∧ idx out k = idx arr k2)


/-- The state in which a loop left the run, whichever way it ended. -/
def Ctl.state : Ctl → SortState
  | Ctl.go s => s
  | Ctl.halt s => s

/-- The flags of a run in which every read of `stopRef.current` finds it
set. -/
def stoppedEnv : Env :=
  { stop := fun _ => true, pausedPolls := fun _ => 0, stopSeen := fun _ => true }

/-- Number of times the inner loop of `insertionSort` evaluates the element
comparison `arr[j] > key`: once for each pass of
`while (j >= 0 && arr[j] > key)` that finds `j >= 0`, the last one (which
finds the comparison false and ends the loop) included.  The numeric argument
is `j + 1`, as in `insertionInner`. -/
def insertionInnerEvals (key : Int) : List Int → Nat → Nat
  | _, 0 => 0
  | arr, j + 1 =>
    if idx arr j > key then 1 + insertionInnerEvals key (arr.set (j + 1) (idx arr j)) j
    else 1

/-- Number of evaluations of `arr[j] > key` by the outer loop of
`insertionSort`, with the loop variables of `insertionOuter`. -/
def insertionOuterEvals : List Int → Nat → Nat → Nat
  | _, _, 0 => 0
  | arr, i, cnt + 1 =>
    let key := idx arr i
    let r := insertionInner key arr i
    insertionInnerEvals key arr i + insertionOuterEvals (r.1.set r.2 key) (i + 1) cnt

/-- Number of evaluations of `arr[j] > key` by a run of `insertionSort` that is
not stopped. -/
def insertionEvals (array : List Int) : Nat := insertionOuterEvals array 1 (array.length - 1)

/-- Number of inversions of an array: the pairs of positions `i < j` with
`arr[i] > arr[j]`, counted for each element as the later elements below it. -/
def inversions : List Int → Nat
  | [] => 0
  | x :: xs => xs.countP (fun y => decide (y < x)) + inversions xs

/-- The step is a call `setComparing([a, b])` that signals a comparison. -/
def Step.isCompare : Step → Bool
  | Step.comparing [_, _] => true
  | _ => false

/-- The step is a call of `setArray`. -/
def Step.isArray : Step → Bool
  | Step.array _ => true
  | _ => false

/-- What the counters of a run of `mergeSort` satisfy at every point: no swap
was counted, and the comparisons counter is the number of comparisons that
were signalled by `setComparing`. -/
def MergeCounts (s : SortState) : Prop :=
  s.swaps = 0 ∧ s.comparisons = s.steps.countP Step.isCompare

/-- Number of evaluations of `L[i] <= R[j]` by the first loop of `merge`: one
for each pass of `while (i < n1 && j < n2)`, with the loop variables of
`mergeMain`. -/
def mergeMainEvals (L R : List Int) (n1 n2 : Nat) : Nat → Nat → Nat → Nat
  | 0, _, _ => 0
  | fuel + 1, i, j =>
    if i < n1 ∧ j < n2 then
      if idx L i ≤ idx R j then 1 + mergeMainEvals L R n1 n2 fuel (i + 1) j
      else 1 + mergeMainEvals L R n1 n2 fuel i (j + 1)
    else 0

/-- Number of evaluations of `L[i] <= R[j]` by one call `merge(left, mid, right)`
on the array `arr`. -/
def mergeEvals (arr : List Int) (left mid right : Nat) : Nat :=
  mergeMainEvals (slice arr left (mid + 1)) (slice arr (mid + 1) (right + 1))
    (mid - left + 1) (right - mid) (mid - left + 1 + (right - mid)) 0 0

/-- Number of elements that one call `merge(left, mid, right)` writes into the
array: one for each pass of its first loop (as many as it evaluates
comparisons) and one for each pass of the two loops that copy the rest. -/
def mergeWrites (arr : List Int) (left mid right : Nat) : Nat :=
  match mergeMain (slice arr left (mid + 1)) (slice arr (mid + 1) (right + 1))
      (mid - left + 1) (right - mid) (mid - left + 1 + (right - mid)) arr 0 0 left with
  | none => 0
  | some (_, i, j, _) => mergeEvals arr left mid right + (mid - left + 1 - i) + (right - mid - j)

/-- Number of evaluations of `L[i] <= R[j]` and number of elements written by
the call `mergeSortRec(l, r)` on the array `arr`, with the recursion of
`mergeSortRec`. -/
def mergeSortRecCounts : Nat → List Int → Nat → Nat → Nat × Nat
  | 0, _, _, _ => (0, 0)
  | fuel + 1, arr, l, r =>
    if l ≥ r then (0, 0)
    else
      let m := (l + r) / 2
      match mergeSortRec fuel arr l m with
      | none => (0, 0)
      | some a1 =>
        match mergeSortRec fuel a1 (m + 1) r with
        | none => (0, 0)
        | some a2 =>
          ((mergeSortRecCounts fuel arr l m).1 + (mergeSortRecCounts fuel a1 (m + 1) r).1 +
              mergeEvals a2 l m r,
            (mergeSortRecCounts fuel arr l m).2 + (mergeSortRecCounts fuel a1 (m + 1) r).2 +
              mergeWrites a2 l m r)

/-- Number of evaluations of `L[i] <= R[j]` by a run of `mergeSort` that is not
stopped. -/
def mergeSortEvals (array : List Int) : Nat :=
  (mergeSortRecCounts array.length array 0 (array.length - 1)).1

/-- Number of elements written into merged runs by a run of `mergeSort` that
is not stopped. -/
def mergeSortWrites (array : List Int) : Nat :=
  (mergeSortRecCounts array.length array 0 (array.length - 1)).2
/-! ## Tree page -/

/-- A `TreeNode` or `null`.  The fields `x`, `y` and `id` of the source class
are layout data that no algorithm reads. -/
inductive Tree where
  | nil : Tree
  | node (value : Int) (left right : Tree) : Tree
  deriving DecidableEq, Repr

/-- The function `insertNode(root, value)`. -/
def insertNode : Tree → Int → Tree
  | .nil, v => .node v .nil .nil
  | .node x l r, v =>
    if v < x then .node x (insertNode l v) r
    else if v > x then .node x l (insertNode r v)
    else .node x l r

/-- Loop `while (minNode.left) minNode = minNode.left` followed by the read of
`minNode.value`: `x` is the value of the current `minNode`, the tree its left
child. -/
def minValue (x : Int) : Tree → Int
  | .nil => x
  | .node y l _ => minValue y l

/-- The function `deleteNode(root, value)`. -/
def deleteNode : Tree → Int → Tree
  | .nil, _ => .nil
  | .node x l r, v =>
    if v < x then .node x (deleteNode l v) r
    else if v > x then .node x l (deleteNode r v)
    else
      match l with
      | .nil => r
      | .node lv ll lr =>
        match r with
        | .nil => .node lv ll lr
        | .node rv rl rr =>
          .node (minValue rv rl) (.node lv ll lr) (deleteNode (.node rv rl rr) (minValue rv rl))

/-- The closure `visit` of `traverse(type)`: the values of the collected
`nodes`, in order. -/
def visit (type : String) : Tree → List Int
  | .nil => []
  | .node x l r =>
    (if type = "preorder" then [x] else []) ++ visit type l ++
    (if type = "inorder" then [x] else []) ++ visit type r ++
    (if type = "postorder" then [x] else [])

/-- The final `traversalResult` of `traverse(type)`; `none` is the
"Tree is empty" message, after which no result is set. -/
def traverse (tree : Tree) (type : String) : Option (List Int) :=
  match tree with
  | .nil => none
  | t => some (visit type t)

/-- One edit of the tree page. -/
inductive TreeOp where
  | insert (v : Int) : TreeOp
  | delete (v : Int) : TreeOp
  deriving DecidableEq, Repr

/-- The tree after one edit (`handleInsert`, `handleDelete`). -/
def applyOp (t : Tree) : TreeOp → Tree
  | .insert v => insertNode t v
  | .delete v => deleteNode t v

/-- The tree after a sequence of edits, oldest first. -/
def applyOps (t : Tree) (ops : List TreeOp) : Tree := ops.foldl applyOp t

/-- In-order list of the values stored in a tree. -/
def Tree.values : Tree → List Int
  | .nil => []
  | .node x l r => l.values ++ x :: r.values

/-- The ordering invariant of the tree: at every node all values of the left
subtree are strictly smaller and all values of the right subtree strictly
greater. -/
def isBST : Tree → Prop
  | .nil => True
  | .node x l r => (∀ y ∈ l.values, y < x) ∧ (∀ y ∈ r.values, x < y) ∧ isBST l ∧ isBST r

/-- The ordering invariant can be checked by evaluation. -/
instance isBST.dec : (t : Tree) → Decidable (isBST t)
  | .nil => isTrue trivial
  | .node x l r =>
    have := isBST.dec l
    have := isBST.dec r
    inferInstanceAs (Decidable ((∀ y ∈ l.values, y < x) ∧ (∀ y ∈ r.values, x < y) ∧ isBST l ∧ isBST r))

/-- Number of nodes of a tree. -/
def Tree.size : Tree → Nat
  | .nil => 0
  | .node _ l r => l.size + 1 + r.size

/-- Second argument of `showMessage` on the tree page. -/
inductive MsgKind where
  | success : MsgKind
  | info : MsgKind
  | error : MsgKind
  deriving DecidableEq, Repr

/-- The messages that `handleDelete` and `searchValue` pass to `showMessage`,
by template: "Please enter a valid number", "Deleted v",
"Deleted v (tree is now empty)",
"Enter a valid number and ensure tree exists", "Found v!", "v not found". -/
inductive TreeMsg where
  | invalidNumber : TreeMsg
  | deleted (v : Int) : TreeMsg
  | deletedEmpty (v : Int) : TreeMsg
  | searchInvalid : TreeMsg
  | found (v : Int) : TreeMsg
  | notFound (v : Int) : TreeMsg
  deriving DecidableEq, Repr

/-- The type string that `showMessage` receives with each message. -/
def TreeMsg.kind : TreeMsg → MsgKind
  | TreeMsg.invalidNumber => MsgKind.error
  | TreeMsg.deleted _ => MsgKind.success
  | TreeMsg.deletedEmpty _ => MsgKind.info
  | TreeMsg.searchInvalid => MsgKind.error
  | TreeMsg.found _ => MsgKind.success
  | TreeMsg.notFound _ => MsgKind.error

/-- The function `handleDelete`: the new `tree` state and the message shown.
The argument `input` is `parseInt(value)`, `none` when the guard
`!value.trim() || isNaN(numValue)` rejects the input. -/
def handleDelete (tree : Tree) (input : Option Int) : Tree × TreeMsg :=
  match input with
  | none => (tree, TreeMsg.invalidNumber)
  | some numValue =>
    match deleteNode tree numValue with
    | Tree.nil => (Tree.nil, TreeMsg.deletedEmpty numValue)
    | Tree.node x l r => (Tree.node x l r, TreeMsg.deleted numValue)

/-- The loop `while (current)` of `searchValue`: the message it ends with and
the array `path` of highlighted values. -/
def searchLoop (numValue : Int) : Tree → List Int → TreeMsg × List Int
  | Tree.nil, path => (TreeMsg.notFound numValue, path)
  | Tree.node x l r, path =>
    if x = numValue then (TreeMsg.found numValue, path ++ [x])
    else if numValue < x then searchLoop numValue l (path ++ [x])
    else searchLoop numValue r (path ++ [x])

/-- The function `searchValue`: the message it ends with and the values it
highlighted, in order (each pass of the loop highlights the path so far). -/
def searchValue (tree : Tree) (input : Option Int) : TreeMsg × List Int :=
  match input, tree with
  | none, _ => (TreeMsg.searchInvalid, [])
  | some _, Tree.nil => (TreeMsg.searchInvalid, [])
  | some numValue, Tree.node x l r => searchLoop numValue (Tree.node x l r) []

/-- Descent of a search for `v`, in the words of the specification: one node
per level from the root, ending at the node that holds `v` or where the child
on the side of `v` is missing. -/
def descentPath : Tree → Int → List Int
  | Tree.nil, _ => []
  | Tree.node x l r, v =>
    x :: (if v = x then [] else if v < x then descentPath l v else descentPath r v)

/-- The list `p` holds the values of the nodes of a path of the tree that
starts at the root and steps from a node to one of its children. -/
def IsRootPath : Tree → List Int → Prop
  | Tree.nil, p => p = []
  | Tree.node x l r, p => p = [] ∨ ∃ rest, p = x :: rest ∧ (IsRootPath l rest ∨ IsRootPath r rest)

/-- Pre-order of the specification: node, left subtree, right subtree. -/
def preorderOf : Tree → List Int
  | Tree.nil => []
  | Tree.node x l r => x :: (preorderOf l ++ preorderOf r)

/-- In-order of the specification: left subtree, node, right subtree. -/
def inorderOf : Tree → List Int
  | Tree.nil => []
  | Tree.node x l r => inorderOf l ++ x :: inorderOf r

/-- Post-order of the specification: left subtree, right subtree, node. -/
def postorderOf : Tree → List Int
  | Tree.nil => []
  | Tree.node x l r => postorderOf l ++ postorderOf r ++ [x]

/-! ## Graph page -/

/-- A node of the graph; the fields `x`, `y` and `label` of the source objects
are layout data that no algorithm reads. -/
structure Node where
  id : Nat
  deriving DecidableEq, Repr

/-- An edge `{ from, to, weight }` (the field names `from` and `to` are
written `fromId` and `toId`). -/
structure Edge where
  fromId : Nat
  toId : Nat
  weight : Nat
  deriving DecidableEq, Repr

/-- The state `nodes`, `edges` of the graph page, in insertion order. -/
structure Graph where
  nodes : List Node
  edges : List Edge
  deriving DecidableEq, Repr

/-- Outcome of one run of a graph algorithm. -/
inductive Run (α : Type) where
  -- the guard at the top showed an error message and returned
  | rejected : Run α
  -- `adj.get(e.from)` or `adj.get(e.to)` was `undefined` and `.push` threw
  | threw : Run α
  -- the fuel of the embedding ran out before the loop ended
  | outOfFuel : Run α
  -- the run reached its last statement
  | completed (result : α) : Run α

/-- A `for ... of` or `forEach` loop whose body can fail: the state is threaded
through the elements, and the first failure ends the loop. -/
def forEachOpt {σ α : Type} (f : σ → α → Option σ) : σ → List α → Option σ
  | s, [] => some s
  | s, x :: xs =>
    match f s x with
    | none => none
    | some s1 => forEachOpt f s1 xs

/-- The call `adj.get(k).push(v)`; `none` when `adj.get(k)` is `undefined`. -/
def adjPush (adj : Nat → Option (List Nat)) (k v : Nat) : Option (Nat → Option (List Nat)) :=
  match adj k with
  | none => none
  | some l => some (fun x => if x = k then some (l ++ [v]) else adj x)

/-- The map `adj` built by `new Map(nodes.map((n) => [n.id, []]))` followed by
`edges.forEach((e) => { adj.get(e.from).push(e.to); adj.get(e.to).push(e.from) })`,
as the function `adj.get`; `none` when a `push` threw. -/
def buildAdj (nodes : List Node) (edges : List Edge) : Option (Nat → Option (List Nat)) :=
  forEachOpt
    (fun adj e =>
      match adjPush adj e.fromId e.toId with
      | none => none
      | some adj1 => adjPush adj1 e.toId e.fromId)
    (fun k => if k ∈ nodes.map Node.id then some [] else none)
    edges

/-- Local state of `bfs`: the set `visited` (in insertion order), the `queue`,
the nodes passed to `setCurrentNode` so far (`order`), the two counters, and
the last value passed to `setStats`. -/
structure BfsState where
  visited : List Nat
  queue : List Nat
  order : List Nat
  nodesVisited : Nat
  edgesExplored : Nat
  stats : Nat × Nat
  deriving DecidableEq, Repr

/-- One pass of `for (const neighbor of adj.get(current) || [])` in `bfs`. -/
def bfsNeighbor (s : BfsState) (neighbor : Nat) : BfsState :=
  if neighbor ∈ s.visited then { s with edgesExplored := s.edgesExplored + 1 }
  else { s with
    edgesExplored := s.edgesExplored + 1
    visited := s.visited ++ [neighbor]
    queue := s.queue ++ [neighbor] }

/-- The loop `while (queue.length > 0)` of `bfs`. -/
def bfsLoop (adj : Nat → Option (List Nat)) : Nat → BfsState → Option BfsState
  | fuel, s =>
    match s.queue with
    | [] => some s
    | current :: rest =>
      match fuel with
      | 0 => none
      | fuel + 1 =>
        bfsLoop adj fuel
          (((adj current).getD []).foldl bfsNeighbor
            { s with
              queue := rest
              order := s.order ++ [current]
              nodesVisited := s.nodesVisited + 1
              stats := (s.nodesVisited + 1, s.edgesExplored) })

/-- The function `bfs` of the graph page. -/
def bfs (g : Graph) : Run BfsState :=
  match g.nodes with
  | [] => Run.rejected
  | n0 :: _ =>
    match buildAdj g.nodes g.edges with
    | none => Run.threw
    | some adj =>
      match bfsLoop adj g.nodes.length
          { visited := [n0.id], queue := [n0.id], order := [], nodesVisited := 0,
            edgesExplored := 0, stats := (0, 0) } with
      | none => Run.outOfFuel
      | some s => Run.completed s

/-- Local state of `dfs`: the set `visited` (in insertion order), the nodes
passed to `setCurrentNode` so far (`order`), the two counters, and the last
value passed to `setStats`. -/
structure DfsState where
  visited : List Nat
  order : List Nat
  nodesVisited : Nat
  edgesExplored : Nat
  stats : Nat × Nat
  deriving DecidableEq, Repr

/-- The closure `dfsRecursive(nodeId)` of `dfs`. -/
def dfsRecursive (adj : Nat → Option (List Nat)) : Nat → Nat → DfsState → Option DfsState
  | 0, nodeId, s => if nodeId ∈ s.visited then some s else none
  | fuel + 1, nodeId, s =>
    if nodeId ∈ s.visited then some s
    else
      forEachOpt
        (fun s1 neighbor =>
          dfsRecursive adj fuel neighbor { s1 with edgesExplored := s1.edgesExplored + 1 })
        { s with
          visited := s.visited ++ [nodeId]
          order := s.order ++ [nodeId]
          nodesVisited := s.nodesVisited + 1
          stats := (s.nodesVisited + 1, s.edgesExplored) }
        ((adj nodeId).getD [])

/-- The function `dfs` of the graph page. -/
def dfs (g : Graph) : Run DfsState :=
  match g.nodes with
  | [] => Run.rejected
  | n0 :: _ =>
    match buildAdj g.nodes g.edges with
    | none => Run.threw
    | some adj =>
      match dfsRecursive adj g.nodes.length n0.id
          { visited := [], order := [], nodesVisited := 0, edgesExplored := 0, stats := (0, 0) } with
      | none => Run.outOfFuel
      | some s => Run.completed s

/-- Undirected adjacency of the graph: some edge joins `u` and `v`, in either
direction. -/
def Adj (g : Graph) (u v : Nat) : Prop :=
  ∃ e ∈ g.edges, (e.fromId = u ∧ e.toId = v) ∨ (e.toId = u ∧ e.fromId = v)

/-- The adjacency list that `edges.forEach` builds for the node `v`: for each
edge in order, its `to` when its `from` is `v`, then its `from` when its `to`
is `v`. -/
def neighborsOf : List Edge → Nat → List Nat
  | [], _ => []
  | e :: es, v =>
    (if e.fromId = v then [e.toId] else []) ++ (if e.toId = v then [e.fromId] else []) ++
      neighborsOf es v

/-- Membership of `v` in the connected component of `u`. -/
def Reachable (g : Graph) (u v : Nat) : Prop := Relation.ReflTransGen (Adj g) u v

/-- Every edge of the graph references existing node ids. -/
def EdgesValid (g : Graph) : Prop :=
  ∀ e ∈ g.edges, e.fromId ∈ g.nodes.map Node.id ∧ e.toId ∈ g.nodes.map Node.id

/-- The sample graph of `generateSampleGraph`. -/
def sampleGraph : Graph :=
  { nodes := [⟨1⟩, ⟨2⟩, ⟨3⟩, ⟨4⟩, ⟨5⟩]
    edges := [⟨1, 2, 4⟩, ⟨1, 4, 2⟩, ⟨2, 3, 3⟩, ⟨2, 4, 1⟩, ⟨2, 5, 5⟩, ⟨3, 5, 2⟩, ⟨4, 5, 3⟩] }


/-! ## Graph page: the editing handlers -/

/-- The React state of the graph page that the editing handlers read and
write: `nodes`, `edges`, `selectedNode`, `isAnimating`, `visitedNodes`,
`currentNode`, `path` and the record `stats` as the pair
`(nodesVisited, edgesExplored)`. -/
structure GraphPage where
  nodes : List Node
  edges : List Edge
  selectedNode : Option Node
  isAnimating : Bool
  visitedNodes : List Nat
  currentNode : Option Nat
  path : List Nat
  stats : Nat × Nat
  deriving DecidableEq, Repr

/-- The state of the graph page when it is mounted. -/
def GraphPage.empty : GraphPage :=
  { nodes := [], edges := [], selectedNode := none, isAnimating := false, visitedNodes := [],
    currentNode := none, path := [], stats := (0, 0) }

/-- The function `generateSampleGraph`: it replaces `nodes` and `edges` and
writes nothing else. -/
def generateSampleGraph (p : GraphPage) : GraphPage :=
  { p with nodes := sampleGraph.nodes, edges := sampleGraph.edges }

/-- The function `handleCanvasClick`.  The new id is
`Math.max(...nodes.map(n => n.id)) + 1`, or 1 on an empty node list; `hit n`
is the outcome of the distance test of the click against the node `n`
(the coordinates are layout data that the model does not carry). -/
def handleCanvasClick (hit : Node → Bool) (p : GraphPage) : GraphPage :=
  if p.isAnimating then p
  else if p.nodes.any hit then p
  else
    { p with
      nodes := p.nodes ++
        [⟨if p.nodes.length > 0 then (p.nodes.map Node.id).foldl max 0 + 1 else 1⟩] }

/-- The function `handleNodeClick(node)`; `weight` is the random weight
`Math.floor(Math.random() * 9) + 1` that it draws for a new edge. -/
def handleNodeClick (node : Node) (weight : Nat) (p : GraphPage) : GraphPage :=
  if p.isAnimating then p
  else
    match p.selectedNode with
    | none => { p with selectedNode := some node }
    | some sel =>
      if sel.id ≠ node.id then
        { p with edges := p.edges ++ [⟨sel.id, node.id, weight⟩], selectedNode := none }
      else { p with selectedNode := none }

/-- The function `resetGraph`. -/
def resetGraph (p : GraphPage) : GraphPage :=
  { p with
    nodes := []
    edges := []
    selectedNode := none
    visitedNodes := []
    currentNode := none
    path := []
    stats := (0, 0) }

/-- One click of the user on the graph page: on the canvas, on the `k`-th
node that the page renders (the nodes rendered are those of `nodes`), on the
button "Sample" or on the button "Clear". -/
inductive GraphOp where
  | canvasClick (hit : Node → Bool) : GraphOp
  | nodeClick (k : Nat) (weight : Nat) : GraphOp
  | sample : GraphOp
  | reset : GraphOp

/-- The state of the graph page after one click. -/
def applyGraphOp (p : GraphPage) : GraphOp → GraphPage
  | GraphOp.canvasClick hit => handleCanvasClick hit p
  | GraphOp.nodeClick k weight =>
    match p.nodes[k]? with
    | none => p
    | some node => handleNodeClick node weight p
  | GraphOp.sample => generateSampleGraph p
  | GraphOp.reset => resetGraph p

/-- The state of the graph page after a sequence of clicks, oldest first. -/
def applyGraphOps (p : GraphPage) (ops : List GraphOp) : GraphPage := ops.foldl applyGraphOp p

/-- The graph that the algorithms of the page read from its state. -/
def GraphPage.graph (p : GraphPage) : Graph := { nodes := p.nodes, edges := p.edges }

/-! ## Linked-list page: the statistics record -/

/-- The record `stats` of the linked-list page; a field is `none` when the
object has no such property (a read of it gives `undefined`). -/
structure ListStats where
  nodes : Option Nat
  operations : Option Nat
  traversals : Option Nat
  deriving DecidableEq, Repr

/-- The React state of the linked-list page that `clearList` writes. -/
structure ListPage where
  list : List String
  value : String
  highlightedIndex : Option Nat
  stats : ListStats
  deriving DecidableEq, Repr

/-- The function `clearList`: it ends with
`setStats(\x7b nodes: 0, operations: 0 \x7d)`, an object without the
property `traversals`. -/
def clearList (p : ListPage) : ListPage :=
  { p with
    list := []
    value := ""
    highlightedIndex := none
    stats := { nodes := some 0, operations := some 0, traversals := none } }
/-- A value read from the object `distances`: `undefined` (no such key),
`Infinity`, or a finite number. -/
inductive Dist where
  | undef : Dist
  | inf : Dist
  | fin (d : Nat) : Dist
  deriving DecidableEq, Repr

/-- The comparison `newDistance < distances[neighbor]` for a finite
`newDistance`: against `undefined` it is false, against `Infinity` true. -/
def Dist.gt : Dist → Nat → Bool
  | Dist.undef, _ => false
  | Dist.inf, _ => true
  | Dist.fin d, n => decide (n < d)

/-- An entry `{ node, distance }` of the array `pq`. -/
structure PQEntry where
  node : Nat
  distance : Nat
  deriving DecidableEq, Repr

/-- Local state of `dijkstra`: the objects `distances` and `parent`, the set
`visited` (in insertion order), the array `pq`, the two counters, and the last
value passed to `setStats`. -/
structure DijkstraState where
  distances : Nat → Dist
  parent : Nat → Option Nat
  visited : List Nat
  pq : List PQEntry
  nodesVisited : Nat
  edgesExplored : Nat
  stats : Nat × Nat

/-- What a run of `dijkstra` leaves for the page. -/
inductive DijkstraRun where
  -- fewer than two nodes: "Add at least 2 nodes!"
  | rejected : DijkstraRun
  -- the fuel of the embedding ran out before the loop ended
  | outOfFuel : DijkstraRun
  -- the target was extracted: `setPath(pathArray)` and the message
  -- "Path found! Distance: ${distances[end]}"
  | found (path : List Nat) (distance : Dist) (visitedNodes : List Nat) (stats : Nat × Nat) :
      DijkstraRun
  -- `pq` ran empty: "Dijkstra completed!", the path stays `[]`
  | completed (visitedNodes : List Nat) (stats : Nat × Nat) : DijkstraRun
  deriving DecidableEq, Repr

/-- The state `path` of the page after the run: `dijkstra` calls `setPath([])`
when it starts and `setPath(pathArray)` when it extracts the target; a
rejected run leaves the state as it was (`none`). -/
def DijkstraRun.pathLeft : DijkstraRun → Option (List Nat)
  | DijkstraRun.rejected => none
  | DijkstraRun.outOfFuel => none
  | DijkstraRun.found path _ _ _ => some path
  | DijkstraRun.completed _ _ => some []

/-- The call `pq.sort((a, b) => a.distance - b.distance)`: a stable sort by
ascending distance. -/
def sortPQ (pq : List PQEntry) : List PQEntry :=
  List.insertionSort (fun a b => a.distance ≤ b.distance) pq

/-- One pass of `for (const edge of neighbors)` in `dijkstra`.  When
`distances[current]` is not a finite number, `newDistance` is `Infinity` or
`NaN` and the comparison is false.  The sum `distances[current] + edge.weight`
is the integer sum: this is the double sum of the source as long as the sum
is at most `2 ^ 53` (`relaxChecked` carries the check), and the theorems
that depend on the value of a distance bound the weights accordingly. -/
def relax (current : Nat) (s : DijkstraState) (edge : Edge) : DijkstraState :=
  let neighbor := if edge.fromId = current then edge.toId else edge.fromId
  match s.distances current with
  | Dist.fin dc =>
    let newDistance := dc + edge.weight
    if (s.distances neighbor).gt newDistance then
      { s with
        edgesExplored := s.edgesExplored + 1
        distances := fun k => if k = neighbor then Dist.fin newDistance else s.distances k
        parent := fun k => if k = neighbor then some current else s.parent k
        pq := s.pq ++ [⟨neighbor, newDistance⟩] }
    else { s with edgesExplored := s.edgesExplored + 1 }
  | _ => { s with edgesExplored := s.edgesExplored + 1 }

/-- The loop `while (node !== undefined) { pathArray.unshift(node); node = parent[node] }`. -/
def reconstruct (parent : Nat → Option Nat) : Nat → Nat → List Nat → Option (List Nat)
  | 0, _, _ => none
  | fuel + 1, node, pathArray =>
    match parent node with
    | none => some (node :: pathArray)
    | some p => reconstruct parent fuel p (node :: pathArray)

/-- The loop `while (pq.length > 0)` of `dijkstra`. -/
def dijkstraLoop (edges : List Edge) (endId : Nat) : Nat → DijkstraState → DijkstraRun
  | 0, s =>
    match sortPQ s.pq with
    | [] => DijkstraRun.completed s.visited s.stats
    | _ :: _ => DijkstraRun.outOfFuel
  | fuel + 1, s =>
    match sortPQ s.pq with
    | [] => DijkstraRun.completed s.visited s.stats
    | top :: rest =>
      if top.node ∈ s.visited then dijkstraLoop edges endId fuel { s with pq := rest }
      else
        let s1 : DijkstraState :=
          { s with
            pq := rest
            visited := s.visited ++ [top.node]
            nodesVisited := s.nodesVisited + 1
            stats := (s.nodesVisited + 1, s.edgesExplored) }
        if top.node = endId then
          match reconstruct s1.parent s1.visited.length endId [] with
          | none => DijkstraRun.outOfFuel
          | some pathArray =>
            DijkstraRun.found pathArray (s1.distances endId) s1.visited s1.stats
        else
          dijkstraLoop edges endId fuel
            ((edges.filter (fun e => e.fromId = top.node || e.toId = top.node)).foldl
              (relax top.node) s1)

/-- The state of `dijkstra` when its loop starts: every node id at `Infinity`,
the start at `0` and in `pq`. -/
def dijkstraInit (g : Graph) (start : Nat) : DijkstraState :=
  { distances := fun k =>
      if k = start then Dist.fin 0
      else if k ∈ g.nodes.map Node.id then Dist.inf else Dist.undef
    parent := fun _ => none
    visited := []
    pq := [⟨start, 0⟩]
    nodesVisited := 0
    edgesExplored := 0
    stats := (0, 0) }

/-- The function `dijkstra` of the graph page, from `nodes[0]` to
`nodes[nodes.length - 1]`. -/
def dijkstra (g : Graph) : DijkstraRun :=
  if g.nodes.length < 2 then DijkstraRun.rejected
  else
    match g.nodes.head?, g.nodes.getLast? with
    | some n0, some nl =>
      dijkstraLoop g.edges nl.id (2 * g.edges.length + 1) (dijkstraInit g n0.id)
    | _, _ => DijkstraRun.rejected

/-- The edge `e` joins `u` and `v`, in either direction. -/
def Joins (e : Edge) (u v : Nat) : Prop :=
  (e.fromId = u ∧ e.toId = v) ∨ (e.toId = u ∧ e.fromId = v)

/-- The list `es` of edges of the graph joins the consecutive nodes of the
node list `p`, one edge per step. -/
def JoinsPath (g : Graph) : List Nat → List Edge → Prop
  | [_], [] => True
  | u :: v :: rest, e :: es => e ∈ g.edges ∧ Joins e u v ∧ JoinsPath g (v :: rest) es
  | _, _ => False

/-- Total weight of a list of edges. -/
def walkWeight (es : List Edge) : Nat := (es.map Edge.weight).sum

/-- Some walk from `u` to `v` along edges of the graph, each used in either
direction, has total weight `W`. -/
inductive Walk (g : Graph) (u : Nat) : Nat → Nat → Prop where
  | nil : Walk g u u 0
  | snoc (v w W : Nat) (e : Edge) : Walk g u v W → e ∈ g.edges → Joins e v w →
      Walk g u w (W + e.weight)

/-- Loop invariant of `bfs` for the graph `g` and the start node `start`. -/
structure BfsInv (g : Graph) (start : Nat) (s : BfsState) : Prop where
  split : s.visited = s.order ++ s.queue
  nodup : s.visited.Nodup
  reach : ∀ v ∈ s.visited, Reachable g start v
  closed : ∀ u ∈ s.order, ∀ w, Adj g u w → w ∈ s.visited
  start_mem : start ∈ s.visited
  count : s.nodesVisited = s.order.length
  stats_eq : s.stats.1 = s.order.length
  ids : ∀ v ∈ s.visited, v ∈ g.nodes.map Node.id

/-- Invariant of the local state of `dfs` between two calls of
`dfsRecursive`. -/
structure DfsInv (g : Graph) (s : DfsState) : Prop where
  nodup : s.visited.Nodup
  ids : ∀ v ∈ s.visited, v ∈ g.nodes.map Node.id
  order_eq : s.order = s.visited
  count : s.nodesVisited = s.order.length
  stats_eq : s.stats.1 = s.order.length

/-- The edge validity condition can be checked by evaluation. -/
instance EdgesValid.dec (g : Graph) : Decidable (EdgesValid g) :=
  inferInstanceAs (Decidable (∀ e ∈ g.edges,
    e.fromId ∈ g.nodes.map Node.id ∧ e.toId ∈ g.nodes.map Node.id))


/-- A walk of `k` edges of the graph from `u` to the last argument, the edges
taken in either direction. -/
def HopWalk (g : Graph) (u : Nat) : Nat → Nat → Prop
  | 0, v => v = u
  | k + 1, w => ∃ v, HopWalk g u k v ∧ Adj g v w

/-- The hop distance from `u` to `v` is `d`: some walk from `u` to `v` has `d`
edges and none has fewer. -/
def IsHopDist (g : Graph) (u v d : Nat) : Prop :=
  HopWalk g u d v ∧ ∀ k, HopWalk g u k v → d ≤ k

/-- Loop invariant of `bfs` with the level `lvl v` at which each node was
put in the queue: the nodes dequeued and queued are in non-decreasing order
of level, two queued nodes differ by at most one level, every visited node is
at the end of a walk of `lvl v` edges from the start, and every neighbour of
a dequeued node is visited, at most one level further. -/
structure BfsLevels (g : Graph) (start : Nat) (lvl : Nat → Nat) (s : BfsState) : Prop where
  split : s.visited = s.order ++ s.queue
  nodup : s.visited.Nodup
  start_mem : start ∈ s.visited
  start_zero : lvl start = 0
  sorted : (s.order ++ s.queue).Pairwise (fun u v => lvl u ≤ lvl v)
  span : ∀ u ∈ s.queue, ∀ v ∈ s.queue, lvl v ≤ lvl u + 1
  walk : ∀ v ∈ s.visited, HopWalk g start (lvl v) v
  closed : ∀ u ∈ s.order, ∀ w, Adj g u w → w ∈ s.visited ∧ lvl w ≤ lvl u + 1
/-- The graph without the edges that name an id that is no node; `dijkstra`
never follows such an edge, since the distance of its far end is
`undefined`. -/
def validPart (g : Graph) : Graph :=
  { nodes := g.nodes
    edges := g.edges.filter
      (fun e => e.fromId ∈ g.nodes.map Node.id ∧ e.toId ∈ g.nodes.map Node.id) }

/-- Loop invariant of `dijkstra` for the graph `g` and the source `start`;
`done` holds of the nodes whose incident edges have all been relaxed. -/
structure DInv (g : Graph) (start : Nat) (done : Nat → Prop) (s : DijkstraState) : Prop where
  start_zero : s.distances start = Dist.fin 0
  undef_iff : ∀ v, s.distances v = Dist.undef ↔ v ∉ g.nodes.map Node.id
  real : ∀ v d, s.distances v = Dist.fin d → Walk (validPart g) start v d
  opt : ∀ u ∈ s.visited, ∃ du, s.distances u = Dist.fin du ∧
    ∀ W, Walk (validPart g) start u W → du ≤ W
  relaxed : ∀ x, done x → ∃ dx, s.distances x = Dist.fin dx ∧
    ∀ e ∈ (validPart g).edges, ∀ w, Joins e x w →
      ∃ dw, s.distances w = Dist.fin dw ∧ dw ≤ dx + e.weight
  queued : ∀ v d, s.distances v = Dist.fin d → v ∉ s.visited → (⟨v, d⟩ : PQEntry) ∈ s.pq
  pq_ge : ∀ x ∈ s.pq, ∃ d, s.distances x.node = Dist.fin d ∧ d ≤ x.distance
  par : ∀ v u, s.parent v = some u → u ∈ s.visited ∧
    ∃ e ∈ (validPart g).edges, Joins e u v ∧
      ∃ du, s.distances u = Dist.fin du ∧ s.distances v = Dist.fin (du + e.weight)
  root : s.parent start = none ∧
    ∀ v d, s.distances v = Dist.fin d → v ≠ start → s.parent v ≠ none
  ord : ∀ v u, s.parent v = some u → ∀ pre post, s.visited = pre ++ v :: post → u ∈ pre

/-- The order by which `pq` is sorted is total. -/
instance pqLe_total : IsTotal PQEntry (fun a b => a.distance ≤ b.distance) :=
  ⟨fun a b => Nat.le_total a.distance b.distance⟩

/-- The order by which `pq` is sorted is transitive. -/
instance pqLe_trans : IsTrans PQEntry (fun a b => a.distance ≤ b.distance) :=
  ⟨fun _ _ _ h1 h2 => Nat.le_trans h1 h2⟩

/-- Number of edge ends that are not yet in `visited`; it bounds the number
of entries `dijkstra` can still push to `pq`. -/
def unvisitedEnds (edges : List Edge) (visited : List Nat) : Nat :=
  (edges.map (fun e =>
    (if e.fromId ∈ visited then 0 else 1) + (if e.toId ∈ visited then 0 else 1))).sum


/-- The pass `relax` with a check of the sum it forms: `none` when
`distances[current] + edge.weight` exceeds `2 ^ 53`.  The source adds the two
numbers as doubles; every integer up to `2 ^ 53` is a double, so a sum of two
integers that is at most `2 ^ 53` is computed without rounding and is the
integer sum of `relax`. -/
def relaxChecked (current : Nat) (s : DijkstraState) (edge : Edge) : Option DijkstraState :=
  match s.distances current with
  | Dist.fin dc => if dc + edge.weight ≤ 2 ^ 53 then some (relax current s edge) else none
  | _ => some (relax current s edge)

/-- The loop of `dijkstra` with the check of `relaxChecked` on every sum: `none`
when some sum of the run exceeds `2 ^ 53`, else the outcome of the run. -/
def dijkstraLoopChecked (edges : List Edge) (endId : Nat) :
    Nat → DijkstraState → Option DijkstraRun
  | 0, s => some (dijkstraLoop edges endId 0 s)
  | fuel + 1, s =>
    match sortPQ s.pq with
    | [] => some (DijkstraRun.completed s.visited s.stats)
    | top :: rest =>
      if top.node ∈ s.visited then dijkstraLoopChecked edges endId fuel { s with pq := rest }
      else
        let s1 : DijkstraState :=
          { s with
            pq := rest
            visited := s.visited ++ [top.node]
            nodesVisited := s.nodesVisited + 1
            stats := (s.nodesVisited + 1, s.edgesExplored) }
        if top.node = endId then
          match reconstruct s1.parent s1.visited.length endId [] with
          | none => some DijkstraRun.outOfFuel
          | some pathArray =>
            some (DijkstraRun.found pathArray (s1.distances endId) s1.visited s1.stats)
        else
          match forEachOpt (relaxChecked top.node) s1
              (edges.filter (fun e => e.fromId = top.node || e.toId = top.node)) with
          | none => none
          | some s2 => dijkstraLoopChecked edges endId fuel s2

/-- The function `dijkstra` with the check of `relaxChecked` on every sum of
the run. -/
def dijkstraChecked (g : Graph) : Option DijkstraRun :=
  if g.nodes.length < 2 then some DijkstraRun.rejected
  else
    match g.nodes.head?, g.nodes.getLast? with
    | some n0, some nl =>
      dijkstraLoopChecked g.edges nl.id (2 * g.edges.length + 1) (dijkstraInit g n0.id)
    | _, _ => some DijkstraRun.rejected
/-! ## Sorting page: proofs -/

theorem idx_eq_getElem (arr : List Int) (i : Nat) (h : i < arr.length) : idx arr i = arr[i] := by
  simp [idx, List.getElem?_eq_getElem h]

theorem idx_set (arr : List Int) (i k : Nat) (v : Int) :
    idx (arr.set i v) k = if k = i ∧ i < arr.length then v else idx arr k := by
  unfold idx
  rw [List.getElem?_set]
  by_cases h : i = k
  · subst h
    by_cases h2 : i < arr.length
    · simp [h2]
    · simp [h2, List.getElem?_eq_none (not_lt.mp h2)]
  · have : ¬ k = i := fun e => h e.symm
    simp [h, this]

theorem length_swap (arr : List Int) (i j : Nat) : (swap arr i j).length = arr.length := by
  simp [swap]

theorem idx_swap (arr : List Int) (i j k : Nat) (hi : i < arr.length) (hj : j < arr.length) :
    idx (swap arr i j) k = if k = j then idx arr i else if k = i then idx arr j else idx arr k := by
  unfold swap
  rw [idx_set, idx_set]
  simp only [List.length_set, hi, hj, and_true]

theorem idx_mem (arr : List Int) (i : Nat) (h : i < arr.length) : idx arr i ∈ arr := by
  rw [idx_eq_getElem arr i h]; exact List.getElem_mem h

theorem set_perm_of_idx (arr : List Int) (i j : Nat) (hi : i < arr.length) (hj : j < arr.length)
    (hij : i ≠ j) : List.Perm ((arr.set i (idx arr j)).set j (idx arr i)) arr := by
  rw [List.perm_iff_count]
  intro b
  have hj2 : j < (arr.set i (idx arr j)).length := by simpa using hj
  rw [List.count_set _ _ _ _ hj2, List.count_set _ _ _ _ hi]
  have e1 : (arr.set i (idx arr j))[j] = idx arr j := by
    rw [List.getElem_set_ne hij]; exact (idx_eq_getElem arr j hj).symm
  rw [e1, ← idx_eq_getElem arr i hi]
  have hc : (if (idx arr i == b) = true then 1 else 0) ≤ arr.count b := by
    split_ifs with h
    · have : idx arr i = b := by simpa using h
      rw [← this]
      exact List.count_pos_iff.2 (idx_mem arr i hi)
    · exact Nat.zero_le _
  omega

theorem swap_perm (arr : List Int) (i j : Nat) (hi : i < arr.length) (hj : j < arr.length) :
    List.Perm (swap arr i j) arr := by
  by_cases hij : i = j
  · subst hij
    have : swap arr i i = arr := by
      apply List.ext_getElem?
      intro n
      unfold swap
      simp only [List.getElem?_set, List.length_set, hi, if_true]
      by_cases e : i = n
      · subst e; simp [idx, List.getElem?_eq_getElem hi]
      · simp [e]
    rw [this]
  · exact set_perm_of_idx arr i j hi hj hij

/-- Index form of sortedness. -/
theorem sorted_of_idx (arr : List Int)
    (h : ∀ a b, a < b → b < arr.length → idx arr a ≤ idx arr b) : arr.Sorted (· ≤ ·) := by
  rw [List.Sorted, List.pairwise_iff_getElem]
  intro i j hi hj hij
  have := h i j hij hj
  rwa [idx_eq_getElem arr i hi, idx_eq_getElem arr j hj] at this

/-! ### Bubble sort -/

theorem bubbleInner_spec (cnt : Nat) : ∀ (arr : List Int) (j : Nat), j + cnt < arr.length →
    (∀ k, k ≤ j → idx arr k ≤ idx arr j) →
    (bubbleInner arr j cnt).length = arr.length ∧
    List.Perm (bubbleInner arr j cnt) arr ∧
    (∀ k, j + cnt < k → idx (bubbleInner arr j cnt) k = idx arr k) ∧
    (∀ k, k ≤ j + cnt → idx (bubbleInner arr j cnt) k ≤ idx (bubbleInner arr j cnt) (j + cnt)) ∧
    (∀ k, k ≤ j + cnt → ∃ k2, k2 ≤ j + cnt ∧ idx (bubbleInner arr j cnt) k = idx arr k2) := by
  induction cnt with
  | zero =>
    intro arr j _ hmax
    exact ⟨rfl, List.Perm.refl _, fun _ _ => rfl, hmax, fun k hk => ⟨k, hk, rfl⟩⟩
  | succ cnt ih =>
    intro arr j hlen hmax
    have hj : j < arr.length := by omega
    have hj1 : j + 1 < arr.length := by omega
    simp only [bubbleInner]
    by_cases hc : idx arr j > idx arr (j + 1)
    · simp only [hc, if_true]
      have hl : (swap arr j (j + 1)).length = arr.length := length_swap _ _ _
      have hmax1 : ∀ k, k ≤ j + 1 → idx (swap arr j (j + 1)) k ≤ idx (swap arr j (j + 1)) (j + 1) := by
        intro k hk
        rw [idx_swap arr j (j + 1) k hj hj1, idx_swap arr j (j + 1) (j + 1) hj hj1]
        simp only [if_true]
        split_ifs with h1 h2
        · exact le_refl _
        · omega
        · exact hmax k (by omega)
      obtain ⟨r1, r2, r3, r4, r5⟩ := ih (swap arr j (j + 1)) (j + 1) (by rw [hl]; omega) hmax1
      have e : j + 1 + cnt = j + (cnt + 1) := by omega
      rw [e] at r3 r4 r5
      refine ⟨r1.trans hl, r2.trans (swap_perm arr j (j + 1) hj hj1), ?_, r4, ?_⟩
      · intro k hk
        rw [r3 k hk, idx_swap arr j (j + 1) k hj hj1]
        have h1 : ¬ k = j + 1 := by omega
        have h2 : ¬ k = j := by omega
        simp only [h1, h2, if_false]
      · intro k hk
        obtain ⟨k2, hk2, e2⟩ := r5 k hk
        rw [e2, idx_swap arr j (j + 1) k2 hj hj1]
        split_ifs with h1 h2
        · exact ⟨j, by omega, rfl⟩
        · exact ⟨j + 1, by omega, rfl⟩
        · exact ⟨k2, hk2, rfl⟩
    · simp only [hc, if_false]
      have hmax1 : ∀ k, k ≤ j + 1 → idx arr k ≤ idx arr (j + 1) := by
        intro k hk
        by_cases e : k = j + 1
        · subst e; exact le_refl _
        · have := hmax k (by omega); omega
      obtain ⟨r1, r2, r3, r4, r5⟩ := ih arr (j + 1) (by omega) hmax1
      have e : j + 1 + cnt = j + (cnt + 1) := by omega
      rw [e] at r3 r4 r5
      exact ⟨r1, r2, r3, r4, r5⟩

theorem bubbleOuter_spec (n : Nat) (cnt : Nat) : ∀ (arr : List Int) (i : Nat), arr.length = n →
    i + cnt = n - 1 →
    (∀ a b, n - i ≤ b → a ≤ b → b < n → idx arr a ≤ idx arr b) →
    (bubbleOuter n arr i cnt).length = n ∧
    List.Perm (bubbleOuter n arr i cnt) arr ∧
    (∀ a b, 1 ≤ b → a ≤ b → b < n → idx (bubbleOuter n arr i cnt) a ≤ idx (bubbleOuter n arr i cnt) b) := by
  induction cnt with
  | zero =>
    intro arr i hn hi hinv
    refine ⟨hn, List.Perm.refl _, ?_⟩
    intro a b hb hab hbn
    exact hinv a b (by omega) hab hbn
  | succ cnt ih =>
    intro arr i hn hi hinv
    simp only [bubbleOuter]
    obtain ⟨r1, r2, r3, r4, r5⟩ := bubbleInner_spec (n - i - 1) arr 0 (by omega)
      (by intro k hk; have : k = 0 := by omega
          subst this; exact le_refl _)
    simp only [Nat.zero_add] at r3 r4 r5
    have hinv1 : ∀ a b, n - (i + 1) ≤ b → a ≤ b → b < n →
        idx (bubbleInner arr 0 (n - i - 1)) a ≤ idx (bubbleInner arr 0 (n - i - 1)) b := by
      intro a b hb hab hbn
      by_cases e : b = n - i - 1
      · subst e; exact r4 a hab
      · have hb2 : n - i - 1 < b := by omega
        rw [r3 b hb2]
        by_cases ha : n - i - 1 < a
        · rw [r3 a ha]; exact hinv a b (by omega) hab hbn
        · obtain ⟨k2, hk2, e2⟩ := r5 a (by omega)
          rw [e2]; exact hinv k2 b (by omega) (by omega) hbn
    obtain ⟨s1, s2, s3⟩ := ih (bubbleInner arr 0 (n - i - 1)) (i + 1) (r1.trans hn) (by omega) hinv1
    exact ⟨s1, s2.trans r2, s3⟩

theorem bubbleSort_spec (array : List Int) :
    (bubbleSort array).Sorted (· ≤ ·) ∧ List.Perm (bubbleSort array) array := by
  obtain ⟨r1, r2, r3⟩ := bubbleOuter_spec array.length (array.length - 1) array 0 rfl (by omega)
    (by intro a b hb _ hbn; omega)
  refine ⟨sorted_of_idx _ ?_, r2⟩
  intro a b hab hb
  exact r3 a b (by omega) (by omega) (by unfold bubbleSort at hb; omega)

/-! ### Selection sort -/

theorem selectionInner_spec (arr : List Int) (i : Nat) (cnt : Nat) : ∀ (minIdx j : Nat),
    j + cnt = arr.length → i ≤ minIdx → minIdx < j →
    (∀ k, i ≤ k → k < j → idx arr minIdx ≤ idx arr k) →
    i ≤ selectionInner arr minIdx j cnt ∧ selectionInner arr minIdx j cnt < arr.length ∧
    (∀ k, i ≤ k → k < arr.length →
      idx arr (selectionInner arr minIdx j cnt) ≤ idx arr k) := by
  induction cnt with
  | zero =>
    intro minIdx j hj h1 h2 hmin
    simp only [selectionInner]
    exact ⟨h1, by omega, fun k hk hk2 => hmin k hk (by omega)⟩
  | succ cnt ih =>
    intro minIdx j hj h1 h2 hmin
    simp only [selectionInner]
    by_cases hc : idx arr j < idx arr minIdx
    · simp only [hc, if_true]
      apply ih j (j + 1) (by omega) (by omega) (by omega)
      intro k hk hk2
      by_cases e : k = j
      · subst e; exact le_refl _
      · have := hmin k hk (by omega); omega
    · simp only [hc, if_false]
      apply ih minIdx (j + 1) (by omega) h1 (by omega)
      intro k hk hk2
      by_cases e : k = j
      · subst e; omega
      · exact hmin k hk (by omega)

theorem selectionOuter_spec (n : Nat) (cnt : Nat) : ∀ (arr : List Int) (i : Nat), arr.length = n →
    i + cnt = n →
    (∀ a b, a < i → a ≤ b → b < n → idx arr a ≤ idx arr b) →
    (selectionOuter n arr i cnt).length = n ∧
    List.Perm (selectionOuter n arr i cnt) arr ∧
    (∀ a b, a ≤ b → b < n → idx (selectionOuter n arr i cnt) a ≤ idx (selectionOuter n arr i cnt) b) := by
  induction cnt with
  | zero =>
    intro arr i hn hi hinv
    refine ⟨hn, List.Perm.refl _, ?_⟩
    intro a b hab hbn
    exact hinv a b (by omega) hab hbn
  | succ cnt ih =>
    intro arr i hn hi hinv
    simp only [selectionOuter]
    obtain ⟨m1, m2, m3⟩ := selectionInner_spec arr i (n - (i + 1)) i (i + 1) (by omega)
      (le_refl _) (by omega)
      (by intro k hk hk2; have : k = i := by omega
          subst this; exact le_refl _)
    generalize selectionInner arr i (i + 1) (n - (i + 1)) = m at m1 m2 m3
    have hi2 : i < arr.length := by omega
    -- the array after the conditional swap
    have key : ∃ arr1 : List Int, (if m ≠ i then swap arr i m else arr) = arr1 ∧
        arr1.length = n ∧ List.Perm arr1 arr ∧
        (∀ k, k < i → idx arr1 k = idx arr k) ∧
        idx arr1 i = idx arr m ∧
        (∀ k, i ≤ k → k < n → ∃ k2, i ≤ k2 ∧ k2 < n ∧ idx arr1 k = idx arr k2) := by
      by_cases hm : m = i
      · subst hm
        refine ⟨arr, by simp, hn, List.Perm.refl _, fun _ _ => rfl, rfl, ?_⟩
        intro k hk hk2; exact ⟨k, hk, hk2, rfl⟩
      · refine ⟨swap arr i m, by simp [hm], (length_swap _ _ _).trans hn,
          swap_perm arr i m hi2 m2, ?_, ?_, ?_⟩
        · intro k hk
          rw [idx_swap arr i m k hi2 m2]
          have h1 : ¬ k = m := by omega
          have h2 : ¬ k = i := by omega
          simp only [h1, h2, if_false]
        · rw [idx_swap arr i m i hi2 m2]
          have h1 : ¬ i = m := fun e => hm e.symm
          simp only [h1, if_false, if_true]
        · intro k hk hk2
          rw [idx_swap arr i m k hi2 m2]
          split_ifs with h1 h2
          · exact ⟨i, le_refl _, by omega, rfl⟩
          · exact ⟨m, m1, by omega, rfl⟩
          · exact ⟨k, hk, hk2, rfl⟩
    obtain ⟨arr1, e1, l1, p1, u1, v1, w1⟩ := key
    rw [e1]
    have hinv1 : ∀ a b, a < i + 1 → a ≤ b → b < n → idx arr1 a ≤ idx arr1 b := by
      intro a b ha hab hbn
      by_cases hai : a < i
      · rw [u1 a hai]
        by_cases hbi : b < i
        · rw [u1 b hbi]; exact hinv a b hai hab hbn
        · obtain ⟨k2, c1, c2, c3⟩ := w1 b (by omega) hbn
          rw [c3]; exact hinv a k2 hai (by omega) c2
      · have : a = i := by omega
        subst this
        obtain ⟨k2, c1, c2, c3⟩ := w1 b hab hbn
        rw [v1, c3]; exact m3 k2 c1 (by omega)
    obtain ⟨s1, s2, s3⟩ := ih arr1 (i + 1) l1 (by omega) hinv1
    exact ⟨s1, s2.trans p1, s3⟩

theorem selectionSort_spec (array : List Int) :
    (selectionSort array).Sorted (· ≤ ·) ∧ List.Perm (selectionSort array) array := by
  obtain ⟨r1, r2, r3⟩ := selectionOuter_spec array.length array.length array 0 rfl (by omega)
    (by intro a b ha; omega)
  refine ⟨sorted_of_idx _ ?_, r2⟩
  intro a b hab hb
  exact r3 a b (by omega) (by unfold selectionSort at hb; omega)

/-! ### Insertion sort -/

theorem set_idx_self (arr : List Int) (i : Nat) : arr.set i (idx arr i) = arr := by
  apply List.ext_getElem?
  intro n
  rw [List.getElem?_set]
  by_cases e : i = n
  · subst e
    by_cases h : i < arr.length
    · simp [h, idx, List.getElem?_eq_getElem h]
    · simp [h, List.getElem?_eq_none (not_lt.mp h)]
  · simp [e]

theorem shift_eq_swap (arr : List Int) (j : Nat) (key : Int) (hj : j + 1 < arr.length) :
    (arr.set (j + 1) (idx arr j)).set j key = swap (arr.set (j + 1) key) j (j + 1) := by
  have hj0 : j < arr.length := by omega
  apply List.ext_getElem?
  intro n
  unfold swap
  rw [idx_set, idx_set]
  have h1 : ¬ (j = j + 1 ∧ j + 1 < arr.length) := by omega
  simp only [h1, if_false, hj, and_self, if_true]
  simp only [List.getElem?_set, List.length_set, hj, hj0, if_true]
  by_cases e1 : j = n
  · subst e1
    have : ¬ j + 1 = j := by omega
    simp [this]
  · by_cases e2 : j + 1 = n
    · subst e2; simp
    · simp [e1, e2]

theorem insertionInner_spec (key : Int) (n i : Nat) (j1 : Nat) : ∀ (arr : List Int),
    arr.length = n → j1 ≤ i → i < n →
    (∀ a b, a ≤ b → b ≤ i → a ≠ j1 → b ≠ j1 → idx arr a ≤ idx arr b) →
    (∀ b, j1 < b → b ≤ i → key < idx arr b) →
    ((insertionInner key arr j1).1.set (insertionInner key arr j1).2 key).length = n ∧
    List.Perm ((insertionInner key arr j1).1.set (insertionInner key arr j1).2 key) (arr.set j1 key) ∧
    (∀ a b, a ≤ b → b ≤ i →
      idx ((insertionInner key arr j1).1.set (insertionInner key arr j1).2 key) a ≤
        idx ((insertionInner key arr j1).1.set (insertionInner key arr j1).2 key) b) := by
  induction j1 with
  | zero =>
    intro arr hn _ hin s1 s2
    simp only [insertionInner]
    refine ⟨by simpa using hn, List.Perm.refl _, ?_⟩
    intro a b hab hb
    rw [idx_set, idx_set]
    have h0 : 0 < arr.length := by omega
    simp only [h0, and_true]
    split_ifs with h1 h2 h2
    · exact le_refl _
    · exact le_of_lt (s2 b (by omega) hb)
    · omega
    · exact s1 a b hab hb h1 h2
  | succ j ih =>
    intro arr hn hj hin s1 s2
    simp only [insertionInner]
    by_cases hc : idx arr j > key
    · simp only [hc, if_true]
      have hl : (arr.set (j + 1) (idx arr j)).length = n := by simpa using hn
      obtain ⟨r1, r2, r3⟩ := ih (arr.set (j + 1) (idx arr j)) hl (by omega) hin
        (by
          intro a b hab hb ha hb2
          rw [idx_set, idx_set]
          have h0 : j + 1 < arr.length := by omega
          simp only [h0, and_true]
          split_ifs with h1 h2 h2
          · exact le_refl _
          · exact s1 j b (by omega) hb (by omega) h2
          · exact s1 a j (by omega) (by omega) h1 (by omega)
          · exact s1 a b hab hb h1 h2)
        (by
          intro b hb hb2
          rw [idx_set]
          have h0 : j + 1 < arr.length := by omega
          simp only [h0, and_true]
          split_ifs with h1
          · exact hc
          · exact s2 b (by omega) hb2)
      refine ⟨r1, r2.trans ?_, r3⟩
      rw [shift_eq_swap arr j key (by omega)]
      exact swap_perm _ _ _ (by simp; omega) (by simp; omega)
    · simp only [hc, if_false]
      refine ⟨by simpa using hn, List.Perm.refl _, ?_⟩
      intro a b hab hb
      rw [idx_set, idx_set]
      have h0 : j + 1 < arr.length := by omega
      simp only [h0, and_true]
      split_ifs with h1 h2 h2
      · exact le_refl _
      · exact le_of_lt (s2 b (by omega) hb)
      · have := s1 a j (by omega) (by omega) (by omega) (by omega)
        omega
      · exact s1 a b hab hb h1 h2

theorem insertionOuter_spec (n : Nat) (cnt : Nat) : ∀ (arr : List Int) (i : Nat), arr.length = n →
    i + cnt = n → 1 ≤ i →
    (∀ a b, a ≤ b → b < i → idx arr a ≤ idx arr b) →
    (insertionOuter arr i cnt).length = n ∧
    List.Perm (insertionOuter arr i cnt) arr ∧
    (∀ a b, a ≤ b → b < n → idx (insertionOuter arr i cnt) a ≤ idx (insertionOuter arr i cnt) b) := by
  induction cnt with
  | zero =>
    intro arr i hn hi _ hinv
    refine ⟨hn, List.Perm.refl _, ?_⟩
    intro a b hab hbn
    exact hinv a b hab (by omega)
  | succ cnt ih =>
    intro arr i hn hi h1 hinv
    simp only [insertionOuter]
    obtain ⟨r1, r2, r3⟩ := insertionInner_spec (idx arr i) n i i arr hn (le_refl _) (by omega)
      (by intro a b hab hb ha hb2; exact hinv a b hab (by omega))
      (by intro b hb hb2; omega)
    rw [set_idx_self] at r2
    obtain ⟨s1, s2, s3⟩ := ih _ (i + 1) r1 (by omega) (by omega)
      (by intro a b hab hb; exact r3 a b hab (by omega))
    exact ⟨s1, s2.trans r2, s3⟩

theorem insertionSort_spec (array : List Int) :
    (insertionSort array).Sorted (· ≤ ·) ∧ List.Perm (insertionSort array) array := by
  unfold insertionSort
  by_cases h0 : array.length = 0
  · have : array = [] := List.length_eq_zero.mp h0
    subst this
    simp [insertionOuter]
  · obtain ⟨r1, r2, r3⟩ := insertionOuter_spec array.length (array.length - 1) array 1 rfl
      (by omega) (le_refl _)
      (by intro a b hab hb
          have : a = b := by omega
          subst this; exact le_refl _)
    refine ⟨sorted_of_idx _ ?_, r2⟩
    intro a b hab hb
    exact r3 a b (by omega) (by omega)

/-! ### Merge sort -/

theorem set_length_append (pre rest : List Int) (x v : Int) :
    (pre ++ x :: rest).set pre.length v = pre ++ v :: rest := by
  induction pre with
  | nil => rfl
  | cons p ps ih => simp only [List.cons_append, List.length_cons, List.set_cons_succ, ih]

theorem idx_eq_head_drop (src : List Int) (i : Nat) (h : i < src.length) :
    src.drop i = idx src i :: src.drop (i + 1) := by
  rw [idx_eq_getElem src i h]
  exact List.drop_eq_getElem_cons h

theorem copyRest_spec (src : List Int) (cnt : Nat) : ∀ (i : Nat) (pre rest : List Int),
    cnt ≤ rest.length → i + cnt ≤ src.length →
    copyRest src (pre ++ rest) i pre.length cnt =
      (pre ++ (src.drop i).take cnt ++ rest.drop cnt, pre.length + cnt) := by
  induction cnt with
  | zero => intro i pre rest _ _; simp [copyRest]
  | succ cnt ih =>
    intro i pre rest hr hs
    cases rest with
    | nil => simp at hr
    | cons x rest =>
      simp only [copyRest]
      rw [set_length_append]
      have h := ih (i + 1) (pre ++ [idx src i]) rest (by simpa using hr) (by omega)
      simp only [List.length_append, List.length_singleton, List.append_assoc,
        List.singleton_append] at h
      rw [h, idx_eq_head_drop src i (by omega)]
      simp only [List.take_succ_cons, List.drop_succ_cons, List.cons_append,
        List.append_assoc, Prod.mk.injEq, true_and]
      omega

theorem mergeMain_spec (L R : List Int) (fuel : Nat) : ∀ (i j : Nat) (pre rest : List Int),
    (L.length - i) + (R.length - j) ≤ fuel →
    (L.length - i) + (R.length - j) ≤ rest.length → i ≤ L.length → j ≤ R.length →
    ∃ a i2 j2 k2,
      mergeMain L R L.length R.length fuel (pre ++ rest) i j pre.length = some (a, i2, j2, k2) ∧
      (copyRest R (copyRest L a i2 k2 (L.length - i2)).1 j2
          (copyRest L a i2 k2 (L.length - i2)).2 (R.length - j2)).1 =
        pre ++ List.merge (L.drop i) (R.drop j) (fun x y => decide (x ≤ y)) ++
          rest.drop ((L.length - i) + (R.length - j)) := by
  have stop : ∀ (i j : Nat) (pre rest : List Int),
      (L.length - i) + (R.length - j) ≤ rest.length → i ≤ L.length → j ≤ R.length →
      ¬ (i < L.length ∧ j < R.length) →
      (copyRest R (copyRest L (pre ++ rest) i pre.length (L.length - i)).1 j
          (copyRest L (pre ++ rest) i pre.length (L.length - i)).2 (R.length - j)).1 =
        pre ++ List.merge (L.drop i) (R.drop j) (fun x y => decide (x ≤ y)) ++
          rest.drop ((L.length - i) + (R.length - j)) := by
    intro i j pre rest hrest hi hj hc
    rw [copyRest_spec L (L.length - i) i pre rest (by omega) (by omega)]
    simp only
    have e1 : (L.drop i).take (L.length - i) = L.drop i := by
      apply List.take_of_length_le; simp
    rw [e1]
    have h2 := copyRest_spec R (R.length - j) j (pre ++ L.drop i) (rest.drop (L.length - i))
      (by simp; omega) (by omega)
    simp only [List.length_append, List.length_drop] at h2
    rw [h2]
    simp only
    have e2 : (R.drop j).take (R.length - j) = R.drop j := by
      apply List.take_of_length_le; simp
    rw [e2, List.drop_drop]
    have e3 : List.merge (L.drop i) (R.drop j) (fun x y => decide (x ≤ y)) =
        L.drop i ++ R.drop j := by
      by_cases h : i < L.length
      · have hj2 : R.length ≤ j := by
          by_contra hh; exact hc ⟨h, by omega⟩
        rw [List.drop_eq_nil_of_le hj2]; simp
      · rw [List.drop_eq_nil_of_le (by omega : L.length ≤ i)]; simp
    rw [e3]
    simp only [List.append_assoc]
  induction fuel with
  | zero =>
    intro i j pre rest hf hrest hi hj
    have hc : ¬ (i < L.length ∧ j < R.length) := by omega
    refine ⟨pre ++ rest, i, j, pre.length, by simp [mergeMain, hc], ?_⟩
    exact stop i j pre rest hrest hi hj hc
  | succ fuel ih =>
    intro i j pre rest hf hrest hi hj
    by_cases hc : i < L.length ∧ j < R.length
    · obtain ⟨hc1, hc2⟩ := hc
      cases rest with
      | nil => simp at hrest; omega
      | cons x rest =>
        simp only [List.length_cons] at hrest
        by_cases hle : idx L i ≤ idx R j
        · obtain ⟨a, i2, j2, k2, h1, h2⟩ := ih (i + 1) j (pre ++ [idx L i]) rest
            (by omega) (by omega) (by omega) hj
          refine ⟨a, i2, j2, k2, ?_, ?_⟩
          · simp only [mergeMain, hc1, hc2, and_self, if_true, hle]
            rw [set_length_append]
            simpa using h1
          · rw [h2, idx_eq_head_drop L i hc1, idx_eq_head_drop R j hc2]
            rw [List.cons_merge_cons_pos _ _ _ (by simpa using hle)]
            rw [← idx_eq_head_drop R j hc2]
            have : L.length - i + (R.length - j) = (L.length - (i + 1) + (R.length - j)) + 1 := by
              omega
            rw [this, List.drop_succ_cons]
            simp only [List.append_assoc, List.singleton_append, List.cons_append,
              List.nil_append]
        · obtain ⟨a, i2, j2, k2, h1, h2⟩ := ih i (j + 1) (pre ++ [idx R j]) rest
            (by omega) (by omega) hi (by omega)
          refine ⟨a, i2, j2, k2, ?_, ?_⟩
          · simp only [mergeMain, hc1, hc2, and_self, if_true, hle, if_false]
            rw [set_length_append]
            simpa using h1
          · rw [h2, idx_eq_head_drop L i hc1, idx_eq_head_drop R j hc2]
            rw [List.cons_merge_cons_neg _ _ _ (by simpa using hle)]
            rw [← idx_eq_head_drop L i hc1]
            have : L.length - i + (R.length - j) = (L.length - i + (R.length - (j + 1))) + 1 := by
              omega
            rw [this, List.drop_succ_cons]
            simp only [List.append_assoc, List.singleton_append, List.cons_append,
              List.nil_append]
    · refine ⟨pre ++ rest, i, j, pre.length, by simp [mergeMain, hc], ?_⟩
      exact stop i j pre rest hrest hi hj hc

theorem slice_append (A S B : List Int) :
    slice (A ++ S ++ B) A.length (A.length + S.length) = S := by
  unfold slice
  rw [List.append_assoc, List.take_append, List.drop_left]
  simp

theorem merge_spec (A S1 S2 B : List Int) (left mid right : Nat) (hl : left = A.length)
    (hlm : left ≤ mid) (hm : mid + 1 = left + S1.length) (hr : right = mid + S2.length) :
    merge (A ++ S1 ++ S2 ++ B) left mid right =
      some (A ++ List.merge S1 S2 (fun x y => decide (x ≤ y)) ++ B) := by
  have hn1 : mid - left + 1 = S1.length := by omega
  have hn2 : right - mid = S2.length := by omega
  have hL : slice (A ++ S1 ++ S2 ++ B) left (mid + 1) = S1 := by
    rw [hm, hl, List.append_assoc (A ++ S1)]
    exact slice_append A S1 (S2 ++ B)
  have hR : slice (A ++ S1 ++ S2 ++ B) (mid + 1) (right + 1) = S2 := by
    have e1 : mid + 1 = (A ++ S1).length := by simp; omega
    have e2 : right + 1 = (A ++ S1).length + S2.length := by simp; omega
    rw [e1, e2]
    exact slice_append (A ++ S1) S2 B
  obtain ⟨a, i2, j2, k2, h1, h2⟩ := mergeMain_spec S1 S2 (S1.length + S2.length) 0 0 A
    (S1 ++ S2 ++ B) (by omega) (by simp) (Nat.zero_le _) (Nat.zero_le _)
  simp only [List.drop_zero, Nat.sub_zero] at h2
  have e3 : (S1 ++ S2 ++ B).drop (S1.length + S2.length) = B := by
    have : S1.length + S2.length = (S1 ++ S2).length := by simp
    rw [this, List.drop_left]
  rw [e3] at h2
  have e4 : A ++ S1 ++ S2 ++ B = A ++ (S1 ++ S2 ++ B) := by simp
  unfold merge
  simp only [hn1, hn2, hL, hR]
  rw [e4, hl, h1]
  simp only [h2]

theorem sorted_of_length_le_one (X : List Int) (h : X.length ≤ 1) : X.Sorted (· ≤ ·) := by
  match X, h with
  | [], _ => exact List.sorted_nil
  | [x], _ => exact List.sorted_singleton x

theorem mergeSortRec_spec (fuel : Nat) : ∀ (l r : Nat) (A X B : List Int),
    r - l ≤ fuel → A.length = l → (l < r → X.length = r + 1 - l) → (r ≤ l → X.length ≤ 1) →
    ∃ S, mergeSortRec fuel (A ++ X ++ B) l r = some (A ++ S ++ B) ∧
      S.Sorted (· ≤ ·) ∧ List.Perm S X := by
  induction fuel with
  | zero =>
    intro l r A X B hf hA h1 h2
    have hge : l ≥ r := by omega
    exact ⟨X, by simp [mergeSortRec, hge], sorted_of_length_le_one X (h2 hge), List.Perm.refl _⟩
  | succ fuel ih =>
    intro l r A X B hf hA h1 h2
    by_cases hge : l ≥ r
    · exact ⟨X, by simp [mergeSortRec, hge], sorted_of_length_le_one X (h2 hge), List.Perm.refl _⟩
    · have hlt : l < r := by omega
      have hX := h1 hlt
      have hm1 : l ≤ (l + r) / 2 := by omega
      have hm2 : (l + r) / 2 < r := by omega
      generalize hmdef : (l + r) / 2 = m at hm1 hm2
      -- split the range at `m`
      have hsplit : X = X.take (m + 1 - l) ++ X.drop (m + 1 - l) := (List.take_append_drop _ _).symm
      have hlen1 : (X.take (m + 1 - l)).length = m + 1 - l := by
        rw [List.length_take]; omega
      have hlen2 : (X.drop (m + 1 - l)).length = r - m := by
        rw [List.length_drop]; omega
      generalize X.take (m + 1 - l) = X1 at hsplit hlen1
      generalize X.drop (m + 1 - l) = X2 at hsplit hlen2
      subst hsplit
      obtain ⟨S1, c1, s1, p1⟩ := ih l m A X1 (X2 ++ B) (by omega) hA
        (by intro _; omega) (by intro _; omega)
      have hS1 : S1.length = m + 1 - l := by rw [p1.length_eq]; exact hlen1
      obtain ⟨S2, c2, s2, p2⟩ := ih (m + 1) r (A ++ S1) X2 B (by omega)
        (by simp; omega) (by intro _; omega) (by intro _; omega)
      have hS2 : S2.length = r - m := by rw [p2.length_eq]; exact hlen2
      refine ⟨List.merge S1 S2 (fun x y => decide (x ≤ y)), ?_, ?_, ?_⟩
      · simp only [mergeSortRec, hge, if_false, hmdef]
        have e1 : A ++ (X1 ++ X2) ++ B = A ++ X1 ++ (X2 ++ B) := by simp
        rw [e1, c1]
        simp only
        have e2 : A ++ S1 ++ (X2 ++ B) = A ++ S1 ++ X2 ++ B := by simp
        rw [e2, c2]
        simp only
        exact merge_spec A S1 S2 B l m r hA.symm hm1 (by omega) (by omega)
      · exact List.Sorted.merge s1 s2
      · exact (List.merge_perm_append _).trans (List.Perm.append p1 p2)

theorem mergeSort_spec (array : List Int) :
    ∃ out, mergeSort array = some out ∧ out.Sorted (· ≤ ·) ∧ List.Perm out array := by
  obtain ⟨S, c, s, p⟩ := mergeSortRec_spec array.length 0 (array.length - 1) [] array []
    (by omega) rfl (by intro _; omega) (by intro _; omega)
  refine ⟨S, ?_, s, p⟩
  simpa [mergeSort] using c

/-! ### Quick sort -/

theorem segRel_refl (arr : List Int) (lo hi : Nat) : SegRel arr arr lo hi :=
  ⟨rfl, List.Perm.refl _, fun _ _ => rfl, fun k h1 h2 => ⟨k, h1, h2, rfl⟩⟩

theorem segRel_trans (a b c : List Int) (lo hi : Nat) (h1 : SegRel a b lo hi)
    (h2 : SegRel b c lo hi) : SegRel a c lo hi := by
  obtain ⟨l1, p1, u1, w1⟩ := h1
  obtain ⟨l2, p2, u2, w2⟩ := h2
  refine ⟨l2.trans l1, p2.trans p1, fun k hk => (u2 k hk).trans (u1 k hk), ?_⟩
  intro k hk1 hk2
  obtain ⟨k2, a1, a2, a3⟩ := w2 k hk1 hk2
  obtain ⟨k3, b1, b2, b3⟩ := w1 k2 a1 a2
  exact ⟨k3, b1, b2, a3.trans b3⟩

theorem segRel_mono (a b : List Int) (lo hi lo2 hi2 : Nat) (h : SegRel a b lo hi)
    (hlo : lo2 ≤ lo) (hhi : hi ≤ hi2) : SegRel a b lo2 hi2 := by
  obtain ⟨l1, p1, u1, w1⟩ := h
  refine ⟨l1, p1, fun k hk => u1 k (by omega), ?_⟩
  intro k hk1 hk2
  by_cases hin : lo ≤ k ∧ k < hi
  · obtain ⟨k2, a1, a2, a3⟩ := w1 k hin.1 hin.2
    exact ⟨k2, by omega, by omega, a3⟩
  · exact ⟨k, hk1, hk2, u1 k (by omega)⟩

theorem segRel_swap (arr : List Int) (lo hi i j : Nat) (hi1 : lo ≤ i) (hi2 : i < hi)
    (hj1 : lo ≤ j) (hj2 : j < hi) (hlen : hi ≤ arr.length) :
    SegRel arr (swap arr i j) lo hi := by
  have hil : i < arr.length := by omega
  have hjl : j < arr.length := by omega
  refine ⟨length_swap _ _ _, swap_perm arr i j hil hjl, ?_, ?_⟩
  · intro k hk
    rw [idx_swap arr i j k hil hjl]
    have h1 : ¬ k = j := by omega
    have h2 : ¬ k = i := by omega
    simp only [h1, h2, if_false]
  · intro k hk1 hk2
    rw [idx_swap arr i j k hil hjl]
    split_ifs with h1 h2
    · exact ⟨i, hi1, hi2, rfl⟩
    · exact ⟨j, hj1, hj2, rfl⟩
    · exact ⟨k, hk1, hk2, rfl⟩

theorem partitionLoop_spec (pivot : Int) (low high : Nat) (cnt : Nat) :
    ∀ (arr : List Int) (i1 j : Nat), j + cnt = high → low ≤ i1 → i1 ≤ j → high ≤ arr.length →
    (∀ k, low ≤ k → k < i1 → idx arr k < pivot) →
    (∀ k, i1 ≤ k → k < j → pivot ≤ idx arr k) →
    SegRel arr (partitionLoop pivot arr i1 j cnt).1 low high ∧
    low ≤ (partitionLoop pivot arr i1 j cnt).2 ∧ (partitionLoop pivot arr i1 j cnt).2 ≤ high ∧
    (∀ k, low ≤ k → k < (partitionLoop pivot arr i1 j cnt).2 →
      idx (partitionLoop pivot arr i1 j cnt).1 k < pivot) ∧
    (∀ k, (partitionLoop pivot arr i1 j cnt).2 ≤ k → k < high →
      pivot ≤ idx (partitionLoop pivot arr i1 j cnt).1 k) := by
  induction cnt with
  | zero =>
    intro arr i1 j hj h1 h2 hlen ha hb
    simp only [partitionLoop]
    exact ⟨segRel_refl _ _ _, h1, by omega, ha, fun k hk1 hk2 => hb k hk1 (by omega)⟩
  | succ cnt ih =>
    intro arr i1 j hj h1 h2 hlen ha hb
    have hil : i1 < arr.length := by omega
    have hjl : j < arr.length := by omega
    simp only [partitionLoop]
    by_cases hc : idx arr j < pivot
    · simp only [hc, if_true]
      obtain ⟨r1, r2, r3, r4, r5⟩ := ih (swap arr i1 j) (i1 + 1) (j + 1) (by omega) (by omega)
        (by omega) (by rw [length_swap]; exact hlen)
        (by
          intro k hk1 hk2
          rw [idx_swap arr i1 j k hil hjl]
          split_ifs with e1 e2
          · subst e1
            have : k = i1 := by omega
            subst this; exact hc
          · exact hc
          · exact ha k hk1 (by omega))
        (by
          intro k hk1 hk2
          rw [idx_swap arr i1 j k hil hjl]
          split_ifs with e1 e2
          · exact hb i1 (le_refl _) (by omega)
          · omega
          · exact hb k (by omega) (by omega))
      refine ⟨segRel_trans _ _ _ _ _ ?_ r1, by omega, r3, r4, r5⟩
      exact segRel_swap arr low high i1 j h1 (by omega) (by omega) (by omega) hlen
    · simp only [hc, if_false]
      exact ih arr i1 (j + 1) (by omega) h1 (by omega) hlen ha
        (by
          intro k hk1 hk2
          by_cases e : k = j
          · subst e; omega
          · exact hb k hk1 (by omega))

theorem partition_spec (arr : List Int) (low high : Nat) (hlh : low < high)
    (hlen : high < arr.length) :
    SegRel arr (partition arr low high).1 low (high + 1) ∧
    low ≤ (partition arr low high).2 ∧ (partition arr low high).2 ≤ high ∧
    (∀ k, low ≤ k → k < (partition arr low high).2 →
      idx (partition arr low high).1 k < idx (partition arr low high).1 (partition arr low high).2) ∧
    (∀ k, (partition arr low high).2 < k → k ≤ high →
      idx (partition arr low high).1 (partition arr low high).2 ≤ idx (partition arr low high).1 k) := by
  obtain ⟨r1, r2, r3, r4, r5⟩ := partitionLoop_spec (idx arr high) low high (high - low) arr low low
    (by omega) (le_refl _) (le_refl _) (by omega) (by intro k h1 h2; omega)
    (by intro k h1 h2; omega)
  simp only [partition]
  generalize partitionLoop (idx arr high) arr low low (high - low) = r at r1 r2 r3 r4 r5
  obtain ⟨a, p⟩ := r
  simp only at r1 r2 r3 r4 r5 ⊢
  have hal : a.length = arr.length := r1.1
  have hph : idx a high = idx arr high := r1.2.2.1 high (by omega)
  have hpl : p < a.length := by omega
  have hhl : high < a.length := by omega
  have hpiv : idx (swap a p high) p = idx arr high := by
    rw [idx_swap a p high p hpl hhl]
    by_cases e : p = high
    · simp only [e, if_true, hph]
    · simp only [e, if_false, if_true, hph]
  refine ⟨?_, r2, r3, ?_, ?_⟩
  · refine segRel_trans _ _ _ _ _ (segRel_mono _ _ _ _ _ _ r1 (le_refl _) (by omega)) ?_
    exact segRel_swap a low (high + 1) p high r2 (by omega) (by omega) (by omega) (by omega)
  · intro k hk1 hk2
    rw [hpiv, idx_swap a p high k hpl hhl]
    have e1 : ¬ k = high := by omega
    have e2 : ¬ k = p := by omega
    simp only [e1, e2, if_false]
    exact r4 k hk1 hk2
  · intro k hk1 hk2
    rw [hpiv, idx_swap a p high k hpl hhl]
    split_ifs with e1 e2
    · exact r5 p (le_refl _) (by omega)
    · omega
    · exact r5 k (by omega) (by omega)

theorem qsort_spec (fuel : Nat) : ∀ (arr : List Int) (low high : Nat), high - low ≤ fuel →
    (low < high → high < arr.length) →
    ∃ out, qsort fuel arr low high = some out ∧ (¬ low < high → out = arr) ∧
      SegRel arr out low (high + 1) ∧
      (∀ a b, low ≤ a → a ≤ b → b ≤ high → idx out a ≤ idx out b) := by
  induction fuel with
  | zero =>
    intro arr low high hf _
    have hc : ¬ low < high := by omega
    refine ⟨arr, by simp [qsort, hc], fun _ => rfl, segRel_refl _ _ _, ?_⟩
    intro a b h1 h2 h3
    have : a = b := by omega
    subst this; exact le_refl _
  | succ fuel ih =>
    intro arr low high hf hlen
    by_cases hc : low < high
    · have hhl := hlen hc
      obtain ⟨p1, p2, p3, p4, p5⟩ := partition_spec arr low high hc hhl
      simp only [qsort, hc, if_true]
      generalize partition arr low high = pr at p1 p2 p3 p4 p5
      obtain ⟨arr1, pi⟩ := pr
      simp only at p1 p2 p3 p4 p5 ⊢
      have hl1 : arr1.length = arr.length := p1.1
      obtain ⟨arr2, c1, n1, s1, o1⟩ := ih arr1 low (pi - 1) (by omega) (by intro _; omega)
      have s1b : SegRel arr1 arr2 low pi := by
        by_cases hlt : low < pi - 1
        · have e : pi - 1 + 1 = pi := by omega
          rw [e] at s1; exact s1
        · rw [n1 hlt]; exact segRel_refl _ _ _
      have hl2 : arr2.length = arr1.length := s1b.1
      obtain ⟨arr3, c2, _, s2, o2⟩ := ih arr2 (pi + 1) high (by omega) (by intro _; omega)
      rw [c1]
      simp only
      refine ⟨arr3, c2, fun h => absurd trivial h, ?_, ?_⟩
      · refine segRel_trans arr arr1 arr3 _ _ p1 (segRel_trans arr1 arr2 arr3 _ _ ?_ ?_)
        · exact segRel_mono _ _ _ _ _ _ s1b (le_refl _) (by omega)
        · exact segRel_mono _ _ _ _ _ _ s2 (by omega) (le_refl _)
      · -- values of the final array, by position relative to the pivot index
        have hleft : ∀ k, low ≤ k → k < pi →
            idx arr3 k = idx arr2 k ∧ idx arr2 k < idx arr1 pi := by
          intro k hk1 hk2
          refine ⟨s2.2.2.1 k (by omega), ?_⟩
          obtain ⟨k2, a1, a2, a3⟩ := s1b.2.2.2 k hk1 hk2
          rw [a3]; exact p4 k2 a1 a2
        have hmid : idx arr3 pi = idx arr1 pi := by
          rw [s2.2.2.1 pi (by omega), s1b.2.2.1 pi (by omega)]
        have hright : ∀ k, pi < k → k ≤ high → idx arr1 pi ≤ idx arr3 k := by
          intro k hk1 hk2
          obtain ⟨k2, a1, a2, a3⟩ := s2.2.2.2 k (by omega) (by omega)
          rw [a3, s1b.2.2.1 k2 (by omega)]
          exact p5 k2 (by omega) (by omega)
        intro a b ha hab hb
        by_cases ha1 : a < pi
        · by_cases hb1 : b < pi
          · rw [(hleft a ha ha1).1, (hleft b (by omega) hb1).1]
            exact o1 a b ha hab (by omega)
          · by_cases hb2 : b = pi
            · rw [hb2, hmid, (hleft a ha ha1).1]
              exact le_of_lt (hleft a ha ha1).2
            · have := hright b (by omega) hb
              rw [(hleft a ha ha1).1]
              have := (hleft a ha ha1).2
              omega
        · by_cases ha2 : a = pi
          · by_cases hb2 : b = pi
            · rw [ha2, hb2]
            · rw [ha2, hmid]; exact hright b (by omega) hb
          · exact o2 a b (by omega) hab hb
    · refine ⟨arr, by simp [qsort, hc], fun _ => rfl, segRel_refl _ _ _, ?_⟩
      intro a b h1 h2 h3
      have : a = b := by omega
      subst this; exact le_refl _

theorem quickSort_spec (array : List Int) :
    ∃ out, quickSort array = some out ∧ out.Sorted (· ≤ ·) ∧ List.Perm out array := by
  obtain ⟨out, c, _, s, o⟩ := qsort_spec array.length array 0 (array.length - 1) (by omega)
    (by intro _; omega)
  refine ⟨out, c, sorted_of_idx _ ?_, s.2.1⟩
  intro a b hab hb
  exact o a b (Nat.zero_le _) (by omega) (by have := s.1; omega)

/-- Claim C1: for every array and each of the five sort producers, a run that
goes to completion leaves the working array `arr` non-decreasing (and the two
recursive producers do reach completion: their recursion ends with a result). -/
theorem sort_producers_sorted (array : List Int) :
    (bubbleSort array).Sorted (· ≤ ·) ∧
    (selectionSort array).Sorted (· ≤ ·) ∧
    (insertionSort array).Sorted (· ≤ ·) ∧
    (∃ out, mergeSort array = some out ∧ out.Sorted (· ≤ ·)) ∧
    (∃ out, quickSort array = some out ∧ out.Sorted (· ≤ ·)) := by
  obtain ⟨m, hm, sm, _⟩ := mergeSort_spec array
  obtain ⟨q, hq, sq, _⟩ := quickSort_spec array
  exact ⟨(bubbleSort_spec array).1, (selectionSort_spec array).1, (insertionSort_spec array).1,
    ⟨m, hm, sm⟩, ⟨q, hq, sq⟩⟩

/-- Claim C2: for every array and each of the five sort producers, a run that
goes to completion leaves in the working array `arr` a permutation of the
input: the same multiset of values, hence the same length. -/
theorem sort_producers_perm (array : List Int) :
    (List.Perm (bubbleSort array) array ∧ (bubbleSort array).length = array.length) ∧
    (List.Perm (selectionSort array) array ∧ (selectionSort array).length = array.length) ∧
    (List.Perm (insertionSort array) array ∧ (insertionSort array).length = array.length) ∧
    (∃ out, mergeSort array = some out ∧ List.Perm out array ∧ out.length = array.length) ∧
    (∃ out, quickSort array = some out ∧ List.Perm out array ∧ out.length = array.length) := by
  obtain ⟨m, hm, _, pm⟩ := mergeSort_spec array
  obtain ⟨q, hq, _, pq⟩ := quickSort_spec array
  exact ⟨⟨(bubbleSort_spec array).2, (bubbleSort_spec array).2.length_eq⟩,
    ⟨(selectionSort_spec array).2, (selectionSort_spec array).2.length_eq⟩,
    ⟨(insertionSort_spec array).2, (insertionSort_spec array).2.length_eq⟩,
    ⟨m, hm, pm, pm.length_eq⟩, ⟨q, hq, pq, pq.length_eq⟩⟩

/-! ## Sorting page: proofs about runs -/

/-! ### The time spent waiting does not reach the producers -/

theorem unwait_arr (s t : SortState) (h : s.unwait = t.unwait) : s.arr = t.arr := by
  simpa [SortState.unwait] using congrArg SortState.arr h

theorem unwait_reads (s t : SortState) (h : s.unwait = t.unwait) : s.reads = t.reads := by
  simpa [SortState.unwait] using congrArg SortState.reads h

theorem unwait_sorted (s t : SortState) (h : s.unwait = t.unwait) : s.sorted = t.sorted := by
  simpa [SortState.unwait] using congrArg SortState.sorted h

theorem unwait_sleep (env1 env2 : Env) (ms1 ms2 : Nat) (s t : SortState)
    (h : s.unwait = t.unwait) : (sleep env1 ms1 s).unwait = (sleep env2 ms2 t).unwait := by
  cases s; cases t
  simp_all [SortState.unwait, sleep]

theorem unwait_tick (s t : SortState) (h : s.unwait = t.unwait) :
    (tick s).unwait = (tick t).unwait := by
  cases s; cases t
  simp_all [SortState.unwait, tick]

theorem unwait_setComparing (l : List Nat) (s t : SortState) (h : s.unwait = t.unwait) :
    (setComparing l s).unwait = (setComparing l t).unwait := by
  cases s; cases t
  simp_all [SortState.unwait, setComparing]

theorem unwait_setSwapping (l : List Nat) (s t : SortState) (h : s.unwait = t.unwait) :
    (setSwapping l s).unwait = (setSwapping l t).unwait := by
  cases s; cases t
  simp_all [SortState.unwait, setSwapping]

theorem unwait_setArray (a : List Int) (s t : SortState) (h : s.unwait = t.unwait) :
    (setArray a s).unwait = (setArray a t).unwait := by
  cases s; cases t
  simp_all [SortState.unwait, setArray]

theorem unwait_setSorted (l : List Nat) (s t : SortState) (h : s.unwait = t.unwait) :
    (setSorted l s).unwait = (setSorted l t).unwait := by
  cases s; cases t
  simp_all [SortState.unwait, setSorted]

theorem unwait_addSorted (k : Nat) (s t : SortState) (h : s.unwait = t.unwait) :
    (addSorted k s).unwait = (addSorted k t).unwait := by
  unfold addSorted
  rw [unwait_sorted s t h]
  exact unwait_setSorted _ s t h

theorem unwait_resetStats (s t : SortState) (h : s.unwait = t.unwait) :
    (resetStats s).unwait = (resetStats t).unwait := by
  cases s; cases t
  simp_all [SortState.unwait, resetStats]

theorem unwait_addComparison (s t : SortState) (h : s.unwait = t.unwait) :
    (addComparison s).unwait = (addComparison t).unwait := by
  cases s; cases t
  simp_all [SortState.unwait, addComparison]

theorem unwait_addSwap (s t : SortState) (h : s.unwait = t.unwait) :
    (addSwap s).unwait = (addSwap t).unwait := by
  cases s; cases t
  simp_all [SortState.unwait, addSwap]

theorem unwait_setIsSorting (b : Bool) (s t : SortState) (h : s.unwait = t.unwait) :
    (setIsSorting b s).unwait = (setIsSorting b t).unwait := by
  cases s; cases t
  simp_all [SortState.unwait, setIsSorting]

theorem unwait_showMessage (m : String) (s t : SortState) (h : s.unwait = t.unwait) :
    (showMessage m s).unwait = (showMessage m t).unwait := by
  cases s; cases t
  simp_all [SortState.unwait, showMessage]

theorem unwait_swapArr (i j : Nat) (s t : SortState) (h : s.unwait = t.unwait) :
    (swapArr i j s).unwait = (swapArr i j t).unwait := by
  cases s; cases t
  simp_all [SortState.unwait, swapArr]

theorem unwait_writeArr (k : Nat) (v : Int) (s t : SortState) (h : s.unwait = t.unwait) :
    (writeArr k v s).unwait = (writeArr k v t).unwait := by
  cases s; cases t
  simp_all [SortState.unwait, writeArr]

theorem unwait_swapAndSet (i j : Nat) (s t : SortState) (h : s.unwait = t.unwait) :
    (swapAndSet i j s).unwait = (swapAndSet i j t).unwait := by
  unfold swapAndSet
  rw [unwait_arr s t h]
  exact unwait_setArray _ s t h

theorem unwait_finishEarly (s t : SortState) (h : s.unwait = t.unwait) :
    (finishEarly s).unwait = (finishEarly t).unwait :=
  unwait_setIsSorting _ _ _ (unwait_setSwapping _ _ _ (unwait_setComparing _ _ _ h))

theorem bubbleInnerRun_unwait (env1 env2 : Env) (he : ∀ k, env1.stop k = env2.stop k)
    (speed1 speed2 : Nat) (cnt : Nat) : ∀ (s t : SortState) (j : Nat), s.unwait = t.unwait →
    (bubbleInnerRun env1 speed1 s j cnt).unwait = (bubbleInnerRun env2 speed2 t j cnt).unwait := by
  induction cnt with
  | zero => intro s t j h; simp only [bubbleInnerRun, Ctl.unwait, h]
  | succ cnt ih =>
    intro s t j h
    simp only [bubbleInnerRun]
    rw [he, unwait_reads s t h]
    cases c : env2.stop t.reads with
    | true => simp only [if_true, Ctl.unwait, unwait_finishEarly _ _ (unwait_tick _ _ h)]
    | false =>
      simp only [Bool.false_eq_true, if_false]
      have h1 := unwait_sleep env1 env2 speed1 speed2 _ _
        (unwait_addComparison _ _ (unwait_setComparing [j, j + 1] _ _ (unwait_tick _ _ h)))
      rw [unwait_arr _ _ h1]
      split_ifs with c2
      · exact ih _ _ _ (unwait_setSwapping _ _ _ (unwait_sleep env1 env2 speed1 speed2 _ _
          (unwait_addSwap _ _ (unwait_setSwapping _ _ _ (unwait_swapAndSet _ _ _ _
            (unwait_swapArr _ _ _ _ h1))))))
      · exact ih _ _ _ h1

theorem bubbleOuterRun_unwait (env1 env2 : Env) (he : ∀ k, env1.stop k = env2.stop k)
    (speed1 speed2 n : Nat) (cnt : Nat) : ∀ (s t : SortState) (i : Nat), s.unwait = t.unwait →
    (bubbleOuterRun env1 speed1 n s i cnt).unwait = (bubbleOuterRun env2 speed2 n t i cnt).unwait := by
  induction cnt with
  | zero => intro s t i h; simp only [bubbleOuterRun, Ctl.unwait, h]
  | succ cnt ih =>
    intro s t i h
    simp only [bubbleOuterRun]
    have h1 := bubbleInnerRun_unwait env1 env2 he speed1 speed2 (n - i - 1) s t 0 h
    cases r1 : bubbleInnerRun env1 speed1 s 0 (n - i - 1) with
    | go a =>
      cases r2 : bubbleInnerRun env2 speed2 t 0 (n - i - 1) with
      | go b =>
        rw [r1, r2] at h1
        simp only [Ctl.unwait, Ctl.go.injEq] at h1
        exact ih _ _ _ (unwait_addSorted _ _ _ h1)
      | halt b => rw [r1, r2] at h1; simp [Ctl.unwait] at h1
    | halt a =>
      cases r2 : bubbleInnerRun env2 speed2 t 0 (n - i - 1) with
      | go b => rw [r1, r2] at h1; simp [Ctl.unwait] at h1
      | halt b => rw [r1, r2] at h1; exact h1

theorem bubbleSortRun_unwait (env1 env2 : Env) (he : ∀ k, env1.stop k = env2.stop k)
    (speed1 speed2 : Nat) (s0 : SortState) :
    (bubbleSortRun env1 speed1 s0).unwait = (bubbleSortRun env2 speed2 s0).unwait := by
  unfold bubbleSortRun
  have h1 := bubbleOuterRun_unwait env1 env2 he speed1 speed2 s0.array.length (s0.array.length - 1)
    (beginRun s0) (beginRun s0) 0 rfl
  cases r1 : bubbleOuterRun env1 speed1 s0.array.length (beginRun s0) 0 (s0.array.length - 1) with
  | go a =>
    cases r2 : bubbleOuterRun env2 speed2 s0.array.length (beginRun s0) 0 (s0.array.length - 1) with
    | go b =>
      rw [r1, r2] at h1
      simp only [Ctl.unwait, Ctl.go.injEq] at h1
      exact unwait_showMessage _ _ _ (unwait_setIsSorting _ _ _ (unwait_setComparing _ _ _
        (unwait_setSorted _ _ _ h1)))
    | halt b => rw [r1, r2] at h1; simp [Ctl.unwait] at h1
  | halt a =>
    cases r2 : bubbleOuterRun env2 speed2 s0.array.length (beginRun s0) 0 (s0.array.length - 1) with
    | go b => rw [r1, r2] at h1; simp [Ctl.unwait] at h1
    | halt b =>
      rw [r1, r2] at h1
      simpa [Ctl.unwait] using h1

theorem selectionInnerRun_unwait (env1 env2 : Env) (he : ∀ k, env1.stop k = env2.stop k)
    (speed1 speed2 : Nat) (cnt : Nat) : ∀ (s t : SortState) (minIdx j : Nat), s.unwait = t.unwait →
    (selectionInnerRun env1 speed1 s minIdx j cnt).1.unwait =
        (selectionInnerRun env2 speed2 t minIdx j cnt).1.unwait ∧
      (selectionInnerRun env1 speed1 s minIdx j cnt).2 =
        (selectionInnerRun env2 speed2 t minIdx j cnt).2 := by
  induction cnt with
  | zero => intro s t minIdx j h; simp only [selectionInnerRun, h, and_self]
  | succ cnt ih =>
    intro s t minIdx j h
    simp only [selectionInnerRun]
    rw [he, unwait_reads s t h]
    cases c : env2.stop t.reads with
    | true => simp only [if_true, unwait_finishEarly _ _ (unwait_tick _ _ h), and_self]
    | false =>
      simp only [Bool.false_eq_true, if_false]
      have h1 := unwait_sleep env1 env2 speed1 speed2 _ _
        (unwait_addComparison _ _ (unwait_setComparing [minIdx, j] _ _ (unwait_tick _ _ h)))
      rw [unwait_arr _ _ h1]
      exact ih _ _ _ _ h1

theorem selectionOuterRun_unwait (env1 env2 : Env) (he : ∀ k, env1.stop k = env2.stop k)
    (speed1 speed2 n : Nat) (cnt : Nat) : ∀ (s t : SortState) (i : Nat), s.unwait = t.unwait →
    (selectionOuterRun env1 speed1 n s i cnt).unwait =
      (selectionOuterRun env2 speed2 n t i cnt).unwait := by
  induction cnt with
  | zero => intro s t i h; simp only [selectionOuterRun, Ctl.unwait, h]
  | succ cnt ih =>
    intro s t i h
    simp only [selectionOuterRun]
    obtain ⟨h1, h2⟩ := selectionInnerRun_unwait env1 env2 he speed1 speed2 (n - (i + 1)) s t i (i + 1) h
    generalize selectionInnerRun env1 speed1 s i (i + 1) (n - (i + 1)) = r1 at h1 h2
    generalize selectionInnerRun env2 speed2 t i (i + 1) (n - (i + 1)) = r2 at h1 h2
    obtain ⟨a, m1⟩ := r1
    obtain ⟨b, m2⟩ := r2
    simp only at h1 h2
    subst h2
    cases m1 with
    | none => simp only [Ctl.unwait, h1]
    | some minIdx =>
      simp only
      apply ih
      apply unwait_addSorted
      split_ifs with c
      · exact unwait_setSwapping _ _ _ (unwait_sleep env1 env2 speed1 speed2 _ _
          (unwait_addSwap _ _ (unwait_setSwapping _ _ _ (unwait_swapAndSet _ _ _ _
            (unwait_swapArr _ _ _ _ h1)))))
      · exact h1

theorem selectionSortRun_unwait (env1 env2 : Env) (he : ∀ k, env1.stop k = env2.stop k)
    (speed1 speed2 : Nat) (s0 : SortState) :
    (selectionSortRun env1 speed1 s0).unwait = (selectionSortRun env2 speed2 s0).unwait := by
  unfold selectionSortRun
  have h1 := selectionOuterRun_unwait env1 env2 he speed1 speed2 s0.array.length s0.array.length
    (beginRun s0) (beginRun s0) 0 rfl
  generalize selectionOuterRun env1 speed1 s0.array.length (beginRun s0) 0 s0.array.length = r1 at h1
  generalize selectionOuterRun env2 speed2 s0.array.length (beginRun s0) 0 s0.array.length = r2 at h1
  cases r1 <;> cases r2 <;> simp only [Ctl.unwait, Ctl.go.injEq, Ctl.halt.injEq] at h1
  · exact unwait_showMessage _ _ _ (unwait_setIsSorting _ _ _ (unwait_setComparing _ _ _ h1))
  · exact absurd h1 (by simp)
  · exact absurd h1 (by simp)
  · exact h1

theorem insertionInnerRun_unwait (env1 env2 : Env) (speed1 speed2 : Nat) (key : Int) (j1 : Nat) :
    ∀ (s t : SortState), s.unwait = t.unwait →
    (insertionInnerRun env1 speed1 key s j1).1.unwait =
        (insertionInnerRun env2 speed2 key t j1).1.unwait ∧
      (insertionInnerRun env1 speed1 key s j1).2 = (insertionInnerRun env2 speed2 key t j1).2 := by
  induction j1 with
  | zero => intro s t h; simp only [insertionInnerRun, h, and_self]
  | succ j ih =>
    intro s t h
    simp only [insertionInnerRun]
    rw [unwait_arr s t h]
    have h1 := unwait_sleep env1 env2 speed1 speed2 _ _
      (unwait_addComparison _ _ (unwait_setComparing [j, j + 1] _ _ h))
    split_ifs with c
    · rw [unwait_arr _ _ h1]
      exact ih _ _ (unwait_addSwap _ _ (unwait_swapAndSet _ _ _ _ (unwait_writeArr _ _ _ _ h1)))
    · simp only [h, and_self]

theorem insertionOuterRun_unwait (env1 env2 : Env) (he : ∀ k, env1.stop k = env2.stop k)
    (speed1 speed2 : Nat) (cnt : Nat) : ∀ (s t : SortState) (i : Nat), s.unwait = t.unwait →
    (insertionOuterRun env1 speed1 s i cnt).unwait = (insertionOuterRun env2 speed2 t i cnt).unwait := by
  induction cnt with
  | zero => intro s t i h; simp only [insertionOuterRun, Ctl.unwait, h]
  | succ cnt ih =>
    intro s t i h
    simp only [insertionOuterRun]
    rw [he, unwait_reads s t h]
    cases c : env2.stop t.reads with
    | true => simp only [if_true, Ctl.unwait, unwait_finishEarly _ _ (unwait_tick _ _ h)]
    | false =>
      simp only [Bool.false_eq_true, if_false]
      rw [unwait_arr s t h]
      obtain ⟨h1, h2⟩ := insertionInnerRun_unwait env1 env2 speed1 speed2 (idx t.arr i) i _ _
        (unwait_tick _ _ h)
      rw [h2]
      have h3 := unwait_writeArr (insertionInnerRun env2 speed2 (idx t.arr i) (tick t) i).2
        (idx t.arr i) _ _ h1
      apply ih
      apply unwait_sleep
      apply unwait_addSorted
      rw [unwait_arr _ _ h3]
      exact unwait_setArray _ _ _ h3

theorem insertionSortRun_unwait (env1 env2 : Env) (he : ∀ k, env1.stop k = env2.stop k)
    (speed1 speed2 : Nat) (s0 : SortState) :
    (insertionSortRun env1 speed1 s0).unwait = (insertionSortRun env2 speed2 s0).unwait := by
  unfold insertionSortRun
  have h1 := insertionOuterRun_unwait env1 env2 he speed1 speed2 (s0.array.length - 1)
    (beginRun s0) (beginRun s0) 1 rfl
  generalize insertionOuterRun env1 speed1 (beginRun s0) 1 (s0.array.length - 1) = r1 at h1
  generalize insertionOuterRun env2 speed2 (beginRun s0) 1 (s0.array.length - 1) = r2 at h1
  cases r1 <;> cases r2 <;> simp only [Ctl.unwait, Ctl.go.injEq, Ctl.halt.injEq] at h1
  · exact unwait_showMessage _ _ _ (unwait_setIsSorting _ _ _ (unwait_setComparing _ _ _ h1))
  · exact absurd h1 (by simp)
  · exact absurd h1 (by simp)
  · exact h1

theorem mergeMainRun_unwait (env1 env2 : Env) (speed1 speed2 : Nat) (L R : List Int)
    (n1 n2 left mid : Nat) (fuel : Nat) : ∀ (s t : SortState) (i j k : Nat),
    s.unwait = t.unwait →
    (mergeMainRun env1 speed1 L R n1 n2 left mid fuel s i j k).map
        (fun x => (x.1.unwait, x.2)) =
      (mergeMainRun env2 speed2 L R n1 n2 left mid fuel t i j k).map
        (fun x => (x.1.unwait, x.2)) := by
  induction fuel with
  | zero =>
    intro s t i j k h
    simp only [mergeMainRun]
    split_ifs <;> simp [h]
  | succ fuel ih =>
    intro s t i j k h
    simp only [mergeMainRun]
    have h1 := unwait_sleep env1 env2 speed1 speed2 _ _
      (unwait_addComparison _ _ (unwait_setComparing [left + i, mid + 1 + j] _ _ h))
    split_ifs with c1 c2
    · have h2 := unwait_writeArr k (idx L i) _ _ h1
      apply ih
      apply unwait_sleep
      rw [unwait_arr _ _ h2]
      exact unwait_setArray _ _ _ h2
    · have h2 := unwait_writeArr k (idx R j) _ _ h1
      apply ih
      apply unwait_sleep
      rw [unwait_arr _ _ h2]
      exact unwait_setArray _ _ _ h2
    · simp [h]

theorem copyRestRun_unwait (env1 env2 : Env) (speed1 speed2 : Nat) (src : List Int) (cnt : Nat) :
    ∀ (s t : SortState) (i k : Nat), s.unwait = t.unwait →
    (copyRestRun env1 speed1 src s i k cnt).1.unwait =
        (copyRestRun env2 speed2 src t i k cnt).1.unwait ∧
      (copyRestRun env1 speed1 src s i k cnt).2 = (copyRestRun env2 speed2 src t i k cnt).2 := by
  induction cnt with
  | zero => intro s t i k h; simp only [copyRestRun, h, and_self]
  | succ cnt ih =>
    intro s t i k h
    simp only [copyRestRun]
    have h2 := unwait_writeArr k (idx src i) _ _ h
    apply ih
    apply unwait_sleep
    rw [unwait_arr _ _ h2]
    exact unwait_setArray _ _ _ h2

theorem mergeRun_unwait (env1 env2 : Env) (he : ∀ k, env1.stop k = env2.stop k) (speed1 speed2 : Nat)
    (s t : SortState) (left mid right : Nat) (h : s.unwait = t.unwait) :
    (mergeRun env1 speed1 s left mid right).map SortState.unwait =
      (mergeRun env2 speed2 t left mid right).map SortState.unwait := by
  unfold mergeRun
  rw [he, unwait_reads s t h, unwait_arr s t h]
  cases c : env2.stop t.reads with
  | true => simp only [if_true, Option.map_some', unwait_tick _ _ h]
  | false =>
    simp only [Bool.false_eq_true, if_false]
    have h1 := mergeMainRun_unwait env1 env2 speed1 speed2 (slice t.arr left (mid + 1))
      (slice t.arr (mid + 1) (right + 1)) (mid - left + 1) (right - mid) left mid
      (mid - left + 1 + (right - mid)) (tick s) (tick t) 0 0 left (unwait_tick _ _ h)
    generalize mergeMainRun env1 speed1 (slice t.arr left (mid + 1))
      (slice t.arr (mid + 1) (right + 1)) (mid - left + 1) (right - mid) left mid
      (mid - left + 1 + (right - mid)) (tick s) 0 0 left = r1 at h1
    generalize mergeMainRun env2 speed2 (slice t.arr left (mid + 1))
      (slice t.arr (mid + 1) (right + 1)) (mid - left + 1) (right - mid) left mid
      (mid - left + 1 + (right - mid)) (tick t) 0 0 left = r2 at h1
    cases r1 with
    | none =>
      cases r2 with
      | none => rfl
      | some y => simp at h1
    | some x =>
      cases r2 with
      | none => simp at h1
      | some y =>
        obtain ⟨a, i, j, k⟩ := x
        obtain ⟨b, i2, j2, k2⟩ := y
        simp only [Option.map_some', Option.some.injEq, Prod.mk.injEq] at h1
        obtain ⟨ha, hi, hj, hk⟩ := h1
        subst hi; subst hj; subst hk
        simp only [Option.map_some', Option.some.injEq]
        obtain ⟨c1, c2⟩ := copyRestRun_unwait env1 env2 speed1 speed2 (slice t.arr left (mid + 1))
          (mid - left + 1 - i) a b i k ha
        rw [c2]
        exact (copyRestRun_unwait env1 env2 speed1 speed2 (slice t.arr (mid + 1) (right + 1))
          (right - mid - j) _ _ j _ c1).1

theorem mergeSortRecRun_unwait (env1 env2 : Env) (he : ∀ k, env1.stop k = env2.stop k)
    (speed1 speed2 : Nat) (fuel : Nat) : ∀ (s t : SortState) (l r : Nat), s.unwait = t.unwait →
    (mergeSortRecRun env1 speed1 fuel s l r).map SortState.unwait =
      (mergeSortRecRun env2 speed2 fuel t l r).map SortState.unwait := by
  induction fuel with
  | zero =>
    intro s t l r h
    simp only [mergeSortRecRun]
    rw [he, unwait_reads s t h]
    split_ifs <;> simp [h, unwait_tick _ _ h]
  | succ fuel ih =>
    intro s t l r h
    simp only [mergeSortRecRun]
    rw [he, unwait_reads s t h]
    split_ifs with c1 c2
    · simp [h]
    · simp [unwait_tick _ _ h]
    · have h1 := ih (tick s) (tick t) l ((l + r) / 2) (unwait_tick _ _ h)
      generalize mergeSortRecRun env1 speed1 fuel (tick s) l ((l + r) / 2) = r1 at h1
      generalize mergeSortRecRun env2 speed2 fuel (tick t) l ((l + r) / 2) = r2 at h1
      cases r1 with
      | none =>
        cases r2 with
        | none => rfl
        | some y => simp at h1
      | some a =>
        cases r2 with
        | none => simp at h1
        | some b =>
          simp only [Option.map_some', Option.some.injEq] at h1
          simp only
          have h2 := ih a b ((l + r) / 2 + 1) r h1
          generalize mergeSortRecRun env1 speed1 fuel a ((l + r) / 2 + 1) r = q1 at h2
          generalize mergeSortRecRun env2 speed2 fuel b ((l + r) / 2 + 1) r = q2 at h2
          cases q1 with
          | none =>
            cases q2 with
            | none => rfl
            | some y => simp at h2
          | some a2 =>
            cases q2 with
            | none => simp at h2
            | some b2 =>
              simp only [Option.map_some', Option.some.injEq] at h2
              exact mergeRun_unwait env1 env2 he speed1 speed2 a2 b2 l ((l + r) / 2) r h2

theorem mergeSortRun_unwait (env1 env2 : Env) (he : ∀ k, env1.stop k = env2.stop k)
    (speed1 speed2 : Nat) (s0 : SortState) :
    (mergeSortRun env1 speed1 s0).map SortState.unwait =
      (mergeSortRun env2 speed2 s0).map SortState.unwait := by
  unfold mergeSortRun
  have h1 := mergeSortRecRun_unwait env1 env2 he speed1 speed2 s0.array.length (beginRun s0) (beginRun s0)
    0 (s0.array.length - 1) rfl
  generalize mergeSortRecRun env1 speed1 s0.array.length (beginRun s0) 0 (s0.array.length - 1) =
    r1 at h1
  generalize mergeSortRecRun env2 speed2 s0.array.length (beginRun s0) 0 (s0.array.length - 1) =
    r2 at h1
  cases r1 with
  | none =>
    cases r2 with
    | none => rfl
    | some y => simp at h1
  | some a =>
    cases r2 with
    | none => simp at h1
    | some b =>
      simp only [Option.map_some', Option.some.injEq] at h1 ⊢
      rw [unwait_arr a b h1]
      exact unwait_showMessage _ _ _ (unwait_setIsSorting _ _ _ (unwait_setComparing _ _ _
        (unwait_setSorted _ _ _ h1)))

theorem partitionLoopRun_unwait (env1 env2 : Env) (he : ∀ k, env1.stop k = env2.stop k)
    (speed1 speed2 : Nat) (pivot : Int) (high : Nat) (cnt : Nat) :
    ∀ (s t : SortState) (i1 j : Nat), s.unwait = t.unwait →
    (partitionLoopRun env1 speed1 pivot high s i1 j cnt).1.unwait =
        (partitionLoopRun env2 speed2 pivot high t i1 j cnt).1.unwait ∧
      (partitionLoopRun env1 speed1 pivot high s i1 j cnt).2 =
        (partitionLoopRun env2 speed2 pivot high t i1 j cnt).2 := by
  induction cnt with
  | zero => intro s t i1 j h; simp only [partitionLoopRun, h, and_self]
  | succ cnt ih =>
    intro s t i1 j h
    simp only [partitionLoopRun]
    rw [he, unwait_reads s t h]
    cases c : env2.stop t.reads with
    | true => simp only [if_true, unwait_tick _ _ h, and_self]
    | false =>
      simp only [Bool.false_eq_true, if_false]
      have h1 := unwait_sleep env1 env2 speed1 speed2 _ _
        (unwait_addComparison _ _ (unwait_setComparing [j, high] _ _ (unwait_tick _ _ h)))
      rw [unwait_arr _ _ h1]
      split_ifs with c2
      · exact ih _ _ _ _ (unwait_setSwapping _ _ _ (unwait_sleep env1 env2 speed1 speed2 _ _
          (unwait_setSwapping _ _ _ (unwait_addSwap _ _ (unwait_swapAndSet _ _ _ _
            (unwait_swapArr _ _ _ _ h1))))))
      · exact ih _ _ _ _ h1

theorem partitionRun_unwait (env1 env2 : Env) (he : ∀ k, env1.stop k = env2.stop k)
    (speed1 speed2 : Nat) (s t : SortState) (low high : Nat) (h : s.unwait = t.unwait) :
    (partitionRun env1 speed1 s low high).1.unwait = (partitionRun env2 speed2 t low high).1.unwait ∧
      (partitionRun env1 speed1 s low high).2 = (partitionRun env2 speed2 t low high).2 := by
  unfold partitionRun
  rw [unwait_arr s t h]
  obtain ⟨h1, h2⟩ := partitionLoopRun_unwait env1 env2 he speed1 speed2 (idx t.arr high) high
    (high - low) s t low low h
  generalize partitionLoopRun env1 speed1 (idx t.arr high) high s low low (high - low) = r1 at h1 h2
  generalize partitionLoopRun env2 speed2 (idx t.arr high) high t low low (high - low) = r2 at h1 h2
  obtain ⟨a, m1⟩ := r1
  obtain ⟨b, m2⟩ := r2
  simp only at h1 h2
  subst h2
  cases m1 with
  | none => simp only [h1, and_self]
  | some i1 =>
    simp only [and_true]
    exact unwait_sleep env1 env2 speed1 speed2 _ _ (unwait_addSwap _ _ (unwait_swapAndSet _ _ _ _
      (unwait_swapArr _ _ _ _ h1)))

theorem qsortRun_unwait (env1 env2 : Env) (he : ∀ k, env1.stop k = env2.stop k)
    (speed1 speed2 : Nat) (fuel : Nat) : ∀ (s t : SortState) (low high : Nat), s.unwait = t.unwait →
    (qsortRun env1 speed1 fuel s low high).map SortState.unwait =
      (qsortRun env2 speed2 fuel t low high).map SortState.unwait := by
  induction fuel with
  | zero =>
    intro s t low high h
    simp only [qsortRun]
    rw [he, unwait_reads s t h]
    split_ifs <;> simp [h, unwait_tick _ _ h]
  | succ fuel ih =>
    intro s t low high h
    simp only [qsortRun]
    rw [he, unwait_reads s t h]
    split_ifs with c1 c2
    · simp [unwait_tick _ _ h]
    · obtain ⟨h1, h2⟩ := partitionRun_unwait env1 env2 he speed1 speed2 (tick s) (tick t) low high
        (unwait_tick _ _ h)
      generalize partitionRun env1 speed1 (tick s) low high = r1 at h1 h2
      generalize partitionRun env2 speed2 (tick t) low high = r2 at h1 h2
      obtain ⟨a, m1⟩ := r1
      obtain ⟨b, m2⟩ := r2
      simp only at h1 h2
      subst h2
      cases m1 with
      | none => simp [h1]
      | some pi =>
        simp only
        have h3 := ih a b low (pi - 1) h1
        generalize qsortRun env1 speed1 fuel a low (pi - 1) = q1 at h3
        generalize qsortRun env2 speed2 fuel b low (pi - 1) = q2 at h3
        cases q1 with
        | none =>
          cases q2 with
          | none => rfl
          | some y => simp at h3
        | some a2 =>
          cases q2 with
          | none => simp at h3
          | some b2 =>
            simp only [Option.map_some', Option.some.injEq] at h3
            exact ih a2 b2 (pi + 1) high h3
    · simp [h]

theorem quickSortRun_unwait (env1 env2 : Env) (he : ∀ k, env1.stop k = env2.stop k)
    (speed1 speed2 : Nat) (s0 : SortState) :
    (quickSortRun env1 speed1 s0).map SortState.unwait =
      (quickSortRun env2 speed2 s0).map SortState.unwait := by
  unfold quickSortRun
  have h1 := qsortRun_unwait env1 env2 he speed1 speed2 s0.array.length (beginRun s0) (beginRun s0)
    0 (s0.array.length - 1) rfl
  generalize qsortRun env1 speed1 s0.array.length (beginRun s0) 0 (s0.array.length - 1) = r1 at h1
  generalize qsortRun env2 speed2 s0.array.length (beginRun s0) 0 (s0.array.length - 1) = r2 at h1
  cases r1 with
  | none =>
    cases r2 with
    | none => rfl
    | some y => simp at h1
  | some a =>
    cases r2 with
    | none => simp at h1
    | some b =>
      simp only [Option.map_some', Option.some.injEq] at h1 ⊢
      rw [unwait_arr a b h1]
      exact unwait_showMessage _ _ _ (unwait_setIsSorting _ _ _ (unwait_setComparing _ _ _
        (unwait_setSorted _ _ _ h1)))

/-- Claim C12: for each of the five producers and every input array, a run
that is never stopped, whatever the pauses its calls of `sleep` meet, ends in
the same state as the run that is never paused, up to the time spent waiting:
the same log of setter calls (compared pairs, swaps, published arrays), the
same counters, the same arrays; a run of `mergeSort` or `quickSort` returns
under the one schedule exactly when it returns under the other. -/
theorem pause_does_not_change_run (env : Env) (speed : Nat) (array : List Int)
    (hstop : ∀ k, env.stop k = false) :
    (bubbleSortRun env speed (startState array)).unwait =
        (bubbleSortRun quietEnv speed (startState array)).unwait ∧
    (selectionSortRun env speed (startState array)).unwait =
        (selectionSortRun quietEnv speed (startState array)).unwait ∧
    (insertionSortRun env speed (startState array)).unwait =
        (insertionSortRun quietEnv speed (startState array)).unwait ∧
    (mergeSortRun env speed (startState array)).map SortState.unwait =
        (mergeSortRun quietEnv speed (startState array)).map SortState.unwait ∧
    (quickSortRun env speed (startState array)).map SortState.unwait =
        (quickSortRun quietEnv speed (startState array)).map SortState.unwait :=
  ⟨bubbleSortRun_unwait env quietEnv hstop speed speed _,
    selectionSortRun_unwait env quietEnv hstop speed speed _,
    insertionSortRun_unwait env quietEnv hstop speed speed _,
    mergeSortRun_unwait env quietEnv hstop speed speed _,
    quickSortRun_unwait env quietEnv hstop speed speed _⟩

/-- Witness of claim C12 at the array `[2, 1]`, for a run whose `k`-th call of
`sleep` meets `k` polls in pause. -/
theorem pause_does_not_change_run_witness :
    (bubbleSortRun { stop := fun _ => false, pausedPolls := fun k => k, stopSeen := fun _ => false }
        80 (startState [2, 1])).unwait =
        (bubbleSortRun quietEnv 80 (startState [2, 1])).unwait ∧
    (bubbleSortRun { stop := fun _ => false, pausedPolls := fun k => k, stopSeen := fun _ => false }
        80 (startState [2, 1])).waited ≠ (bubbleSortRun quietEnv 80 (startState [2, 1])).waited :=
  ⟨(pause_does_not_change_run
      { stop := fun _ => false, pausedPolls := fun k => k, stopSeen := fun _ => false }
      80 [2, 1] (fun _ => rfl)).1, by decide⟩

/-! ### What `swapAndSet` publishes -/

theorem swap_swap (arr : List Int) (i j : Nat) (hi : i < arr.length) (hj : j < arr.length) :
    swap (swap arr i j) i j = arr := by
  have hl := length_swap arr i j
  have h1 : ∀ m, idx (swap (swap arr i j) i j) m = idx arr m := by
    intro m
    rw [idx_swap (swap arr i j) i j m (by rw [hl]; exact hi) (by rw [hl]; exact hj),
      idx_swap arr i j i hi hj, idx_swap arr i j j hi hj, idx_swap arr i j m hi hj]
    by_cases c1 : m = j
    · subst c1
      by_cases c0 : i = m
      · subst c0; simp
      · simp [c0]
    · by_cases c2 : m = i
      · subst c2
        have c3 : ¬ j = m := fun h => c1 h.symm
        simp [c1, c3]
      · simp [c1, c2]
  apply List.ext_getElem
  · rw [length_swap, hl]
  · intro k a1 a2
    have := h1 k
    rw [idx_eq_getElem _ k a1, idx_eq_getElem _ k a2] at this
    exact this

/-- The call `swapAndSet(arr, i, j)` that follows the in-place swap of `arr`
publishes the array as it was before the swap. -/
theorem swapAndSet_after_swap (s : SortState) (i j : Nat) (hi : i < s.arr.length)
    (hj : j < s.arr.length) :
    (swapAndSet i j (swapArr i j s)).array = s.arr ∧
      (swapAndSet i j (swapArr i j s)).arr = swap s.arr i j := by
  simp only [swapAndSet, swapArr, setArray, swap_swap s.arr i j hi hj, and_self]

/-- Failing input of claim C13: on the array `[2, 1]` each of `bubbleSort`,
`selectionSort` and `quickSort` ends with the working array `[1, 2]`, while
the one array it published through `swapAndSet`, which is the last array the
page holds, is `[2, 1]`. -/
theorem published_array_lags_behind :
    ((bubbleSortRun quietEnv 80 (startState [2, 1])).arr = [1, 2] ∧
      (bubbleSortRun quietEnv 80 (startState [2, 1])).array = [2, 1] ∧
      Step.array [2, 1] ∈ (bubbleSortRun quietEnv 80 (startState [2, 1])).steps ∧
      Step.array [1, 2] ∉ (bubbleSortRun quietEnv 80 (startState [2, 1])).steps) ∧
    ((selectionSortRun quietEnv 80 (startState [2, 1])).arr = [1, 2] ∧
      (selectionSortRun quietEnv 80 (startState [2, 1])).array = [2, 1]) ∧
    ((quickSortRun quietEnv 80 (startState [2, 1])).map SortState.arr = some [1, 2] ∧
      (quickSortRun quietEnv 80 (startState [2, 1])).map SortState.array = some [2, 1]) := by
  decide

/-! ### The stop flag after `handleReset` -/

/-- Failing input of claim C11: `handleReset` sets `stopRef.current` and then
calls `generateArray`, which clears it again, so the flag is not set when the
handler returns; a producer that reads this value at each of its next checks
goes on and delivers every step of the run that is never stopped. -/
theorem handleReset_clears_stop_flag (newArray : List Int) (p : SortPage) :
    (handleReset newArray p).stopRef = false ∧
      (bubbleSortRun
        { stop := fun _ => (handleReset newArray p).stopRef, pausedPolls := fun _ => 0,
          stopSeen := fun _ => (handleReset newArray p).stopRef } 80 (startState [2, 1])).steps =
        (bubbleSortRun quietEnv 80 (startState [2, 1])).steps ∧
      Step.array [2, 1] ∈ (bubbleSortRun
        { stop := fun _ => (handleReset newArray p).stopRef, pausedPolls := fun _ => 0,
          stopSeen := fun _ => (handleReset newArray p).stopRef } 80 (startState [2, 1])).steps := by
  have h : (handleReset newArray p).stopRef = false := rfl
  rw [h]
  exact ⟨rfl, rfl, by decide⟩

/-! ### Quick sort on `[5, 1, 4, 2, 8]` -/

/-- Counterexample to claim C19: the run of `quickSort` on `[5, 1, 4, 2, 8]`
does not end with a swap count of 4. -/
theorem quickSort_sample_swaps_ne_four :
    (quickSortRun quietEnv 80 (startState [5, 1, 4, 2, 8])).map SortState.swaps ≠ some 4 := by
  decide

/-- Claim C19, amended: every run of `quickSort` to completion on
`[5, 1, 4, 2, 8]` ends with a swap count of 9: the counter is incremented at
each of the six swaps of the partition scans and at each of the three final
pivot swaps, also when a position is swapped with itself. -/
theorem quickSort_sample_swaps (env : Env) (speed : Nat) (hstop : ∀ k, env.stop k = false) :
    (quickSortRun env speed (startState [5, 1, 4, 2, 8])).map SortState.swaps = some 9 := by
  have h := quickSortRun_unwait env quietEnv hstop speed 80 (startState [5, 1, 4, 2, 8])
  have h2 : (quickSortRun quietEnv 80 (startState [5, 1, 4, 2, 8])).map
      (fun s => s.unwait.swaps) = some 9 := by decide
  have h3 := congrArg (Option.map SortState.swaps) h
  simp only [Option.map_map] at h3
  have e : (SortState.swaps ∘ SortState.unwait) = SortState.swaps := rfl
  rw [e] at h3
  rw [h3]
  exact h2

/-- Witness of the amended claim C19 for the run that is never paused. -/
theorem quickSort_sample_swaps_witness :
    (quickSortRun quietEnv 80 (startState [5, 1, 4, 2, 8])).map SortState.swaps = some 9 :=
  quickSort_sample_swaps quietEnv 80 (fun _ => rfl)

/-! ### A run of `quickSort` that is never stopped follows `qsort` -/

theorem partitionLoopRun_arr (env : Env) (hstop : ∀ k, env.stop k = false) (speed : Nat)
    (pivot : Int) (high : Nat) (cnt : Nat) :
    ∀ (s : SortState) (i1 j : Nat),
    (partitionLoopRun env speed pivot high s i1 j cnt).1.arr =
        (partitionLoop pivot s.arr i1 j cnt).1 ∧
      (partitionLoopRun env speed pivot high s i1 j cnt).2 =
        some (partitionLoop pivot s.arr i1 j cnt).2 := by
  induction cnt with
  | zero => intro s i1 j; simp only [partitionLoopRun, partitionLoop, and_self]
  | succ cnt ih =>
    intro s i1 j
    simp only [partitionLoopRun, partitionLoop, hstop, Bool.false_eq_true, if_false]
    have e : (sleep env speed (addComparison (setComparing [j, high] (tick s)))).arr = s.arr := rfl
    rw [e]
    split_ifs with c
    · exact ih _ _ _
    · have := ih (sleep env speed (addComparison (setComparing [j, high] (tick s)))) i1 (j + 1)
      rw [e] at this
      exact this

theorem partitionRun_arr (env : Env) (hstop : ∀ k, env.stop k = false) (speed : Nat)
    (s : SortState) (low high : Nat) :
    (partitionRun env speed s low high).1.arr = (partition s.arr low high).1 ∧
      (partitionRun env speed s low high).2 = some (partition s.arr low high).2 := by
  obtain ⟨h1, h2⟩ := partitionLoopRun_arr env hstop speed (idx s.arr high) high (high - low) s low low
  unfold partitionRun partition
  generalize partitionLoopRun env speed (idx s.arr high) high s low low (high - low) = r at h1 h2
  obtain ⟨r1, r2⟩ := r
  simp only at h1 h2
  subst h2
  simp only [← h1, and_true]
  rfl

theorem qsortRun_arr (env : Env) (hstop : ∀ k, env.stop k = false) (speed : Nat) (fuel : Nat) :
    ∀ (s : SortState) (low high : Nat),
    (qsortRun env speed fuel s low high).map SortState.arr = qsort fuel s.arr low high := by
  induction fuel with
  | zero =>
    intro s low high
    simp only [qsortRun, qsort, hstop, Bool.false_eq_true, if_false]
    split_ifs <;> rfl
  | succ fuel ih =>
    intro s low high
    simp only [qsortRun, qsort, hstop, Bool.false_eq_true, if_false]
    split_ifs with c
    · obtain ⟨h1, h2⟩ := partitionRun_arr env hstop speed (tick s) low high
      have e : (tick s).arr = s.arr := rfl
      rw [e] at h1 h2
      generalize partitionRun env speed (tick s) low high = r at h1 h2
      obtain ⟨r1, r2⟩ := r
      simp only at h1 h2
      subst h2
      simp only
      have i1 := ih r1 low ((partition s.arr low high).2 - 1)
      rw [h1] at i1
      cases c1 : qsortRun env speed fuel r1 low ((partition s.arr low high).2 - 1) with
      | none =>
        rw [c1] at i1
        simp only [Option.map_none'] at i1
        simp only [← i1, Option.map_none']
      | some s2 =>
        rw [c1] at i1
        simp only [Option.map_some'] at i1
        simp only [← i1]
        exact ih s2 _ _
    · rfl

/-- Claim C18: every run of `quickSort` to completion on `[5, 1, 4, 2, 8]`
returns with the working array and the published array both
`[1, 2, 4, 5, 8]` and with the positions `0, 1, 2, 3, 4` marked sorted; and
for every input array a run of `quickSort` to completion returns, and has
marked sorted the positions `0 .. n - 1` of the input of length `n`, and only
those. -/
theorem quickSort_marks_all_sorted (env : Env) (speed : Nat) (array : List Int)
    (hstop : ∀ k, env.stop k = false) :
    (quickSortRun env speed (startState [5, 1, 4, 2, 8])).map
        (fun s => (s.arr, s.array, s.sorted)) =
      some ([1, 2, 4, 5, 8], [1, 2, 4, 5, 8], [0, 1, 2, 3, 4]) ∧
    ∃ s, quickSortRun env speed (startState array) = some s ∧
      s.sorted = List.range array.length ∧ (∀ k, k ∈ s.sorted ↔ k < array.length) ∧
      s.isSorting = false := by
  constructor
  · have h := quickSortRun_unwait env quietEnv hstop speed 80 (startState [5, 1, 4, 2, 8])
    have h2 : (quickSortRun quietEnv 80 (startState [5, 1, 4, 2, 8])).map
        (fun s => (s.unwait.arr, s.unwait.array, s.unwait.sorted)) =
        some ([1, 2, 4, 5, 8], [1, 2, 4, 5, 8], [0, 1, 2, 3, 4]) := by decide
    have h3 := congrArg (Option.map (fun s : SortState => (s.arr, s.array, s.sorted))) h
    simp only [Option.map_map] at h3
    exact h3.trans h2
  · obtain ⟨out, c, _, hp⟩ := quickSort_spec array
    have h := qsortRun_arr env hstop speed array.length (beginRun (startState array)) 0
      (array.length - 1)
    have e : (beginRun (startState array)).arr = array := rfl
    rw [e] at h
    unfold quickSort at c
    rw [c] at h
    have e2 : (startState array).array = array := rfl
    unfold quickSortRun
    rw [e2]
    cases c1 : qsortRun env speed array.length (beginRun (startState array)) 0
        (array.length - 1) with
    | none => rw [c1] at h; simp at h
    | some s1 =>
      rw [c1] at h
      simp only [Option.map_some', Option.some.injEq] at h
      have hl : s1.arr.length = array.length := by rw [h]; exact hp.length_eq
      refine ⟨_, rfl, ?_, ?_, rfl⟩
      · simp only [showMessage, setIsSorting, setComparing, setSorted, hl]
      · intro k
        simp only [showMessage, setIsSorting, setComparing, setSorted, hl, List.mem_range]

/-- Witness of claim C18 for the run on `[3, 1, 2]` that is never paused. -/
theorem quickSort_marks_all_sorted_witness :
    (quickSortRun quietEnv 80 (startState [5, 1, 4, 2, 8])).map
        (fun s => (s.arr, s.array, s.sorted)) =
      some ([1, 2, 4, 5, 8], [1, 2, 4, 5, 8], [0, 1, 2, 3, 4]) ∧
    ∃ s, quickSortRun quietEnv 80 (startState [3, 1, 2]) = some s ∧
      s.sorted = List.range [3, 1, 2].length ∧ (∀ k, k ∈ s.sorted ↔ k < [3, 1, 2].length) ∧
      s.isSorting = false :=
  quickSort_marks_all_sorted quietEnv 80 [3, 1, 2] (fun _ => rfl)

/-! ### Which positions a run marks sorted -/

theorem insertionInnerRun_sorted (env : Env) (speed : Nat) (key : Int) (j : Nat) :
    ∀ s : SortState, (insertionInnerRun env speed key s j).1.sorted = s.sorted := by
  induction j with
  | zero => intro s; rfl
  | succ j ih =>
    intro s
    simp only [insertionInnerRun]
    split_ifs
    · rw [ih]; rfl
    · rfl

theorem insertionOuterRun_sorted (env : Env) (speed : Nat) (cnt : Nat) :
    ∀ (s : SortState) (i : Nat), 1 ≤ i → 0 ∉ s.sorted →
      0 ∉ (insertionOuterRun env speed s i cnt).state.sorted := by
  induction cnt with
  | zero => intro s i _ h; exact h
  | succ cnt ih =>
    intro s i hi h
    simp only [insertionOuterRun]
    split_ifs
    · exact h
    · apply ih _ (i + 1) (by omega)
      have e : (sleep env speed (addSorted i (setArray
          (writeArr (insertionInnerRun env speed (idx s.arr i) (tick s) i).2 (idx s.arr i)
            (insertionInnerRun env speed (idx s.arr i) (tick s) i).1).arr
          (writeArr (insertionInnerRun env speed (idx s.arr i) (tick s) i).2 (idx s.arr i)
            (insertionInnerRun env speed (idx s.arr i) (tick s) i).1)))).sorted =
          (insertionInnerRun env speed (idx s.arr i) (tick s) i).1.sorted ++ [i] := rfl
      rw [e, insertionInnerRun_sorted]
      simp only [List.mem_append, List.mem_singleton, not_or]
      exact ⟨h, by omega⟩

/-- Failing input of claim C23: a run of `insertionSort` never marks the
position 0 sorted, whatever the input array and the flags it reads: its loop
starts at `i = 1` and it has no final `setSorted`.  On `[2, 1]` it completes
with the positions `[1]` marked, on `[7]` with none, while `bubbleSort` and
`selectionSort` complete on `[2, 1]` with the positions 0 and 1 marked. -/
theorem insertionSort_never_marks_first (env : Env) (speed : Nat) (array : List Int) :
    0 ∉ (insertionSortRun env speed (startState array)).sorted ∧
      ((insertionSortRun quietEnv 80 (startState [2, 1])).sorted = [1] ∧
        (insertionSortRun quietEnv 80 (startState [2, 1])).message =
          some "Insertion sort completed" ∧
        (insertionSortRun quietEnv 80 (startState [7])).sorted = []) ∧
      ((bubbleSortRun quietEnv 80 (startState [2, 1])).sorted = [0, 1] ∧
        (selectionSortRun quietEnv 80 (startState [2, 1])).sorted = [0, 1]) := by
  refine ⟨?_, by decide, by decide⟩
  have h := insertionOuterRun_sorted env speed ((startState array).array.length - 1)
    (beginRun (startState array)) 1 (le_refl _) (by simp [beginRun, startState, resetStats,
      setIsSorting])
  unfold insertionSortRun
  cases c : insertionOuterRun env speed (beginRun (startState array)) 1
      ((startState array).array.length - 1) with
  | go s1 => rw [c] at h; exact h
  | halt s1 => rw [c] at h; exact h

/-! ### A run that finds the stop flag set -/

/-- The producers taken with the flag as an input: on every array of two or
more elements a run of `mergeSort` or of `quickSort` that reads the stop flag
set at its first check (and at every later one) returns from its recursion
with the array untouched, and then goes on to mark every position sorted, to
clear `isSorting` and to show the message "completed"; `bubbleSort` under the
same flags ends through `finishEarly` with no position marked and no
message.  (On the page the flag is set only inside `handleReset`, which
clears it again before it returns.) -/
theorem stopped_merge_quick_report_completed (speed : Nat) (a b : Int) (rest : List Int) :
    (mergeSortRun stoppedEnv speed (startState (a :: b :: rest))).map
        (fun s => (s.reads, s.arr, s.sorted, s.message)) =
      some (1, a :: b :: rest, List.range (rest.length + 2), some "Merge sort completed") ∧
    (quickSortRun stoppedEnv speed (startState (a :: b :: rest))).map
        (fun s => (s.reads, s.arr, s.sorted, s.message)) =
      some (1, a :: b :: rest, List.range (rest.length + 2), some "Quick sort completed") ∧
    ((bubbleSortRun stoppedEnv speed (startState (a :: b :: rest))).sorted = [] ∧
      (bubbleSortRun stoppedEnv speed (startState (a :: b :: rest))).message = none) := by
  refine ⟨?_, ?_, ?_⟩
  · simp [mergeSortRun, startState, mergeSortRecRun, stoppedEnv, showMessage, setIsSorting,
      setComparing, setSorted, tick, beginRun, resetStats]
  · simp [quickSortRun, startState, qsortRun, stoppedEnv, showMessage, setIsSorting,
      setComparing, setSorted, tick, beginRun, resetStats]
  · simp [bubbleSortRun, startState, bubbleOuterRun, bubbleInnerRun, stoppedEnv, beginRun,
      resetStats, setIsSorting, finishEarly, tick, setComparing, setSwapping]

/-! ### The comparisons that `insertionSort` counts -/

theorem insertionInnerRun_counts (env : Env) (speed : Nat) (key : Int) (j : Nat) :
    ∀ s : SortState,
      (insertionInnerRun env speed key s j).1.comparisons + s.swaps =
        (insertionInnerRun env speed key s j).1.swaps + s.comparisons := by
  induction j with
  | zero => intro s; simp only [insertionInnerRun]; omega
  | succ j ih =>
    intro s
    simp only [insertionInnerRun]
    split_ifs
    · have h := ih (addSwap (swapAndSet (j + 1) j (writeArr (j + 1)
        (idx (sleep env speed (addComparison (setComparing [j, j + 1] s))).arr j)
        (sleep env speed (addComparison (setComparing [j, j + 1] s))))))
      have e1 : (addSwap (swapAndSet (j + 1) j (writeArr (j + 1)
        (idx (sleep env speed (addComparison (setComparing [j, j + 1] s))).arr j)
        (sleep env speed (addComparison (setComparing [j, j + 1] s)))))).swaps = s.swaps + 1 := rfl
      have e2 : (addSwap (swapAndSet (j + 1) j (writeArr (j + 1)
        (idx (sleep env speed (addComparison (setComparing [j, j + 1] s))).arr j)
        (sleep env speed (addComparison (setComparing [j, j + 1] s)))))).comparisons =
          s.comparisons + 1 := rfl
      rw [e1, e2] at h
      omega
    · show s.comparisons + s.swaps = s.swaps + s.comparisons
      omega

theorem insertionOuterRun_counts (env : Env) (speed : Nat) (cnt : Nat) :
    ∀ (s : SortState) (i : Nat), s.comparisons = s.swaps →
      (insertionOuterRun env speed s i cnt).state.comparisons =
        (insertionOuterRun env speed s i cnt).state.swaps := by
  induction cnt with
  | zero => intro s i h; exact h
  | succ cnt ih =>
    intro s i h
    simp only [insertionOuterRun]
    split_ifs
    · exact h
    · apply ih
      have c := insertionInnerRun_counts env speed (idx s.arr i) i (tick s)
      have e1 : (tick s).swaps = s.swaps := rfl
      have e2 : (tick s).comparisons = s.comparisons := rfl
      rw [e1, e2] at c
      show (insertionInnerRun env speed (idx s.arr i) (tick s) i).1.comparisons =
        (insertionInnerRun env speed (idx s.arr i) (tick s) i).1.swaps
      omega

/-- Failing input of claim C26: on the array `[1, 2]` a run of `insertionSort`
evaluates the comparison `arr[j] > key` once (it is false and ends the inner
loop) and completes with the comparisons counter at 0; on `[1, 2, 3]` it
evaluates two comparisons and counts none, on `[2, 1]` it evaluates and counts
one.  The counter is incremented in the body of the inner loop, so that on
every input and under all flags it ends equal to the swaps counter (the
number of shifts): the comparisons that end the inner loop are not counted. -/
theorem insertionSort_misses_closing_comparisons (env : Env) (speed : Nat) (array : List Int) :
    (insertionEvals [1, 2] = 1 ∧
        (insertionSortRun quietEnv 80 (startState [1, 2])).comparisons = 0 ∧
        (insertionSortRun quietEnv 80 (startState [1, 2])).message =
          some "Insertion sort completed") ∧
      (insertionEvals [1, 2, 3] = 2 ∧
        (insertionSortRun quietEnv 80 (startState [1, 2, 3])).comparisons = 0) ∧
      (insertionEvals [2, 1] = 1 ∧
        (insertionSortRun quietEnv 80 (startState [2, 1])).comparisons = 1) ∧
      (insertionSortRun env speed (startState array)).comparisons =
        (insertionSortRun env speed (startState array)).swaps := by
  refine ⟨by decide, by decide, by decide, ?_⟩
  have h := insertionOuterRun_counts env speed ((startState array).array.length - 1)
    (beginRun (startState array)) 1 rfl
  unfold insertionSortRun
  cases c : insertionOuterRun env speed (beginRun (startState array)) 1
      ((startState array).array.length - 1) with
  | go s1 => rw [c] at h; exact h
  | halt s1 => rw [c] at h; exact h

/-! ### The counters of `mergeSort` -/

theorem mergeCounts_compare (env : Env) (speed a b : Nat) (s : SortState) (h : MergeCounts s) :
    MergeCounts (sleep env speed (addComparison (setComparing [a, b] s))) := by
  obtain ⟨h1, h2⟩ := h
  refine ⟨h1, ?_⟩
  show s.comparisons + 1 = ((s.steps ++ [Step.comparing [a, b]]) ++
    [Step.stats (s.comparisons + 1) s.swaps]).countP Step.isCompare
  rw [List.countP_append, List.countP_append, ← h2]
  rfl

theorem mergeCounts_write (env : Env) (speed k : Nat) (v : Int) (s : SortState)
    (h : MergeCounts s) :
    MergeCounts (sleep env speed (setArray (writeArr k v s).arr (writeArr k v s))) := by
  obtain ⟨h1, h2⟩ := h
  refine ⟨h1, ?_⟩
  show s.comparisons = (s.steps ++ [Step.array (s.arr.set k v)]).countP Step.isCompare
  rw [List.countP_append, ← h2]
  rfl

theorem mergeMainRun_counts (env : Env) (speed : Nat) (L R : List Int) (n1 n2 left mid : Nat)
    (fuel : Nat) : ∀ (s : SortState) (i j k : Nat) (r : SortState × Nat × Nat × Nat),
    mergeMainRun env speed L R n1 n2 left mid fuel s i j k = some r → MergeCounts s →
      MergeCounts r.1 := by
  induction fuel with
  | zero =>
    intro s i j k r hr h
    simp only [mergeMainRun] at hr
    split_ifs at hr
    injection hr with hr
    subst hr
    exact h
  | succ fuel ih =>
    intro s i j k r hr h
    simp only [mergeMainRun] at hr
    split_ifs at hr with c1 c2
    · exact ih _ _ _ _ r hr (mergeCounts_write env speed _ _ _
        (mergeCounts_compare env speed _ _ s h))
    · exact ih _ _ _ _ r hr (mergeCounts_write env speed _ _ _
        (mergeCounts_compare env speed _ _ s h))
    · injection hr with hr
      subst hr
      exact h

theorem copyRestRun_counts (env : Env) (speed : Nat) (src : List Int) (cnt : Nat) :
    ∀ (s : SortState) (i k : Nat), MergeCounts s →
      MergeCounts (copyRestRun env speed src s i k cnt).1 := by
  induction cnt with
  | zero => intro s i k h; exact h
  | succ cnt ih =>
    intro s i k h
    simp only [copyRestRun]
    exact ih _ _ _ (mergeCounts_write env speed _ _ s h)

theorem mergeRun_counts (env : Env) (speed : Nat) (s : SortState) (left mid right : Nat)
    (t : SortState) (ht : mergeRun env speed s left mid right = some t) (h : MergeCounts s) :
    MergeCounts t := by
  unfold mergeRun at ht
  split_ifs at ht
  · injection ht with ht
    subst ht
    exact h
  · simp only at ht
    cases c : mergeMainRun env speed (slice s.arr left (mid + 1))
        (slice s.arr (mid + 1) (right + 1)) (mid - left + 1) (right - mid) left mid
        (mid - left + 1 + (right - mid)) (tick s) 0 0 left with
    | none => rw [c] at ht; simp at ht
    | some r =>
      rw [c] at ht
      obtain ⟨r1, i, j, k⟩ := r
      simp only [Option.some.injEq] at ht
      subst ht
      have h1 := mergeMainRun_counts env speed _ _ _ _ _ _ _ _ _ _ _ _ c h
      exact copyRestRun_counts env speed _ _ _ _ _
        (copyRestRun_counts env speed _ _ _ _ _ h1)

theorem mergeSortRecRun_counts (env : Env) (speed : Nat) (fuel : Nat) :
    ∀ (s : SortState) (l r : Nat) (t : SortState),
    mergeSortRecRun env speed fuel s l r = some t → MergeCounts s → MergeCounts t := by
  induction fuel with
  | zero =>
    intro s l r t ht h
    simp only [mergeSortRecRun] at ht
    split_ifs at ht
    · injection ht with ht; subst ht; exact h
    · injection ht with ht; subst ht; exact h
  | succ fuel ih =>
    intro s l r t ht h
    simp only [mergeSortRecRun] at ht
    split_ifs at ht
    · injection ht with ht; subst ht; exact h
    · injection ht with ht; subst ht; exact h
    · cases c1 : mergeSortRecRun env speed fuel (tick s) l ((l + r) / 2) with
      | none => rw [c1] at ht; simp at ht
      | some s1 =>
        rw [c1] at ht
        simp only at ht
        cases c2 : mergeSortRecRun env speed fuel s1 ((l + r) / 2 + 1) r with
        | none => rw [c2] at ht; simp at ht
        | some s2 =>
          rw [c2] at ht
          simp only at ht
          exact mergeRun_counts env speed s2 _ _ _ t ht
            (ih _ _ _ s2 c2 (ih _ _ _ s1 c1 h))

/-! ### A run of `mergeSort` that is never stopped follows `mergeSortRec` -/

theorem mergeMainRun_arr (env : Env) (speed : Nat) (L R : List Int) (n1 n2 left mid : Nat)
    (fuel : Nat) : ∀ (s : SortState) (i j k : Nat),
    (mergeMainRun env speed L R n1 n2 left mid fuel s i j k).map (fun r => (r.1.arr, r.2)) =
      mergeMain L R n1 n2 fuel s.arr i j k := by
  induction fuel with
  | zero =>
    intro s i j k
    simp only [mergeMainRun, mergeMain]
    split_ifs <;> rfl
  | succ fuel ih =>
    intro s i j k
    simp only [mergeMainRun, mergeMain]
    split_ifs with c1 c2
    · exact ih _ _ _ _
    · exact ih _ _ _ _
    · rfl

theorem copyRestRun_arr (env : Env) (speed : Nat) (src : List Int) (cnt : Nat) :
    ∀ (s : SortState) (i k : Nat),
    ((copyRestRun env speed src s i k cnt).1.arr, (copyRestRun env speed src s i k cnt).2) =
      copyRest src s.arr i k cnt := by
  induction cnt with
  | zero => intro s i k; rfl
  | succ cnt ih =>
    intro s i k
    simp only [copyRestRun, copyRest]
    exact ih _ _ _

theorem mergeRun_arr (env : Env) (hstop : ∀ k, env.stop k = false) (speed : Nat)
    (s : SortState) (left mid right : Nat) :
    (mergeRun env speed s left mid right).map SortState.arr = merge s.arr left mid right := by
  unfold mergeRun merge
  simp only [hstop, Bool.false_eq_true, if_false]
  have h := mergeMainRun_arr env speed (slice s.arr left (mid + 1))
    (slice s.arr (mid + 1) (right + 1)) (mid - left + 1) (right - mid) left mid
    (mid - left + 1 + (right - mid)) (tick s) 0 0 left
  have e : (tick s).arr = s.arr := rfl
  rw [e] at h
  rw [← h]
  cases c : mergeMainRun env speed (slice s.arr left (mid + 1))
      (slice s.arr (mid + 1) (right + 1)) (mid - left + 1) (right - mid) left mid
      (mid - left + 1 + (right - mid)) (tick s) 0 0 left with
  | none => rfl
  | some r =>
    obtain ⟨r1, i, j, k⟩ := r
    simp only [Option.map_some', Option.some.injEq]
    have h2 := copyRestRun_arr env speed (slice s.arr left (mid + 1)) (mid - left + 1 - i) r1 i k
    have h3 := copyRestRun_arr env speed (slice s.arr (mid + 1) (right + 1)) (right - mid - j)
      (copyRestRun env speed (slice s.arr left (mid + 1)) r1 i k (mid - left + 1 - i)).1 j
      (copyRestRun env speed (slice s.arr left (mid + 1)) r1 i k (mid - left + 1 - i)).2
    rw [← h2]
    simp only
    rw [← h3]

theorem mergeSortRecRun_arr (env : Env) (hstop : ∀ k, env.stop k = false) (speed : Nat)
    (fuel : Nat) : ∀ (s : SortState) (l r : Nat),
    (mergeSortRecRun env speed fuel s l r).map SortState.arr = mergeSortRec fuel s.arr l r := by
  induction fuel with
  | zero =>
    intro s l r
    simp only [mergeSortRecRun, mergeSortRec, hstop, Bool.false_eq_true, if_false]
    split_ifs <;> rfl
  | succ fuel ih =>
    intro s l r
    simp only [mergeSortRecRun, mergeSortRec, hstop, Bool.false_eq_true, if_false]
    split_ifs with c
    · rfl
    · have i1 := ih (tick s) l ((l + r) / 2)
      have e : (tick s).arr = s.arr := rfl
      rw [e] at i1
      cases c1 : mergeSortRecRun env speed fuel (tick s) l ((l + r) / 2) with
      | none =>
        rw [c1] at i1
        simp only [Option.map_none'] at i1
        simp only [← i1, Option.map_none']
      | some s1 =>
        rw [c1] at i1
        simp only [Option.map_some'] at i1
        simp only [← i1]
        have i2 := ih s1 ((l + r) / 2 + 1) r
        cases c2 : mergeSortRecRun env speed fuel s1 ((l + r) / 2 + 1) r with
        | none =>
          rw [c2] at i2
          simp only [Option.map_none'] at i2
          simp only [← i2, Option.map_none']
        | some s2 =>
          rw [c2] at i2
          simp only [Option.map_some'] at i2
          simp only [← i2]
          exact mergeRun_arr env hstop speed s2 _ _ _

/-! ### What a run of `mergeSort` counts -/

theorem mergeTally_compare (env : Env) (speed a b : Nat) (s : SortState) :
    (sleep env speed (addComparison (setComparing [a, b] s))).comparisons = s.comparisons + 1 ∧
      (sleep env speed (addComparison (setComparing [a, b] s))).steps.countP Step.isArray =
        s.steps.countP Step.isArray := by
  refine ⟨rfl, ?_⟩
  show ((s.steps ++ [Step.comparing [a, b]]) ++
    [Step.stats (s.comparisons + 1) s.swaps]).countP Step.isArray = _
  rw [List.countP_append, List.countP_append]
  rfl

theorem mergeTally_write (env : Env) (speed k : Nat) (v : Int) (s : SortState) :
    (sleep env speed (setArray (writeArr k v s).arr (writeArr k v s))).comparisons =
        s.comparisons ∧
      (sleep env speed (setArray (writeArr k v s).arr (writeArr k v s))).steps.countP
          Step.isArray = s.steps.countP Step.isArray + 1 := by
  refine ⟨rfl, ?_⟩
  show (s.steps ++ [Step.array (s.arr.set k v)]).countP Step.isArray = _
  rw [List.countP_append]
  rfl

theorem mergeMainRun_tally (env : Env) (speed : Nat) (L R : List Int) (n1 n2 left mid : Nat)
    (fuel : Nat) : ∀ (s : SortState) (i j k : Nat) (r : SortState × Nat × Nat × Nat),
    mergeMainRun env speed L R n1 n2 left mid fuel s i j k = some r →
      r.1.comparisons = s.comparisons + mergeMainEvals L R n1 n2 fuel i j ∧
      r.1.steps.countP Step.isArray =
        s.steps.countP Step.isArray + mergeMainEvals L R n1 n2 fuel i j := by
  induction fuel with
  | zero =>
    intro s i j k r hr
    simp only [mergeMainRun] at hr
    split_ifs at hr
    injection hr with hr
    subst hr
    exact ⟨rfl, rfl⟩
  | succ fuel ih =>
    intro s i j k r hr
    simp only [mergeMainRun] at hr
    simp only [mergeMainEvals]
    split_ifs at hr ⊢ with c1 c2
    · obtain ⟨h1, h2⟩ := ih _ _ _ _ r hr
      obtain ⟨w1, w2⟩ := mergeTally_write env speed k (idx L i)
        (sleep env speed (addComparison (setComparing [left + i, mid + 1 + j] s)))
      obtain ⟨p1, p2⟩ := mergeTally_compare env speed (left + i) (mid + 1 + j) s
      rw [h1, h2, w1, w2, p1, p2]
      omega
    · obtain ⟨h1, h2⟩ := ih _ _ _ _ r hr
      obtain ⟨w1, w2⟩ := mergeTally_write env speed k (idx R j)
        (sleep env speed (addComparison (setComparing [left + i, mid + 1 + j] s)))
      obtain ⟨p1, p2⟩ := mergeTally_compare env speed (left + i) (mid + 1 + j) s
      rw [h1, h2, w1, w2, p1, p2]
      omega
    · injection hr with hr
      subst hr
      exact ⟨rfl, rfl⟩

theorem copyRestRun_tally (env : Env) (speed : Nat) (src : List Int) (cnt : Nat) :
    ∀ (s : SortState) (i k : Nat),
      (copyRestRun env speed src s i k cnt).1.comparisons = s.comparisons ∧
      (copyRestRun env speed src s i k cnt).1.steps.countP Step.isArray =
        s.steps.countP Step.isArray + cnt := by
  induction cnt with
  | zero => intro s i k; exact ⟨rfl, rfl⟩
  | succ cnt ih =>
    intro s i k
    simp only [copyRestRun]
    obtain ⟨h1, h2⟩ := ih (sleep env speed (setArray (writeArr k (idx src i) s).arr
      (writeArr k (idx src i) s))) (i + 1) (k + 1)
    obtain ⟨w1, w2⟩ := mergeTally_write env speed k (idx src i) s
    rw [h1, h2, w1, w2]
    omega

theorem mergeRun_tally (env : Env) (hstop : ∀ k, env.stop k = false) (speed : Nat)
    (s : SortState) (left mid right : Nat) (t : SortState)
    (ht : mergeRun env speed s left mid right = some t) :
    t.comparisons = s.comparisons + mergeEvals s.arr left mid right ∧
      t.steps.countP Step.isArray =
        s.steps.countP Step.isArray + mergeWrites s.arr left mid right := by
  unfold mergeRun at ht
  simp only [hstop, Bool.false_eq_true, if_false] at ht
  have harr := mergeMainRun_arr env speed (slice s.arr left (mid + 1))
    (slice s.arr (mid + 1) (right + 1)) (mid - left + 1) (right - mid) left mid
    (mid - left + 1 + (right - mid)) (tick s) 0 0 left
  have e : (tick s).arr = s.arr := rfl
  rw [e] at harr
  cases c : mergeMainRun env speed (slice s.arr left (mid + 1))
      (slice s.arr (mid + 1) (right + 1)) (mid - left + 1) (right - mid) left mid
      (mid - left + 1 + (right - mid)) (tick s) 0 0 left with
  | none => rw [c] at ht; simp at ht
  | some r =>
    rw [c] at ht harr
    obtain ⟨r1, i, j, k⟩ := r
    simp only [Option.some.injEq] at ht
    simp only [Option.map_some'] at harr
    obtain ⟨m1, m2⟩ := mergeMainRun_tally env speed _ _ _ _ _ _ _ _ _ _ _ _ c
    have e1 : (tick s).comparisons = s.comparisons := rfl
    have e2 : (tick s).steps = s.steps := rfl
    simp only at m1 m2
    rw [e1] at m1
    rw [e2] at m2
    obtain ⟨a1, a2⟩ := copyRestRun_tally env speed (slice s.arr left (mid + 1))
      (mid - left + 1 - i) r1 i k
    obtain ⟨b1, b2⟩ := copyRestRun_tally env speed (slice s.arr (mid + 1) (right + 1))
      (right - mid - j)
      (copyRestRun env speed (slice s.arr left (mid + 1)) r1 i k (mid - left + 1 - i)).1 j
      (copyRestRun env speed (slice s.arr left (mid + 1)) r1 i k (mid - left + 1 - i)).2
    subst ht
    refine ⟨?_, ?_⟩
    · rw [b1, a1, m1]; rfl
    · rw [b2, a2, m2]
      unfold mergeWrites
      rw [← harr]
      simp only [mergeEvals]
      omega

theorem mergeSortRecRun_tally (env : Env) (hstop : ∀ k, env.stop k = false) (speed : Nat)
    (fuel : Nat) : ∀ (s : SortState) (l r : Nat) (t : SortState),
    mergeSortRecRun env speed fuel s l r = some t →
      t.comparisons = s.comparisons + (mergeSortRecCounts fuel s.arr l r).1 ∧
      t.steps.countP Step.isArray =
        s.steps.countP Step.isArray + (mergeSortRecCounts fuel s.arr l r).2 := by
  induction fuel with
  | zero =>
    intro s l r t ht
    simp only [mergeSortRecRun, hstop, Bool.false_eq_true, if_false] at ht
    split_ifs at ht
    injection ht with ht
    subst ht
    exact ⟨rfl, rfl⟩
  | succ fuel ih =>
    intro s l r t ht
    simp only [mergeSortRecRun, hstop, Bool.false_eq_true, if_false] at ht
    simp only [mergeSortRecCounts]
    split_ifs at ht ⊢ with c
    · injection ht with ht
      subst ht
      exact ⟨rfl, rfl⟩
    · have e : (tick s).arr = s.arr := rfl
      have e1 : (tick s).comparisons = s.comparisons := rfl
      have e2 : (tick s).steps = s.steps := rfl
      cases c1 : mergeSortRecRun env speed fuel (tick s) l ((l + r) / 2) with
      | none => rw [c1] at ht; simp at ht
      | some s1 =>
        rw [c1] at ht
        simp only at ht
        have p1 := mergeSortRecRun_arr env hstop speed fuel (tick s) l ((l + r) / 2)
        rw [c1, e] at p1
        simp only [Option.map_some'] at p1
        obtain ⟨i1, i2⟩ := ih _ _ _ s1 c1
        rw [e, e1] at i1
        rw [e, e2] at i2
        cases c2 : mergeSortRecRun env speed fuel s1 ((l + r) / 2 + 1) r with
        | none => rw [c2] at ht; simp at ht
        | some s2 =>
          rw [c2] at ht
          simp only at ht
          have p2 := mergeSortRecRun_arr env hstop speed fuel s1 ((l + r) / 2 + 1) r
          rw [c2] at p2
          simp only [Option.map_some'] at p2
          obtain ⟨j1, j2⟩ := ih _ _ _ s2 c2
          obtain ⟨k1, k2⟩ := mergeRun_tally env hstop speed s2 _ _ _ t ht
          rw [← p1]
          simp only
          rw [← p2]
          simp only
          rw [k1, k2, j1, j2, i1, i2]
          omega

/-- Counterexample to claim C27: the run of `mergeSort` on `[2, 1]` writes two
elements into the merged run (each write is followed by one call of
`setArray`), evaluates one comparison and completes with the swaps counter at
0, not 2. -/
theorem mergeSort_counts_no_writes :
    mergeSortWrites [2, 1] = 2 ∧ mergeSortEvals [2, 1] = 1 ∧
      (mergeSortRun quietEnv 80 (startState [2, 1])).map
        (fun s => (s.arr, s.steps.countP Step.isArray, s.comparisons, s.swaps)) =
          some ([1, 2], 2, 1, 0) ∧
      (mergeSortRun quietEnv 80 (startState [2, 1])).map
        (fun s => decide (s.swaps = mergeSortWrites [2, 1])) = some false := by
  decide

/-- Claim C27, amended: every run of `mergeSort` to completion returns, on
every input, with the comparisons counter equal to the number of pairwise
comparisons `L[i] <= R[j]` evaluated (each of them signalled by
`setComparing`), and with the swaps counter at 0: `merge` publishes each
element it writes through `setArray` and does not count it. -/
theorem mergeSort_counters (env : Env) (speed : Nat) (array : List Int)
    (hstop : ∀ k, env.stop k = false) :
    ∃ s, mergeSortRun env speed (startState array) = some s ∧
      s.comparisons = mergeSortEvals array ∧
      s.comparisons = s.steps.countP Step.isCompare ∧
      s.swaps = 0 ∧
      s.steps.countP Step.isArray = mergeSortWrites array ∧
      s.message = some "Merge sort completed" := by
  obtain ⟨out, c, _, _⟩ := mergeSort_spec array
  have h := mergeSortRecRun_arr env hstop speed array.length (beginRun (startState array)) 0
    (array.length - 1)
  have e : (beginRun (startState array)).arr = array := rfl
  rw [e] at h
  unfold mergeSort at c
  rw [c] at h
  have e2 : (startState array).array = array := rfl
  unfold mergeSortRun
  rw [e2]
  cases c1 : mergeSortRecRun env speed array.length (beginRun (startState array)) 0
      (array.length - 1) with
  | none => rw [c1] at h; simp at h
  | some s1 =>
    have hc : MergeCounts s1 :=
      mergeSortRecRun_counts env speed _ _ _ _ s1 c1 ⟨rfl, rfl⟩
    obtain ⟨h1, h2⟩ := hc
    obtain ⟨t1, t2⟩ := mergeSortRecRun_tally env hstop speed _ _ _ _ s1 c1
    rw [e] at t1 t2
    have e3 : (beginRun (startState array)).comparisons = 0 := rfl
    have e4 : (beginRun (startState array)).steps.countP Step.isArray = 0 := rfl
    rw [e3, zero_add] at t1
    rw [e4, zero_add] at t2
    refine ⟨_, rfl, t1, ?_, h1, ?_, rfl⟩
    · show s1.comparisons = ((((s1.steps ++ [Step.sorted (List.range s1.arr.length)]) ++
        [Step.comparing []]) ++ [Step.isSorting false]) ++
        [Step.message "Merge sort completed"]).countP Step.isCompare
      rw [List.countP_append, List.countP_append, List.countP_append, List.countP_append, ← h2]
      rfl
    · show ((((s1.steps ++ [Step.sorted (List.range s1.arr.length)]) ++
        [Step.comparing []]) ++ [Step.isSorting false]) ++
        [Step.message "Merge sort completed"]).countP Step.isArray = mergeSortWrites array
      rw [List.countP_append, List.countP_append, List.countP_append, List.countP_append, t2]
      rfl

/-- Witness of the amended claim C27 for the run on `[5, 1, 4, 2, 8]` that is
never paused: it evaluates and counts 8 comparisons, writes 12 elements and
counts no swap. -/
theorem mergeSort_counters_witness :
    (∃ s, mergeSortRun quietEnv 80 (startState [5, 1, 4, 2, 8]) = some s ∧
      s.comparisons = mergeSortEvals [5, 1, 4, 2, 8] ∧
      s.comparisons = s.steps.countP Step.isCompare ∧
      s.swaps = 0 ∧
      s.steps.countP Step.isArray = mergeSortWrites [5, 1, 4, 2, 8] ∧
      s.message = some "Merge sort completed") ∧
    mergeSortEvals [5, 1, 4, 2, 8] = 8 ∧ mergeSortWrites [5, 1, 4, 2, 8] = 12 :=
  ⟨mergeSort_counters quietEnv 80 [5, 1, 4, 2, 8] (fun _ => rfl), by decide, by decide⟩

/-! ### The counters of `bubbleSort` -/

theorem swap_cons_succ (x : Int) (xs : List Int) (i j : Nat) :
    swap (x :: xs) (i + 1) (j + 1) = x :: swap xs i j := by
  simp [swap, idx]

theorem swap_zero_one (x y : Int) (ys : List Int) : swap (x :: y :: ys) 0 1 = y :: x :: ys := by
  simp [swap, idx]

theorem inversions_swap_adjacent (arr : List Int) : ∀ (j : Nat), j + 1 < arr.length →
    idx arr (j + 1) < idx arr j → inversions arr = inversions (swap arr j (j + 1)) + 1 := by
  induction arr with
  | nil => intro j h; simp at h
  | cons x xs ih =>
    intro j hj hlt
    cases j with
    | zero =>
      cases xs with
      | nil => simp at hj
      | cons y ys =>
        have hyx : y < x := by simpa [idx] using hlt
        have hxy : ¬ x < y := by omega
        rw [swap_zero_one]
        simp only [inversions, List.countP_cons, hyx, hxy, decide_True, decide_False, if_true,
          Bool.false_eq_true, if_false]
        omega
    | succ j =>
      have hj2 : j + 1 < xs.length := by simpa using hj
      have hlt2 : idx xs (j + 1) < idx xs j := by simpa [idx] using hlt
      rw [swap_cons_succ]
      simp only [inversions]
      rw [ih j hj2 hlt2, (swap_perm xs j (j + 1) (by omega) hj2).countP_eq]
      omega

theorem inversions_sorted (arr : List Int) (h : arr.Sorted (· ≤ ·)) : inversions arr = 0 := by
  induction arr with
  | nil => rfl
  | cons x xs ih =>
    have h1 := List.rel_of_sorted_cons h
    simp only [inversions, ih (List.Sorted.of_cons h), add_zero]
    rw [List.countP_eq_zero]
    intro y hy
    have := h1 y hy
    simp only [decide_eq_true_eq]
    omega

theorem bubbleInnerRun_counts (env : Env) (hstop : ∀ k, env.stop k = false) (speed : Nat)
    (cnt : Nat) : ∀ (s : SortState) (j : Nat), j + cnt < s.arr.length →
    ∃ t, bubbleInnerRun env speed s j cnt = Ctl.go t ∧ t.arr = bubbleInner s.arr j cnt ∧
      t.comparisons = s.comparisons + cnt ∧
      t.swaps + inversions t.arr = s.swaps + inversions s.arr := by
  induction cnt with
  | zero => intro s j _; exact ⟨s, rfl, rfl, rfl, rfl⟩
  | succ cnt ih =>
    intro s j hj
    simp only [bubbleInnerRun, bubbleInner, hstop, Bool.false_eq_true, if_false]
    by_cases c : idx s.arr j > idx s.arr (j + 1)
    · have c2 : idx (sleep env speed (addComparison (setComparing [j, j + 1] (tick s)))).arr j >
          idx (sleep env speed (addComparison (setComparing [j, j + 1] (tick s)))).arr (j + 1) := c
      simp only [c, c2, if_true]
      obtain ⟨t, h1, h2, h3, h4⟩ := ih
        (setSwapping [] (sleep env speed (addSwap (setSwapping [j, j + 1]
          (swapAndSet j (j + 1) (swapArr j (j + 1)
            (sleep env speed (addComparison (setComparing [j, j + 1] (tick s))))))))))
        (j + 1) (by
          show j + 1 + cnt < (swap s.arr j (j + 1)).length
          rw [length_swap]; omega)
      refine ⟨t, h1, h2, ?_, ?_⟩
      · rw [h3]
        show s.comparisons + 1 + cnt = s.comparisons + (cnt + 1)
        omega
      · rw [h4]
        show s.swaps + 1 + inversions (swap s.arr j (j + 1)) = s.swaps + inversions s.arr
        rw [inversions_swap_adjacent s.arr j (by omega) c]
        omega
    · have c2 : ¬ idx (sleep env speed (addComparison (setComparing [j, j + 1] (tick s)))).arr j >
          idx (sleep env speed (addComparison (setComparing [j, j + 1] (tick s)))).arr (j + 1) := c
      simp only [c, c2, if_false]
      obtain ⟨t, h1, h2, h3, h4⟩ := ih
        (sleep env speed (addComparison (setComparing [j, j + 1] (tick s)))) (j + 1) (by
          show j + 1 + cnt < s.arr.length
          omega)
      refine ⟨t, h1, h2, ?_, h4⟩
      rw [h3]
      show s.comparisons + 1 + cnt = s.comparisons + (cnt + 1)
      omega

theorem bubbleInner_length (cnt : Nat) : ∀ (arr : List Int) (j : Nat),
    (bubbleInner arr j cnt).length = arr.length := by
  induction cnt with
  | zero => intro arr j; rfl
  | succ cnt ih =>
    intro arr j
    simp only [bubbleInner]
    rw [ih]
    split_ifs
    · exact length_swap _ _ _
    · rfl

theorem bubbleOuterRun_counts (env : Env) (hstop : ∀ k, env.stop k = false) (speed n : Nat)
    (cnt : Nat) : ∀ (s : SortState) (i : Nat), s.arr.length = n → i + cnt = n - 1 →
    ∃ t, bubbleOuterRun env speed n s i cnt = Ctl.go t ∧ t.arr = bubbleOuter n s.arr i cnt ∧
      t.comparisons = s.comparisons + ∑ k in Finset.range (cnt + 1), k ∧
      t.swaps + inversions t.arr = s.swaps + inversions s.arr := by
  induction cnt with
  | zero => intro s i _ _; exact ⟨s, rfl, rfl, by simp, rfl⟩
  | succ cnt ih =>
    intro s i hn hi
    obtain ⟨t1, a1, a2, a3, a4⟩ := bubbleInnerRun_counts env hstop speed (n - i - 1) s 0
      (by omega)
    simp only [bubbleOuterRun, bubbleOuter, a1]
    obtain ⟨t, b1, b2, b3, b4⟩ := ih (addSorted (n - 1 - i) t1) (i + 1)
      (by
        show t1.arr.length = n
        rw [a2, bubbleInner_length]; exact hn)
      (by omega)
    have e1 : (addSorted (n - 1 - i) t1).arr = t1.arr := rfl
    have e2 : (addSorted (n - 1 - i) t1).comparisons = t1.comparisons := rfl
    have e3 : (addSorted (n - 1 - i) t1).swaps = t1.swaps := rfl
    rw [e1] at b2 b4
    rw [e2] at b3
    rw [e3] at b4
    refine ⟨t, b1, by rw [b2, a2], ?_, by rw [b4, a4]⟩
    rw [b3, a3, Finset.sum_range_succ (fun k => k) (cnt + 1)]
    have : n - i - 1 = cnt + 1 := by omega
    omega

/-- Claim C29: for every input array of length `n`, a run of `bubbleSort` to
completion ends with the swaps counter equal to the number of inversions of
the input and the comparisons counter equal to `n (n - 1) / 2`, whatever the
order of the input. -/
theorem bubbleSort_counters (env : Env) (speed : Nat) (array : List Int)
    (hstop : ∀ k, env.stop k = false) :
    (bubbleSortRun env speed (startState array)).swaps = inversions array ∧
      (bubbleSortRun env speed (startState array)).comparisons =
        array.length * (array.length - 1) / 2 ∧
      (bubbleSortRun env speed (startState array)).message = some "Bubble sort completed" := by
  obtain ⟨t, b1, b2, b3, b4⟩ := bubbleOuterRun_counts env hstop speed array.length
    (array.length - 1) (beginRun (startState array)) 0 rfl (by omega)
  have e0 : (startState array).array = array := rfl
  have e1 : (beginRun (startState array)).arr = array := rfl
  have e2 : (beginRun (startState array)).swaps = 0 := rfl
  have e3 : (beginRun (startState array)).comparisons = 0 := rfl
  rw [e1] at b2 b4
  rw [e2] at b4
  rw [e3] at b3
  have hs : inversions t.arr = 0 := by
    rw [b2]
    exact inversions_sorted _ (bubbleSort_spec array).1
  unfold bubbleSortRun
  rw [e0, b1]
  refine ⟨?_, ?_, rfl⟩
  · show t.swaps = inversions array
    omega
  · show t.comparisons = array.length * (array.length - 1) / 2
    rw [b3, zero_add]
    by_cases h0 : array.length = 0
    · simp [h0]
    · have : array.length - 1 + 1 = array.length := by omega
      rw [this, Finset.sum_range_id]

/-- Witness of claim C29 for the run on `[5, 1, 4, 2, 8]` that is never
paused: 4 inversions, 10 comparisons. -/
theorem bubbleSort_counters_witness :
    ((bubbleSortRun quietEnv 80 (startState [5, 1, 4, 2, 8])).swaps = inversions [5, 1, 4, 2, 8] ∧
      (bubbleSortRun quietEnv 80 (startState [5, 1, 4, 2, 8])).comparisons =
        [5, 1, 4, 2, 8].length * ([5, 1, 4, 2, 8].length - 1) / 2 ∧
      (bubbleSortRun quietEnv 80 (startState [5, 1, 4, 2, 8])).message =
        some "Bubble sort completed") ∧
    inversions [5, 1, 4, 2, 8] = 4 ∧
    (bubbleSortRun quietEnv 80 (startState [5, 1, 4, 2, 8])).comparisons = 10 :=
  ⟨bubbleSort_counters quietEnv 80 [5, 1, 4, 2, 8] (fun _ => rfl), by decide, by decide⟩
/-! ## Tree page: proofs -/

theorem mem_values_insertNode (t : Tree) (v y : Int) :
    y ∈ (insertNode t v).values ↔ y = v ∨ y ∈ t.values := by
  induction t with
  | nil => simp [insertNode, Tree.values]
  | node x l r ihl ihr =>
    unfold insertNode
    split_ifs with h1 h2
    · simp only [Tree.values, List.mem_append, List.mem_cons, ihl]; tauto
    · simp only [Tree.values, List.mem_append, List.mem_cons, ihr]; tauto
    · have : v = x := by omega
      subst this
      simp only [Tree.values, List.mem_append, List.mem_cons]; tauto

theorem isBST_insertNode (t : Tree) (v : Int) (h : isBST t) : isBST (insertNode t v) := by
  induction t with
  | nil => simp [insertNode, isBST, Tree.values]
  | node x l r ihl ihr =>
    obtain ⟨hl, hr, bl, br⟩ := h
    unfold insertNode
    split_ifs with h1 h2
    · refine ⟨?_, hr, ihl bl, br⟩
      intro y hy
      rcases (mem_values_insertNode l v y).1 hy with rfl | hy
      · exact h1
      · exact hl y hy
    · refine ⟨hl, ?_, bl, ihr br⟩
      intro y hy
      rcases (mem_values_insertNode r v y).1 hy with rfl | hy
      · exact h2
      · exact hr y hy
    · exact ⟨hl, hr, bl, br⟩

theorem minValue_mem (x : Int) (l r : Tree) : minValue x l ∈ (Tree.node x l r).values := by
  induction l generalizing x r with
  | nil => simp [minValue, Tree.values]
  | node y ll lr ihl _ =>
    have := ihl y lr
    simp only [minValue, Tree.values, List.mem_append, List.mem_cons] at this ⊢
    tauto

theorem minValue_le (x : Int) (l r : Tree) (h : isBST (Tree.node x l r)) :
    ∀ y ∈ (Tree.node x l r).values, minValue x l ≤ y := by
  induction l generalizing x r with
  | nil =>
    obtain ⟨_, hr, _, _⟩ := h
    intro y hy
    simp only [Tree.values, List.nil_append, List.mem_cons] at hy
    rcases hy with rfl | hy
    · simp [minValue]
    · simp only [minValue]; exact le_of_lt (hr y hy)
  | node z ll lr ihl _ =>
    obtain ⟨hl, hr, bl, _⟩ := h
    intro y hy
    have hm : minValue z ll ∈ (Tree.node z ll lr).values := minValue_mem z ll lr
    have hlt : minValue z ll < x := hl _ hm
    simp only [Tree.values, List.mem_append, List.mem_cons] at hy
    simp only [minValue]
    rcases hy with hy | rfl | hy
    · exact ihl z lr bl y (by simpa [Tree.values] using hy)
    · exact le_of_lt hlt
    · exact le_of_lt (lt_trans hlt (hr y hy))

theorem mem_values_deleteNode (t : Tree) (v : Int) (h : isBST t) (y : Int) :
    y ∈ (deleteNode t v).values ↔ y ∈ t.values ∧ y ≠ v := by
  induction t generalizing v with
  | nil => simp [deleteNode, Tree.values]
  | node x l r ihl ihr =>
    obtain ⟨hl, hr, bl, br⟩ := h
    unfold deleteNode
    split_ifs with h1 h2
    · simp only [Tree.values, List.mem_append, List.mem_cons, ihl v bl]
      constructor
      · rintro (⟨a, b⟩ | rfl | c)
        · exact ⟨Or.inl a, b⟩
        · exact ⟨Or.inr (Or.inl rfl), by omega⟩
        · exact ⟨Or.inr (Or.inr c), by have := hr y c; omega⟩
      · rintro ⟨a | rfl | c, b⟩
        · exact Or.inl ⟨a, b⟩
        · exact Or.inr (Or.inl rfl)
        · exact Or.inr (Or.inr c)
    · simp only [Tree.values, List.mem_append, List.mem_cons, ihr v br]
      constructor
      · rintro (a | rfl | ⟨c, b⟩)
        · exact ⟨Or.inl a, by have := hl y a; omega⟩
        · exact ⟨Or.inr (Or.inl rfl), by omega⟩
        · exact ⟨Or.inr (Or.inr c), b⟩
      · rintro ⟨a | rfl | c, b⟩
        · exact Or.inl a
        · exact Or.inr (Or.inl rfl)
        · exact Or.inr (Or.inr ⟨c, b⟩)
    · have hv : v = x := by omega
      subst hv
      cases l with
      | nil =>
        simp only [Tree.values, List.nil_append, List.mem_cons]
        constructor
        · intro c; exact ⟨Or.inr c, by have := hr y c; omega⟩
        · rintro ⟨rfl | c, b⟩
          · exact absurd rfl b
          · exact c
      | node lv ll lr =>
        cases r with
        | nil =>
          simp only [Tree.values, List.mem_append, List.mem_cons, List.not_mem_nil, or_false]
          constructor
          · intro c
            have := hl y (by simpa [Tree.values] using c)
            exact ⟨Or.inl c, by omega⟩
          · rintro ⟨a | rfl, b⟩
            · exact a
            · exact absurd rfl b
        | node rv rl rr =>
          have hm := minValue_mem rv rl rr
          have hmin := minValue_le rv rl rr br
          have hd := ihr (minValue rv rl) br
          simp only [Tree.values, List.mem_append, List.mem_cons] at hd hm hmin hl hr ⊢
          rw [hd]
          constructor
          · rintro (a | rfl | ⟨c, b⟩)
            · exact ⟨Or.inl a, by have := hl y a; omega⟩
            · exact ⟨Or.inr (Or.inr hm), by have := hr _ hm; omega⟩
            · exact ⟨Or.inr (Or.inr c), by have := hr y c; omega⟩
          · rintro ⟨a | rfl | c, b⟩
            · exact Or.inl a
            · exact absurd rfl b
            · by_cases e : y = minValue rv rl
              · exact Or.inr (Or.inl e)
              · exact Or.inr (Or.inr ⟨c, e⟩)

theorem isBST_deleteNode (t : Tree) (v : Int) (h : isBST t) : isBST (deleteNode t v) := by
  induction t generalizing v with
  | nil => simp [deleteNode, isBST]
  | node x l r ihl ihr =>
    have h0 := h
    obtain ⟨hl, hr, bl, br⟩ := h
    unfold deleteNode
    split_ifs with h1 h2
    · refine ⟨?_, hr, ihl v bl, br⟩
      intro y hy
      exact hl y ((mem_values_deleteNode l v bl y).1 hy).1
    · refine ⟨hl, ?_, bl, ihr v br⟩
      intro y hy
      exact hr y ((mem_values_deleteNode r v br y).1 hy).1
    · cases l with
      | nil => exact br
      | node lv ll lr =>
        cases r with
        | nil => exact bl
        | node rv rl rr =>
          have hm := minValue_mem rv rl rr
          have hmin := minValue_le rv rl rr br
          refine ⟨?_, ?_, bl, ihr _ br⟩
          · intro y hy
            have := hl y hy
            have := hr _ hm
            omega
          · intro y hy
            obtain ⟨c, b⟩ := (mem_values_deleteNode _ _ br y).1 hy
            have := hmin y c
            omega

theorem isBST_applyOp (t : Tree) (op : TreeOp) (h : isBST t) : isBST (applyOp t op) := by
  cases op with
  | insert v => exact isBST_insertNode t v h
  | delete v => exact isBST_deleteNode t v h

theorem isBST_applyOps (ops : List TreeOp) (t : Tree) (h : isBST t) : isBST (applyOps t ops) := by
  induction ops generalizing t with
  | nil => exact h
  | cons op ops ih => exact ih _ (isBST_applyOp t op h)

theorem visit_inorder_eq_values (t : Tree) : visit "inorder" t = t.values := by
  induction t with
  | nil => rfl
  | node x l r ihl ihr => simp [visit, Tree.values, ihl, ihr]

theorem isBST_values_sorted (t : Tree) (h : isBST t) : t.values.Sorted (· < ·) := by
  induction t with
  | nil => simp [Tree.values]
  | node x l r ihl ihr =>
    obtain ⟨hl, hr, bl, br⟩ := h
    simp only [Tree.values, List.Sorted, List.pairwise_append, List.pairwise_cons, List.mem_cons]
    refine ⟨ihl bl, ⟨hr, ihr br⟩, ?_⟩
    rintro a ha b (rfl | hb)
    · exact hl a ha
    · exact lt_trans (hl a ha) (hr b hb)

theorem insertNode_of_mem (t : Tree) (v : Int) (h : isBST t) (hv : v ∈ t.values) :
    insertNode t v = t := by
  induction t with
  | nil => simp [Tree.values] at hv
  | node x l r ihl ihr =>
    obtain ⟨hl, hr, bl, br⟩ := h
    simp only [Tree.values, List.mem_append, List.mem_cons] at hv
    unfold insertNode
    split_ifs with h1 h2
    · rcases hv with a | rfl | c
      · rw [ihl bl a]
      · omega
      · have := hr v c; omega
    · rcases hv with a | rfl | c
      · have := hl v a; omega
      · omega
      · rw [ihr br c]
    · rfl

theorem deleteNode_of_not_mem (t : Tree) (v : Int) (hv : v ∉ t.values) : deleteNode t v = t := by
  induction t with
  | nil => rfl
  | node x l r ihl ihr =>
    simp only [Tree.values, List.mem_append, List.mem_cons, not_or] at hv
    obtain ⟨a, b, c⟩ := hv
    unfold deleteNode
    split_ifs with h1 h2
    · rw [ihl a]
    · rw [ihr c]
    · exact absurd (by omega : v = x) b


/-- Claim C7: the ordering invariant is preserved by `insertNode` and by
`deleteNode`; hence it holds after every sequence of inserts and deletes
applied to a tree that satisfies it, and in particular to the empty tree. -/
theorem ordering_invariant_preserved (t : Tree) (v : Int) (h : isBST t) :
    isBST (insertNode t v) ∧ isBST (deleteNode t v) ∧
      (∀ ops : List TreeOp, isBST (applyOps t ops)) ∧
      (∀ ops : List TreeOp, isBST (applyOps Tree.nil ops)) :=
  ⟨isBST_insertNode t v h, isBST_deleteNode t v h,
    fun ops => isBST_applyOps ops t h, fun ops => isBST_applyOps ops Tree.nil trivial⟩

/-- Witness of claim C7 at the tree holding 50, 30, 70 and the value 30. -/
theorem ordering_invariant_preserved_witness :
    isBST (Tree.node 50 (Tree.node 30 Tree.nil Tree.nil) (Tree.node 70 Tree.nil Tree.nil)) ∧
    (isBST (insertNode (Tree.node 50 (Tree.node 30 Tree.nil Tree.nil) (Tree.node 70 Tree.nil Tree.nil)) 30) ∧
      isBST (deleteNode (Tree.node 50 (Tree.node 30 Tree.nil Tree.nil) (Tree.node 70 Tree.nil Tree.nil)) 30) ∧
      (∀ ops : List TreeOp,
        isBST (applyOps (Tree.node 50 (Tree.node 30 Tree.nil Tree.nil) (Tree.node 70 Tree.nil Tree.nil)) ops)) ∧
      (∀ ops : List TreeOp, isBST (applyOps Tree.nil ops))) :=
  ⟨by decide, ordering_invariant_preserved _ 30 (by decide)⟩

/-- Claim C8: for every tree built from the empty tree by a sequence of
`insertNode` and `deleteNode` calls, the in-order traversal lists the values
in strictly increasing order: the collected list is strictly increasing, it
is the result `traverse` sets whenever the tree is not empty, and every
result `traverse` sets is strictly increasing. -/
theorem inorder_strictly_increasing (ops : List TreeOp) :
    (visit "inorder" (applyOps Tree.nil ops)).Sorted (· < ·) ∧
      (applyOps Tree.nil ops ≠ Tree.nil →
        traverse (applyOps Tree.nil ops) "inorder" = some (visit "inorder" (applyOps Tree.nil ops))) ∧
      (∀ res, traverse (applyOps Tree.nil ops) "inorder" = some res → res.Sorted (· < ·)) := by
  have hs : (visit "inorder" (applyOps Tree.nil ops)).Sorted (· < ·) := by
    rw [visit_inorder_eq_values]
    exact isBST_values_sorted _ (isBST_applyOps ops Tree.nil trivial)
  refine ⟨hs, ?_, ?_⟩
  · intro hne
    cases ht : applyOps Tree.nil ops with
    | nil => exact absurd ht hne
    | node x l r => rfl
  · intro res hres
    cases ht : applyOps Tree.nil ops with
    | nil => rw [ht] at hres; simp [traverse] at hres
    | node x l r =>
      rw [ht] at hres hs
      simp only [traverse, Option.some.injEq] at hres
      rw [← hres]; exact hs

/-- Witness of claim C8 at the edits insert 50, insert 30, insert 70,
delete 50. -/
theorem inorder_strictly_increasing_witness :
    traverse (applyOps Tree.nil [TreeOp.insert 50, TreeOp.insert 30, TreeOp.insert 70, TreeOp.delete 50])
        "inorder" = some [30, 70] ∧
      List.Sorted (· < ·) ([30, 70] : List Int) :=
  ⟨by decide,
    (inorder_strictly_increasing
      [TreeOp.insert 50, TreeOp.insert 30, TreeOp.insert 70, TreeOp.delete 50]).2.2 [30, 70] (by decide)⟩

/-- Claim C9: `insertNode` is idempotent on every tree, the second insert
adds no node, and on a tree that satisfies the ordering invariant the insert
of a value already stored returns the tree unchanged. -/
theorem insertNode_idempotent (t : Tree) (v : Int) :
    insertNode (insertNode t v) v = insertNode t v ∧
      (insertNode (insertNode t v) v).size = (insertNode t v).size ∧
      (isBST t → v ∈ t.values → insertNode t v = t) := by
  have h1 : insertNode (insertNode t v) v = insertNode t v := by
    induction t with
    | nil => simp [insertNode]
    | node x l r ihl ihr =>
      unfold insertNode
      split_ifs with h1 h2
      · simp only [insertNode, h1, if_true, ihl]
      · simp only [insertNode, h1, h2, if_true, if_false, ihr]
      · simp only [insertNode, h1, h2, if_false]
  exact ⟨h1, by rw [h1], insertNode_of_mem t v⟩

/-- Witness of claim C9 at the tree holding 50, 30 and the stored value 30. -/
theorem insertNode_idempotent_witness :
    isBST (Tree.node 50 (Tree.node 30 Tree.nil Tree.nil) Tree.nil) ∧
      (30 : Int) ∈ (Tree.node 50 (Tree.node 30 Tree.nil Tree.nil) Tree.nil).values ∧
      insertNode (Tree.node 50 (Tree.node 30 Tree.nil Tree.nil) Tree.nil) 30 =
        Tree.node 50 (Tree.node 30 Tree.nil Tree.nil) Tree.nil :=
  ⟨by decide, by decide,
    (insertNode_idempotent (Tree.node 50 (Tree.node 30 Tree.nil Tree.nil) Tree.nil) 30).2.2
      (by decide) (by decide)⟩

/-- Claim C10: on a tree that satisfies the ordering invariant the values
stored in `deleteNode t v` are the values of `t` other than `v`, each stored
once; the delete of a value that is not stored returns the tree unchanged,
and so does the delete from the empty tree. -/
theorem deleteNode_values (t : Tree) (v : Int) (h : isBST t) :
    (∀ y, y ∈ (deleteNode t v).values ↔ y ∈ t.values ∧ y ≠ v) ∧
      (deleteNode t v).values.Nodup ∧
      (v ∉ t.values → deleteNode t v = t) ∧
      deleteNode Tree.nil v = Tree.nil :=
  ⟨mem_values_deleteNode t v h,
    (isBST_values_sorted _ (isBST_deleteNode t v h)).nodup,
    deleteNode_of_not_mem t v, rfl⟩

/-- Witness of claim C10 at the tree holding 50, 30, 70 and the value 50. -/
theorem deleteNode_values_witness :
    isBST (Tree.node 50 (Tree.node 30 Tree.nil Tree.nil) (Tree.node 70 Tree.nil Tree.nil)) ∧
      ((∀ y, y ∈ (deleteNode (Tree.node 50 (Tree.node 30 Tree.nil Tree.nil)
            (Tree.node 70 Tree.nil Tree.nil)) 50).values ↔
          y ∈ (Tree.node 50 (Tree.node 30 Tree.nil Tree.nil) (Tree.node 70 Tree.nil Tree.nil)).values ∧
            y ≠ 50) ∧
        (deleteNode (Tree.node 50 (Tree.node 30 Tree.nil Tree.nil)
            (Tree.node 70 Tree.nil Tree.nil)) 50).values.Nodup ∧
        ((50 : Int) ∉ (Tree.node 50 (Tree.node 30 Tree.nil Tree.nil)
            (Tree.node 70 Tree.nil Tree.nil)).values →
          deleteNode (Tree.node 50 (Tree.node 30 Tree.nil Tree.nil) (Tree.node 70 Tree.nil Tree.nil)) 50 =
            Tree.node 50 (Tree.node 30 Tree.nil Tree.nil) (Tree.node 70 Tree.nil Tree.nil)) ∧
        deleteNode Tree.nil 50 = Tree.nil) :=
  ⟨by decide, deleteNode_values _ 50 (by decide)⟩

/-! ### Search -/

theorem searchLoop_spec (v : Int) (t : Tree) (h : isBST t) : ∀ path : List Int,
    searchLoop v t path =
      (if v ∈ t.values then TreeMsg.found v else TreeMsg.notFound v, path ++ descentPath t v) := by
  induction t with
  | nil => intro path; simp [searchLoop, descentPath, Tree.values]
  | node x l r ihl ihr =>
    intro path
    obtain ⟨hl, hr, bl, br⟩ := h
    unfold searchLoop
    by_cases c1 : x = v
    · subst c1
      simp [descentPath, Tree.values]
    · have c1b : ¬ v = x := fun c => c1 c.symm
      simp only [c1, if_false, descentPath, c1b]
      by_cases c2 : v < x
      · simp only [c2, if_true, ihl bl, List.append_assoc, List.singleton_append]
        have hnr : v ∉ r.values := fun c => by have := hr v c; omega
        simp [Tree.values, c1b, hnr]
      · simp only [c2, if_false, ihr br, List.append_assoc, List.singleton_append]
        have hnl : v ∉ l.values := fun c => by have := hl v c; omega
        simp [Tree.values, c1b, hnl]

theorem isRootPath_descentPath (t : Tree) (v : Int) : IsRootPath t (descentPath t v) := by
  induction t with
  | nil => simp [IsRootPath, descentPath]
  | node x l r ihl ihr =>
    simp only [IsRootPath, descentPath]
    right
    refine ⟨_, rfl, ?_⟩
    by_cases c1 : v = x
    · simp only [c1, if_true]
      left
      cases l <;> simp [IsRootPath]
    · simp only [c1, if_false]
      by_cases c2 : v < x
      · simp only [c2, if_true]; exact Or.inl ihl
      · simp only [c2, if_false]; exact Or.inr ihr

/-- Claim C14: on a tree that satisfies the ordering invariant `searchValue`
reports "found" exactly when the value is stored; on a non-empty tree the
values it highlights are the descent of the search from the root, one value
per node passed, which is a path of the tree from the root to a child at each
step, and the search of a value that is not stored ends with "not found". -/
theorem searchValue_found_iff (t : Tree) (v : Int) (h : isBST t) :
    ((searchValue t (some v)).1 = TreeMsg.found v ↔ v ∈ t.values) ∧
      (t ≠ Tree.nil → (searchValue t (some v)).2 = descentPath t v) ∧
      IsRootPath t (descentPath t v) ∧
      (t ≠ Tree.nil → v ∉ t.values → (searchValue t (some v)).1 = TreeMsg.notFound v) := by
  cases t with
  | nil => simp [searchValue, Tree.values, IsRootPath, descentPath]
  | node x l r =>
    have hs := searchLoop_spec v (Tree.node x l r) h []
    simp only [List.nil_append] at hs
    refine ⟨?_, ?_, isRootPath_descentPath _ v, ?_⟩
    · simp only [searchValue, hs]
      by_cases c : v ∈ (Tree.node x l r).values <;> simp [c]
    · intro _; simp only [searchValue, hs]
    · intro _ hn; simp only [searchValue, hs, hn, if_false]

/-- Witness of claim C14 at the tree holding 50, 30, 70 and the value 70. -/
theorem searchValue_found_iff_witness :
    isBST (Tree.node 50 (Tree.node 30 Tree.nil Tree.nil) (Tree.node 70 Tree.nil Tree.nil)) ∧
      searchValue (Tree.node 50 (Tree.node 30 Tree.nil Tree.nil) (Tree.node 70 Tree.nil Tree.nil))
        (some 70) = (TreeMsg.found 70, [50, 70]) ∧
      (70 : Int) ∈ (Tree.node 50 (Tree.node 30 Tree.nil Tree.nil)
        (Tree.node 70 Tree.nil Tree.nil)).values :=
  ⟨by decide, by decide,
    (searchValue_found_iff (Tree.node 50 (Tree.node 30 Tree.nil Tree.nil)
      (Tree.node 70 Tree.nil Tree.nil)) 70 (by decide)).1.1 (by decide)⟩

/-! ### Traversal orders -/

theorem visit_preorder (t : Tree) : visit "preorder" t = preorderOf t := by
  induction t with
  | nil => rfl
  | node x l r ihl ihr => simp [visit, preorderOf, ihl, ihr]

theorem visit_inorder (t : Tree) : visit "inorder" t = inorderOf t := by
  induction t with
  | nil => rfl
  | node x l r ihl ihr => simp [visit, inorderOf, ihl, ihr]

theorem visit_postorder (t : Tree) : visit "postorder" t = postorderOf t := by
  induction t with
  | nil => rfl
  | node x l r ihl ihr => simp [visit, postorderOf, ihl, ihr]

theorem preorderOf_perm (t : Tree) : List.Perm (preorderOf t) t.values := by
  induction t with
  | nil => exact List.Perm.refl _
  | node x l r ihl ihr =>
    simp only [preorderOf, Tree.values]
    exact (List.Perm.cons x (List.Perm.append ihl ihr)).trans List.perm_middle.symm

theorem inorderOf_eq (t : Tree) : inorderOf t = t.values := by
  induction t with
  | nil => rfl
  | node x l r ihl ihr => simp [inorderOf, Tree.values, ihl, ihr]

theorem postorderOf_perm (t : Tree) : List.Perm (postorderOf t) t.values := by
  induction t with
  | nil => exact List.Perm.refl _
  | node x l r ihl ihr =>
    simp only [postorderOf, Tree.values, List.append_assoc]
    refine List.Perm.append ihl ?_
    exact (List.perm_append_comm).trans (List.Perm.cons x ihr)

theorem length_values (t : Tree) : t.values.length = t.size := by
  induction t with
  | nil => rfl
  | node x l r ihl ihr => simp [Tree.values, Tree.size, ihl, ihr]; omega

/-- Claim C15: on a non-empty tree `traverse` sets, for each of the three
types, the list in the order of the specification (node-left-right,
left-node-right, left-right-node); each result is a rearrangement of the
stored node values, so it holds every node once and its length is the node
count. -/
theorem traverse_orders (t : Tree) (hne : t ≠ Tree.nil) :
    (traverse t "preorder" = some (preorderOf t) ∧ traverse t "inorder" = some (inorderOf t) ∧
      traverse t "postorder" = some (postorderOf t)) ∧
    (List.Perm (preorderOf t) t.values ∧ List.Perm (inorderOf t) t.values ∧
      List.Perm (postorderOf t) t.values) ∧
    ((preorderOf t).length = t.size ∧ (inorderOf t).length = t.size ∧
      (postorderOf t).length = t.size) := by
  refine ⟨?_, ⟨preorderOf_perm t, by rw [inorderOf_eq], postorderOf_perm t⟩, ?_⟩
  · cases t with
    | nil => exact absurd rfl hne
    | node x l r =>
      simp only [traverse, visit_preorder, visit_inorder, visit_postorder, and_self]
  · exact ⟨by rw [(preorderOf_perm t).length_eq, length_values],
      by rw [inorderOf_eq, length_values],
      by rw [(postorderOf_perm t).length_eq, length_values]⟩

/-- Witness of claim C15 at the tree holding 50, 30, 70. -/
theorem traverse_orders_witness :
    traverse (Tree.node 50 (Tree.node 30 Tree.nil Tree.nil) (Tree.node 70 Tree.nil Tree.nil))
        "postorder" = some [30, 70, 50] ∧
      traverse (Tree.node 50 (Tree.node 30 Tree.nil Tree.nil) (Tree.node 70 Tree.nil Tree.nil))
        "preorder" = some [50, 30, 70] :=
  ⟨(traverse_orders (Tree.node 50 (Tree.node 30 Tree.nil Tree.nil)
      (Tree.node 70 Tree.nil Tree.nil)) (by decide)).1.2.2,
    (traverse_orders (Tree.node 50 (Tree.node 30 Tree.nil Tree.nil)
      (Tree.node 70 Tree.nil Tree.nil)) (by decide)).1.1⟩

/-! ### Delete handler -/

/-- Failing input of claim C17: the delete of the absent value 30 from the
tree that holds 50 leaves the tree as it is and is reported as "Deleted 30",
a success message, not as "30 not found"; the search of the same value in the
same tree does report "30 not found". -/
theorem handleDelete_absent_reports_deleted :
    (30 : Int) ∉ (Tree.node 50 Tree.nil Tree.nil).values ∧
      (handleDelete (Tree.node 50 Tree.nil Tree.nil) (some 30)).1 =
        Tree.node 50 Tree.nil Tree.nil ∧
      (handleDelete (Tree.node 50 Tree.nil Tree.nil) (some 30)).2 = TreeMsg.deleted 30 ∧
      (handleDelete (Tree.node 50 Tree.nil Tree.nil) (some 30)).2.kind = MsgKind.success ∧
      (handleDelete (Tree.node 50 Tree.nil Tree.nil) (some 30)).2 ≠ TreeMsg.notFound 30 ∧
      (searchValue (Tree.node 50 Tree.nil Tree.nil) (some 30)).1 = TreeMsg.notFound 30 := by
  decide

/-- For every tree and every value that is not stored in it, `handleDelete`
leaves the tree as it is and shows "Deleted v" as a success when the tree is
not empty, and "Deleted v (tree is now empty)" as an info when the tree is
empty; it never shows "v not found". -/
theorem handleDelete_absent (t : Tree) (v : Int) (hv : v ∉ t.values) :
    (handleDelete t (some v)).1 = t ∧
      (t ≠ Tree.nil → (handleDelete t (some v)).2 = TreeMsg.deleted v ∧
        (handleDelete t (some v)).2.kind = MsgKind.success) ∧
      (t = Tree.nil → (handleDelete t (some v)).2 = TreeMsg.deletedEmpty v ∧
        (handleDelete t (some v)).2.kind = MsgKind.info) ∧
      (handleDelete t (some v)).2 ≠ TreeMsg.notFound v := by
  have hd := deleteNode_of_not_mem t v hv
  cases t with
  | nil => simp [handleDelete, deleteNode, TreeMsg.kind]
  | node x l r =>
    simp only [handleDelete, hd]
    simp [TreeMsg.kind]

/-- Instance of `handleDelete_absent` at the tree holding 50 and the value 30. -/
theorem handleDelete_absent_witness :
    (30 : Int) ∉ (Tree.node 50 Tree.nil Tree.nil).values ∧
      (handleDelete (Tree.node 50 Tree.nil Tree.nil) (some 30)).1 = Tree.node 50 Tree.nil Tree.nil :=
  ⟨by decide, (handleDelete_absent (Tree.node 50 Tree.nil Tree.nil) 30 (by decide)).1⟩

/-! ### The scenario of the specification -/

/-- Claim C21: inserting 50, 30, 70, 20, 40, 60, 80 in that order into the
empty tree with `insertNode` and then applying `deleteNode` with 30 gives the
tree with root 50 whose left child holds 40, with 20 as the left child of
that node and no right child (the right subtree of the root is 70 with the
children 60 and 80), and this tree satisfies the ordering invariant. -/
theorem insert_seven_delete_thirty :
    deleteNode ([50, 30, 70, 20, 40, 60, 80].foldl insertNode Tree.nil) 30 =
        Tree.node 50 (Tree.node 40 (Tree.node 20 Tree.nil Tree.nil) Tree.nil)
          (Tree.node 70 (Tree.node 60 Tree.nil Tree.nil) (Tree.node 80 Tree.nil Tree.nil)) ∧
      isBST (deleteNode ([50, 30, 70, 20, 40, 60, 80].foldl insertNode Tree.nil) 30) := by
  decide

/-! ## Graph page: proofs -/

theorem mem_neighborsOf (edges : List Edge) (v w : Nat) :
    w ∈ neighborsOf edges v ↔
      ∃ e ∈ edges, (e.fromId = v ∧ e.toId = w) ∨ (e.toId = v ∧ e.fromId = w) := by
  induction edges with
  | nil => simp [neighborsOf]
  | cons e es ih =>
    simp only [neighborsOf, List.mem_append, ih, List.mem_cons, exists_eq_or_imp]
    constructor
    · rintro ((h | h) | h)
      · by_cases c : e.fromId = v
        · simp only [c, if_true, List.mem_singleton] at h
          exact Or.inl (Or.inl ⟨c, h.symm⟩)
        · simp [c] at h
      · by_cases c : e.toId = v
        · simp only [c, if_true, List.mem_singleton] at h
          exact Or.inl (Or.inr ⟨c, h.symm⟩)
        · simp [c] at h
      · exact Or.inr h
    · rintro ((⟨c, h⟩ | ⟨c, h⟩) | h)
      · exact Or.inl (Or.inl (by simp [c, h]))
      · exact Or.inl (Or.inr (by simp [c, h]))
      · exact Or.inr h

theorem mem_neighborsOf_iff_adj (g : Graph) (v w : Nat) :
    w ∈ neighborsOf g.edges v ↔ Adj g v w := mem_neighborsOf g.edges v w

theorem adjPush_spec (ids : List Nat) (adj : Nat → Option (List Nat)) (base : Nat → List Nat)
    (h : ∀ v, adj v = if v ∈ ids then some (base v) else none) (k w : Nat) (hk : k ∈ ids) :
    ∃ adj2, adjPush adj k w = some adj2 ∧
      ∀ v, adj2 v = if v ∈ ids then some (base v ++ (if k = v then [w] else [])) else none := by
  have hk2 : adj k = some (base k) := by rw [h k]; simp [hk]
  refine ⟨fun x => if x = k then some (base k ++ [w]) else adj x, by simp only [adjPush, hk2], ?_⟩
  intro v
  by_cases e : v = k
  · subst e; simp [hk]
  · have e2 : ¬ k = v := fun c => e c.symm
    simp [e, e2, h v]

theorem buildAdj_aux (ids : List Nat) : ∀ (edges : List Edge) (adj0 : Nat → Option (List Nat))
    (base : Nat → List Nat), (∀ v, adj0 v = if v ∈ ids then some (base v) else none) →
    (∀ e ∈ edges, e.fromId ∈ ids ∧ e.toId ∈ ids) →
    ∃ adj, forEachOpt
        (fun adj e =>
          match adjPush adj e.fromId e.toId with
          | none => none
          | some adj1 => adjPush adj1 e.toId e.fromId) adj0 edges = some adj ∧
      ∀ v, adj v = if v ∈ ids then some (base v ++ neighborsOf edges v) else none := by
  intro edges
  induction edges with
  | nil =>
    intro adj0 base h _
    exact ⟨adj0, rfl, by intro v; simp [neighborsOf, h v]⟩
  | cons e es ih =>
    intro adj0 base h hv
    obtain ⟨h1, h2⟩ := hv e (List.mem_cons_self _ _)
    obtain ⟨adj1, a1, b1⟩ := adjPush_spec ids adj0 base h e.fromId e.toId h1
    obtain ⟨adj2, a2, b2⟩ := adjPush_spec ids adj1 _ b1 e.toId e.fromId h2
    obtain ⟨adj, a3, b3⟩ := ih adj2 _ b2 (fun x hx => hv x (List.mem_cons_of_mem _ hx))
    refine ⟨adj, ?_, ?_⟩
    · simp only [forEachOpt, a1, a2]
      exact a3
    · intro v
      rw [b3 v]
      simp only [neighborsOf, List.append_assoc]

theorem buildAdj_spec (g : Graph) (hv : EdgesValid g) :
    ∃ adj, buildAdj g.nodes g.edges = some adj ∧
      ∀ v, adj v = if v ∈ g.nodes.map Node.id then some (neighborsOf g.edges v) else none := by
  obtain ⟨adj, a, b⟩ := buildAdj_aux (g.nodes.map Node.id) g.edges
    (fun k => if k ∈ g.nodes.map Node.id then some [] else none) (fun _ => [])
    (fun v => rfl) hv
  exact ⟨adj, a, by intro v; simpa using b v⟩

theorem neighborsOf_mem_ids (g : Graph) (hv : EdgesValid g) (v w : Nat)
    (h : w ∈ neighborsOf g.edges v) : w ∈ g.nodes.map Node.id ∧ v ∈ g.nodes.map Node.id := by
  obtain ⟨e, he, c | c⟩ := (mem_neighborsOf g.edges v w).1 h
  · obtain ⟨c1, c2⟩ := c
    subst c1; subst c2; exact ⟨(hv e he).2, (hv e he).1⟩
  · obtain ⟨c1, c2⟩ := c
    subst c1; subst c2; exact ⟨(hv e he).1, (hv e he).2⟩

theorem adj_getD_eq (g : Graph) (hv : EdgesValid g) (adj : Nat → Option (List Nat))
    (h : ∀ v, adj v = if v ∈ g.nodes.map Node.id then some (neighborsOf g.edges v) else none)
    (v : Nat) : (adj v).getD [] = neighborsOf g.edges v := by
  rw [h v]
  by_cases c : v ∈ g.nodes.map Node.id
  · simp [c]
  · simp only [c, if_false, Option.getD_none]
    cases hn : neighborsOf g.edges v with
    | nil => rfl
    | cons w ws =>
      have : w ∈ neighborsOf g.edges v := by rw [hn]; exact List.mem_cons_self _ _
      exact absurd (neighborsOf_mem_ids g hv v w this).2 c

/-! ### Breadth-first search -/

theorem bfsNeighbor_fields (s : BfsState) (x : Nat) :
    (bfsNeighbor s x).order = s.order ∧ (bfsNeighbor s x).nodesVisited = s.nodesVisited ∧
    (bfsNeighbor s x).stats = s.stats ∧ (bfsNeighbor s x).edgesExplored = s.edgesExplored + 1 ∧
    (x ∈ s.visited → (bfsNeighbor s x).visited = s.visited ∧ (bfsNeighbor s x).queue = s.queue) ∧
    (x ∉ s.visited → (bfsNeighbor s x).visited = s.visited ++ [x] ∧
      (bfsNeighbor s x).queue = s.queue ++ [x]) := by
  by_cases hx : x ∈ s.visited <;> simp [bfsNeighbor, hx]

theorem bfsNeighbors_spec (l : List Nat) : ∀ (s : BfsState), s.visited.Nodup →
    ∃ new : List Nat,
      (l.foldl bfsNeighbor s).visited = s.visited ++ new ∧
      (l.foldl bfsNeighbor s).queue = s.queue ++ new ∧
      (l.foldl bfsNeighbor s).order = s.order ∧
      (l.foldl bfsNeighbor s).nodesVisited = s.nodesVisited ∧
      (l.foldl bfsNeighbor s).stats = s.stats ∧
      (l.foldl bfsNeighbor s).edgesExplored = s.edgesExplored + l.length ∧
      (l.foldl bfsNeighbor s).visited.Nodup ∧
      (∀ w ∈ new, w ∈ l) ∧
      (∀ w ∈ l, w ∈ (l.foldl bfsNeighbor s).visited) := by
  induction l with
  | nil =>
    intro s hs
    exact ⟨[], by simp, by simp, rfl, rfl, rfl, rfl, hs, by simp, by simp⟩
  | cons x xs ih =>
    intro s hs
    simp only [List.foldl_cons]
    obtain ⟨f1, f2, f3, f4, f5, f6⟩ := bfsNeighbor_fields s x
    by_cases hx : x ∈ s.visited
    · obtain ⟨g1, g2⟩ := f5 hx
      obtain ⟨new, a1, a2, a3, a4, a5, a6, a7, a8, a9⟩ := ih (bfsNeighbor s x) (by rw [g1]; exact hs)
      rw [g1] at a1
      rw [g2] at a2
      refine ⟨new, a1, a2, a3.trans f1, a4.trans f2, a5.trans f3,
        by rw [a6, f4, List.length_cons]; omega, a7,
        fun w hw => List.mem_cons_of_mem _ (a8 w hw), ?_⟩
      intro w hw
      rcases List.mem_cons.1 hw with e | hw
      · rw [a1, e]; exact List.mem_append_left _ hx
      · exact a9 w hw
    · obtain ⟨g1, g2⟩ := f6 hx
      have hnd : (bfsNeighbor s x).visited.Nodup := by
        rw [g1, List.nodup_append]
        refine ⟨hs, List.nodup_singleton x, ?_⟩
        intro a ha hb
        rw [List.mem_singleton] at hb
        subst hb; exact hx ha
      obtain ⟨new, a1, a2, a3, a4, a5, a6, a7, a8, a9⟩ := ih (bfsNeighbor s x) hnd
      rw [g1] at a1
      rw [g2] at a2
      refine ⟨x :: new, by rw [a1]; simp, by rw [a2]; simp, a3.trans f1, a4.trans f2,
        a5.trans f3, by rw [a6, f4, List.length_cons]; omega, a7, ?_, ?_⟩
      · intro w hw
        rcases List.mem_cons.1 hw with e | hw
        · rw [e]; exact List.mem_cons_self _ _
        · exact List.mem_cons_of_mem _ (a8 w hw)
      · intro w hw
        rcases List.mem_cons.1 hw with e | hw
        · rw [a1, e]; simp
        · exact a9 w hw

theorem length_le_card_of_nodup_subset (l ids : List Nat) (hn : l.Nodup)
    (hs : ∀ v ∈ l, v ∈ ids) : l.length ≤ ids.toFinset.card := by
  rw [← List.toFinset_card_of_nodup hn]
  apply Finset.card_le_card
  intro v hv
  rw [List.mem_toFinset] at hv ⊢
  exact hs v hv

theorem bfsLoop_spec (g : Graph) (hv : EdgesValid g) (start : Nat) (adj : Nat → Option (List Nat))
    (hadj : ∀ v, (adj v).getD [] = neighborsOf g.edges v) (fuel : Nat) :
    ∀ s : BfsState, BfsInv g start s →
      (g.nodes.map Node.id).toFinset.card ≤ s.order.length + fuel →
      ∃ s2, bfsLoop adj fuel s = some s2 ∧ BfsInv g start s2 ∧ s2.queue = [] := by
  induction fuel with
  | zero =>
    intro s inv hf
    cases hq : s.queue with
    | nil => exact ⟨s, by unfold bfsLoop; simp [hq], inv, hq⟩
    | cons c rest =>
      exfalso
      have h1 := length_le_card_of_nodup_subset s.visited _ inv.nodup inv.ids
      rw [inv.split, hq, List.length_append, List.length_cons] at h1
      omega
  | succ fuel ih =>
    intro s inv hf
    cases hq : s.queue with
    | nil => exact ⟨s, by unfold bfsLoop; simp [hq], inv, hq⟩
    | cons c rest =>
      have hsplit := inv.split
      rw [hq] at hsplit
      have hc : c ∈ s.visited := by rw [hsplit]; simp
      obtain ⟨new, a1, a2, a3, a4, a5, _, a7, a8, a9⟩ := bfsNeighbors_spec ((adj c).getD [])
        { s with
          queue := rest
          order := s.order ++ [c]
          nodesVisited := s.nodesVisited + 1
          stats := (s.nodesVisited + 1, s.edgesExplored) } inv.nodup
      simp only at a1 a2 a3 a4 a5
      rw [hadj c] at a1 a2 a3 a4 a5 a7 a8 a9
      have inv2 : BfsInv g start ((neighborsOf g.edges c).foldl bfsNeighbor
          { s with
            queue := rest
            order := s.order ++ [c]
            nodesVisited := s.nodesVisited + 1
            stats := (s.nodesVisited + 1, s.edgesExplored) }) := by
        refine ⟨?_, a7, ?_, ?_, ?_, ?_, ?_, ?_⟩
        · rw [a1, a2, a3, hsplit]; simp
        · intro v hv2
          rw [a1] at hv2
          rcases List.mem_append.1 hv2 with h | h
          · exact inv.reach v h
          · exact Relation.ReflTransGen.tail (inv.reach c hc)
              ((mem_neighborsOf_iff_adj g c v).1 (a8 v h))
        · intro u hu w hw
          rw [a3] at hu
          rcases List.mem_append.1 hu with h | h
          · rw [a1]; exact List.mem_append_left _ (inv.closed u h w hw)
          · rw [List.mem_singleton] at h
            subst h
            exact a9 w ((mem_neighborsOf_iff_adj g u w).2 hw)
        · rw [a1]; exact List.mem_append_left _ inv.start_mem
        · rw [a4, a3, inv.count]; simp
        · rw [a5, a3, inv.count]; simp
        · intro v hv2
          rw [a1] at hv2
          rcases List.mem_append.1 hv2 with h | h
          · exact inv.ids v h
          · exact (neighborsOf_mem_ids g hv c v (a8 v h)).1
      obtain ⟨s2, b1, b2, b3⟩ := ih _ inv2 (by rw [a3]; simp; omega)
      refine ⟨s2, ?_, b2, b3⟩
      unfold bfsLoop
      simp only [hq, hadj c]
      exact b1

theorem mem_of_reachable_of_closed (g : Graph) (start : Nat) (l : List Nat) (hs : start ∈ l)
    (hc : ∀ u ∈ l, ∀ w, Adj g u w → w ∈ l) (v : Nat) (h : Reachable g start v) : v ∈ l := by
  induction h with
  | refl => exact hs
  | tail _ hbc ih => exact hc _ ih _ hbc

theorem ncard_eq_length_of_nodup (l : List Nat) (hn : l.Nodup) (P : Nat → Prop)
    (h : ∀ v, v ∈ l ↔ P v) : ({v | P v} : Set Nat).ncard = l.length := by
  have e : ({v | P v} : Set Nat) = ↑l.toFinset := by
    ext v
    simp [h v]
  rw [e, Set.ncard_coe_Finset, List.toFinset_card_of_nodup hn]

theorem head_id_eq (g : Graph) (hne : g.nodes ≠ []) (n0 : Node) (rest : List Node)
    (hn : g.nodes = n0 :: rest) : (g.nodes.head hne).id = n0.id := by
  simp [hn]

theorem bfs_spec_cons (g : Graph) (n0 : Node) (rest : List Node) (hn : g.nodes = n0 :: rest)
    (hv : EdgesValid g) :
    ∃ s, bfs g = Run.completed s ∧ BfsInv g n0.id s ∧ s.queue = [] := by
  obtain ⟨adj, hb, hadj⟩ := buildAdj_spec g hv
  have hmem : n0.id ∈ g.nodes.map Node.id := by rw [hn]; simp
  have inv0 : BfsInv g n0.id
      { visited := [n0.id], queue := [n0.id], order := [], nodesVisited := 0,
        edgesExplored := 0, stats := (0, 0) } := by
    refine ⟨by simp, List.nodup_singleton _, ?_, by simp, by simp, rfl, rfl, ?_⟩
    · intro v h
      rw [List.mem_singleton] at h
      subst h; exact Relation.ReflTransGen.refl
    · intro v h
      rw [List.mem_singleton] at h
      subst h; exact hmem
  obtain ⟨s2, b1, b2, b3⟩ := bfsLoop_spec g hv n0.id adj (adj_getD_eq g hv adj hadj)
    g.nodes.length _ inv0 (by simpa using List.toFinset_card_le (g.nodes.map Node.id))
  refine ⟨s2, ?_, b2, b3⟩
  unfold bfs
  rw [hn] at hb b1 ⊢
  simp only [hb, b1]

theorem bfs_spec (g : Graph) (hne : g.nodes ≠ []) (hv : EdgesValid g) :
    ∃ s, bfs g = Run.completed s ∧ BfsInv g (g.nodes.head hne).id s ∧ s.queue = [] := by
  obtain ⟨n0, rest, hn⟩ := List.exists_cons_of_ne_nil hne
  rw [head_id_eq g hne n0 rest hn]
  exact bfs_spec_cons g n0 rest hn hv

/-- Claim C5: on a non-empty graph with unique node ids whose edges reference
existing node ids, `bfs` runs to completion, the nodes it dequeues are exactly
the nodes of the connected component of the first inserted node, each of them
is dequeued once, and the final `nodesVisited` (also the last count passed to
`setStats`) is the size of that component. -/
theorem bfs_visits_component (g : Graph) (hne : g.nodes ≠ [])
    (_hu : (g.nodes.map Node.id).Nodup) (hv : EdgesValid g) :
    ∃ s, bfs g = Run.completed s ∧
      (∀ v, v ∈ s.order ↔ Reachable g (g.nodes.head hne).id v) ∧
      s.order.Nodup ∧
      s.nodesVisited = ({v | Reachable g (g.nodes.head hne).id v} : Set Nat).ncard ∧
      s.stats.1 = ({v | Reachable g (g.nodes.head hne).id v} : Set Nat).ncard := by
  obtain ⟨s, h1, inv, hq⟩ := bfs_spec g hne hv
  have hvo : s.visited = s.order := by rw [inv.split, hq]; simp
  have hiff : ∀ v, v ∈ s.order ↔ Reachable g (g.nodes.head hne).id v := by
    intro v
    constructor
    · intro h; exact inv.reach v (by rw [hvo]; exact h)
    · intro h
      exact mem_of_reachable_of_closed g _ s.order (by rw [← hvo]; exact inv.start_mem)
        (by intro u hu w hw; rw [← hvo]; exact inv.closed u hu w hw) v h
  have hnd : s.order.Nodup := by rw [← hvo]; exact inv.nodup
  have hcard := ncard_eq_length_of_nodup s.order hnd _ hiff
  exact ⟨s, h1, hiff, hnd, by rw [hcard, inv.count], by rw [hcard, inv.stats_eq]⟩

/-- Witness of claim C5 at the sample graph. -/
theorem bfs_visits_component_witness :
    (sampleGraph.nodes.map Node.id).Nodup ∧ EdgesValid sampleGraph ∧
    ∃ s, bfs sampleGraph = Run.completed s ∧
      (∀ v, v ∈ s.order ↔ Reachable sampleGraph 1 v) ∧
      s.order.Nodup ∧
      s.nodesVisited = ({v | Reachable sampleGraph 1 v} : Set Nat).ncard ∧
      s.stats.1 = ({v | Reachable sampleGraph 1 v} : Set Nat).ncard :=
  ⟨by decide, by decide,
    bfs_visits_component sampleGraph (by decide) (by decide) (by decide)⟩

/-! ### Depth-first search -/

theorem dfsLoop_spec (g : Graph) (adj : Nat → Option (List Nat)) (fuel : Nat) (x : Nat)
    (ih : ∀ (v : Nat) (s : DfsState), DfsInv g s → v ∈ g.nodes.map Node.id →
      (g.nodes.map Node.id).toFinset.card ≤ s.visited.length + fuel →
      ∃ s2 new, dfsRecursive adj fuel v s = some s2 ∧ DfsInv g s2 ∧
        s2.visited = s.visited ++ new ∧ v ∈ s2.visited ∧
        (∀ u ∈ new, Reachable g v u) ∧ (∀ u ∈ new, ∀ w, Adj g u w → w ∈ s2.visited)) :
    ∀ (l : List Nat) (s1 : DfsState), DfsInv g s1 →
      (∀ w ∈ l, w ∈ g.nodes.map Node.id ∧ Adj g x w) →
      (g.nodes.map Node.id).toFinset.card ≤ s1.visited.length + fuel →
      ∃ s2 new,
        forEachOpt
          (fun s1 neighbor =>
            dfsRecursive adj fuel neighbor { s1 with edgesExplored := s1.edgesExplored + 1 })
          s1 l = some s2 ∧
        DfsInv g s2 ∧ s2.visited = s1.visited ++ new ∧ (∀ w ∈ l, w ∈ s2.visited) ∧
        (∀ u ∈ new, Reachable g x u) ∧ (∀ u ∈ new, ∀ w, Adj g u w → w ∈ s2.visited) := by
  intro l
  induction l with
  | nil =>
    intro s1 inv _ _
    exact ⟨s1, [], rfl, inv, by simp, by simp, by simp, by simp⟩
  | cons y ys ihl =>
    intro s1 inv hl hf
    obtain ⟨hy1, hy2⟩ := hl y (List.mem_cons_self _ _)
    have inv1 : DfsInv g { s1 with edgesExplored := s1.edgesExplored + 1 } :=
      ⟨inv.nodup, inv.ids, inv.order_eq, inv.count, inv.stats_eq⟩
    obtain ⟨s2, new1, a1, a2, a3, a4, a5, a6⟩ := ih y _ inv1 hy1 hf
    simp only at a3
    obtain ⟨s3, new2, b1, b2, b3, b4, b5, b6⟩ := ihl s2 a2
      (fun w hw => hl w (List.mem_cons_of_mem _ hw)) (by rw [a3, List.length_append]; omega)
    refine ⟨s3, new1 ++ new2, ?_, b2, by rw [b3, a3]; simp, ?_, ?_, ?_⟩
    · simp only [forEachOpt, a1]; exact b1
    · intro w hw
      rcases List.mem_cons.1 hw with e | hw
      · rw [e, b3]; exact List.mem_append_left _ a4
      · exact b4 w hw
    · intro u hu
      rcases List.mem_append.1 hu with h | h
      · exact Relation.ReflTransGen.head hy2 (a5 u h)
      · exact b5 u h
    · intro u hu w hw
      rcases List.mem_append.1 hu with h | h
      · rw [b3]; exact List.mem_append_left _ (a6 u h w hw)
      · exact b6 u h w hw

theorem dfsRecursive_spec (g : Graph) (hv : EdgesValid g) (adj : Nat → Option (List Nat))
    (hadj : ∀ v, (adj v).getD [] = neighborsOf g.edges v) (fuel : Nat) :
    ∀ (v : Nat) (s : DfsState), DfsInv g s → v ∈ g.nodes.map Node.id →
      (g.nodes.map Node.id).toFinset.card ≤ s.visited.length + fuel →
      ∃ s2 new, dfsRecursive adj fuel v s = some s2 ∧ DfsInv g s2 ∧
        s2.visited = s.visited ++ new ∧ v ∈ s2.visited ∧
        (∀ u ∈ new, Reachable g v u) ∧ (∀ u ∈ new, ∀ w, Adj g u w → w ∈ s2.visited) := by
  induction fuel with
  | zero =>
    intro v s inv hvid hf
    by_cases hc : v ∈ s.visited
    · exact ⟨s, [], by simp [dfsRecursive, hc], inv, by simp, hc, by simp, by simp⟩
    · exfalso
      have hnd : (s.visited ++ [v]).Nodup := by
        rw [List.nodup_append]
        refine ⟨inv.nodup, List.nodup_singleton v, ?_⟩
        intro a ha hb
        rw [List.mem_singleton] at hb
        subst hb; exact hc ha
      have h1 := length_le_card_of_nodup_subset (s.visited ++ [v]) _ hnd
        (by
          intro u hu
          rcases List.mem_append.1 hu with h | h
          · exact inv.ids u h
          · rw [List.mem_singleton] at h; subst h; exact hvid)
      rw [List.length_append, List.length_singleton] at h1
      omega
  | succ fuel ih =>
    intro v s inv hvid hf
    by_cases hc : v ∈ s.visited
    · exact ⟨s, [], by simp [dfsRecursive, hc], inv, by simp, hc, by simp, by simp⟩
    · have hnd : (s.visited ++ [v]).Nodup := by
        rw [List.nodup_append]
        refine ⟨inv.nodup, List.nodup_singleton v, ?_⟩
        intro a ha hb
        rw [List.mem_singleton] at hb
        subst hb; exact hc ha
      have inv1 : DfsInv g { s with
          visited := s.visited ++ [v]
          order := s.order ++ [v]
          nodesVisited := s.nodesVisited + 1
          stats := (s.nodesVisited + 1, s.edgesExplored) } := by
        refine ⟨hnd, ?_, by simp [inv.order_eq], by simp [inv.count], by simp [inv.count]⟩
        intro u hu
        rcases List.mem_append.1 hu with h | h
        · exact inv.ids u h
        · rw [List.mem_singleton] at h; subst h; exact hvid
      obtain ⟨s2, new, a1, a2, a3, a4, a5, a6⟩ := dfsLoop_spec g adj fuel v ih
        (neighborsOf g.edges v) _ inv1
        (fun w hw => ⟨(neighborsOf_mem_ids g hv v w hw).1, (mem_neighborsOf_iff_adj g v w).1 hw⟩)
        (by simp only [List.length_append, List.length_singleton]; omega)
      simp only at a3
      refine ⟨s2, v :: new, ?_, a2, by rw [a3]; simp, by rw [a3]; simp, ?_, ?_⟩
      · simp only [dfsRecursive, hc, if_false, hadj v]
        exact a1
      · intro u hu
        rcases List.mem_cons.1 hu with e | h
        · rw [e]; exact Relation.ReflTransGen.refl
        · exact a5 u h
      · intro u hu w hw
        rcases List.mem_cons.1 hu with e | h
        · rw [e] at hw
          exact a4 w ((mem_neighborsOf_iff_adj g v w).2 hw)
        · exact a6 u h w hw

theorem dfs_spec_cons (g : Graph) (n0 : Node) (rest : List Node) (hn : g.nodes = n0 :: rest)
    (hv : EdgesValid g) :
    ∃ s, dfs g = Run.completed s ∧ DfsInv g s ∧ (∀ v, v ∈ s.visited ↔ Reachable g n0.id v) := by
  obtain ⟨adj, hb, hadj⟩ := buildAdj_spec g hv
  have hmem : n0.id ∈ g.nodes.map Node.id := by rw [hn]; simp
  have inv0 : DfsInv g
      { visited := [], order := [], nodesVisited := 0, edgesExplored := 0, stats := (0, 0) } :=
    ⟨List.nodup_nil, by simp, rfl, rfl, rfl⟩
  obtain ⟨s2, new, a1, a2, a3, a4, a5, a6⟩ := dfsRecursive_spec g hv adj
    (adj_getD_eq g hv adj hadj) g.nodes.length n0.id _ inv0 hmem
    (by simpa using List.toFinset_card_le (g.nodes.map Node.id))
  simp only [List.nil_append] at a3
  refine ⟨s2, ?_, a2, ?_⟩
  · unfold dfs
    rw [hn] at hb a1 ⊢
    simp only [hb, a1]
  · intro v
    constructor
    · intro h; exact a5 v (by rw [← a3]; exact h)
    · intro h
      exact mem_of_reachable_of_closed g _ s2.visited a4
        (by intro u hu w hw; exact a6 u (by rw [← a3]; exact hu) w hw) v h

/-- Claim C6: on a non-empty graph whose edges reference existing node ids
(cycles, self-loops and duplicate edges allowed) `dfs` and `bfs` both run to
completion and visit the same set of nodes, the connected component of the
first inserted node, and `dfs` makes one first-time visit per node of that
set: its visit list has no repetition and `nodesVisited` is its length. -/
theorem dfs_bfs_same_nodes (g : Graph) (hne : g.nodes ≠ []) (hv : EdgesValid g) :
    ∃ sd sb, dfs g = Run.completed sd ∧ bfs g = Run.completed sb ∧
      (∀ v, v ∈ sd.order ↔ v ∈ sb.order) ∧
      (∀ v, v ∈ sd.order ↔ Reachable g (g.nodes.head hne).id v) ∧
      sd.order.Nodup ∧ sd.nodesVisited = sd.order.length := by
  obtain ⟨n0, rest, hn⟩ := List.exists_cons_of_ne_nil hne
  obtain ⟨sd, d1, dinv, d2⟩ := dfs_spec_cons g n0 rest hn hv
  obtain ⟨sb, b1, binv, bq⟩ := bfs_spec_cons g n0 rest hn hv
  have hvo : sb.visited = sb.order := by rw [binv.split, bq]; simp
  have hb : ∀ v, v ∈ sb.order ↔ Reachable g n0.id v := by
    intro v
    constructor
    · intro h; exact binv.reach v (by rw [hvo]; exact h)
    · intro h
      exact mem_of_reachable_of_closed g _ sb.order (by rw [← hvo]; exact binv.start_mem)
        (by intro u hu w hw; rw [← hvo]; exact binv.closed u hu w hw) v h
  rw [head_id_eq g hne n0 rest hn]
  refine ⟨sd, sb, d1, b1, ?_, ?_, ?_, dinv.count⟩
  · intro v; rw [dinv.order_eq, d2 v, hb v]
  · intro v; rw [dinv.order_eq, d2 v]
  · rw [dinv.order_eq]; exact dinv.nodup

/-- Witness of claim C6 at the sample graph. -/
theorem dfs_bfs_same_nodes_witness :
    EdgesValid sampleGraph ∧
    ∃ sd sb, dfs sampleGraph = Run.completed sd ∧ bfs sampleGraph = Run.completed sb ∧
      (∀ v, v ∈ sd.order ↔ v ∈ sb.order) ∧
      (∀ v, v ∈ sd.order ↔ Reachable sampleGraph 1 v) ∧
      sd.order.Nodup ∧ sd.nodesVisited = sd.order.length :=
  ⟨by decide, dfs_bfs_same_nodes sampleGraph (by decide) (by decide)⟩

/-! ## Graph page: editing handlers and statistics -/

/-- Failing input of claim C22: six clicks on the canvas add the nodes with
ids 1 to 6, a click on the sixth node selects it, the button "Sample" replaces
the nodes by those with ids 1 to 5 and leaves the selection as it is, and a
click on the first node then adds the edge from 6 to 1: the node list has no
node with id 6, and `bfs` on this state throws. -/
theorem sample_keeps_selection :
    (applyGraphOps GraphPage.empty
        [GraphOp.canvasClick (fun _ => false), GraphOp.canvasClick (fun _ => false),
          GraphOp.canvasClick (fun _ => false), GraphOp.canvasClick (fun _ => false),
          GraphOp.canvasClick (fun _ => false), GraphOp.canvasClick (fun _ => false),
          GraphOp.nodeClick 5 7, GraphOp.sample, GraphOp.nodeClick 0 7]).nodes =
        [⟨1⟩, ⟨2⟩, ⟨3⟩, ⟨4⟩, ⟨5⟩] ∧
      (applyGraphOps GraphPage.empty
        [GraphOp.canvasClick (fun _ => false), GraphOp.canvasClick (fun _ => false),
          GraphOp.canvasClick (fun _ => false), GraphOp.canvasClick (fun _ => false),
          GraphOp.canvasClick (fun _ => false), GraphOp.canvasClick (fun _ => false),
          GraphOp.nodeClick 5 7, GraphOp.sample, GraphOp.nodeClick 0 7]).edges =
        sampleGraph.edges ++ [⟨6, 1, 7⟩] ∧
      ¬ EdgesValid (applyGraphOps GraphPage.empty
        [GraphOp.canvasClick (fun _ => false), GraphOp.canvasClick (fun _ => false),
          GraphOp.canvasClick (fun _ => false), GraphOp.canvasClick (fun _ => false),
          GraphOp.canvasClick (fun _ => false), GraphOp.canvasClick (fun _ => false),
          GraphOp.nodeClick 5 7, GraphOp.sample, GraphOp.nodeClick 0 7]).graph ∧
      (resetGraph (handleNodeClick ⟨6⟩ 0 GraphPage.empty)).selectedNode = none ∧
      (generateSampleGraph (handleNodeClick ⟨6⟩ 0 GraphPage.empty)).selectedNode = some ⟨6⟩ := by
  decide

/-- Failing input of claim C24: `generateArray` leaves both counters of the
sorting page at 0 and `resetGraph` leaves both counters of the graph page at
0, but after `clearList` the record `stats` of the linked-list page has
`nodes` and `operations` at 0 and no property `traversals` at all, whatever
the state before. -/
theorem clearList_drops_traversals (newArray : List Int) (p : SortPage) (q : GraphPage)
    (r : ListPage) :
    ((generateArray newArray p).comparisons = 0 ∧ (generateArray newArray p).swaps = 0) ∧
      (resetGraph q).stats = (0, 0) ∧
      ((clearList r).stats.nodes = some 0 ∧ (clearList r).stats.operations = some 0 ∧
        (clearList r).stats.traversals = none ∧ (clearList r).stats.traversals ≠ some 0) := by
  refine ⟨⟨rfl, rfl⟩, rfl, rfl, rfl, rfl, ?_⟩
  simp [clearList]

theorem bfsNeighbors_edges (l : List Nat) : ∀ (s : BfsState),
    (l.foldl bfsNeighbor s).edgesExplored = s.edgesExplored + l.length ∧
      (l.foldl bfsNeighbor s).order = s.order ∧ (l.foldl bfsNeighbor s).stats = s.stats := by
  induction l with
  | nil => intro s; exact ⟨rfl, rfl, rfl⟩
  | cons x xs ih =>
    intro s
    obtain ⟨f1, _, f3, f4, _, _⟩ := bfsNeighbor_fields s x
    obtain ⟨i1, i2, i3⟩ := ih (bfsNeighbor s x)
    simp only [List.foldl_cons, List.length_cons]
    exact ⟨by rw [i1, f4]; omega, i2.trans f1, i3.trans f3⟩

theorem bfsLoop_edges (g : Graph) (adj : Nat → Option (List Nat))
    (hadj : ∀ v, (adj v).getD [] = neighborsOf g.edges v) (fuel : Nat) :
    ∀ (s s2 : BfsState), bfsLoop adj fuel s = some s2 →
      (s.edgesExplored = (s.order.map (fun v => (neighborsOf g.edges v).length)).sum ∧
        s.stats.2 + (s.order.getLast?.map (fun v => (neighborsOf g.edges v).length)).getD 0 =
          s.edgesExplored) →
      (s2.edgesExplored = (s2.order.map (fun v => (neighborsOf g.edges v).length)).sum ∧
        s2.stats.2 + (s2.order.getLast?.map (fun v => (neighborsOf g.edges v).length)).getD 0 =
          s2.edgesExplored) := by
  induction fuel with
  | zero =>
    intro s s2 h inv
    cases hq : s.queue with
    | nil =>
      unfold bfsLoop at h
      simp only [hq, Option.some.injEq] at h
      subst h
      exact inv
    | cons c rest =>
      unfold bfsLoop at h
      simp [hq] at h
  | succ fuel ih =>
    intro s s2 h inv
    cases hq : s.queue with
    | nil =>
      unfold bfsLoop at h
      simp only [hq, Option.some.injEq] at h
      subst h
      exact inv
    | cons c rest =>
      unfold bfsLoop at h
      simp only [hq, hadj c] at h
      apply ih _ s2 h
      obtain ⟨e1, e2, e3⟩ := bfsNeighbors_edges (neighborsOf g.edges c)
        { s with
          queue := rest
          order := s.order ++ [c]
          nodesVisited := s.nodesVisited + 1
          stats := (s.nodesVisited + 1, s.edgesExplored) }
      rw [e1, e2, e3]
      obtain ⟨i1, _⟩ := inv
      have hlast : (s.order ++ [c]).getLast? = some c := by simp
      refine ⟨?_, ?_⟩
      · show s.edgesExplored + (neighborsOf g.edges c).length =
          ((s.order ++ [c]).map (fun v => (neighborsOf g.edges v).length)).sum
        rw [List.map_append, List.sum_append, ← i1]
        simp
      · show s.edgesExplored +
            ((s.order ++ [c]).getLast?.map (fun v => (neighborsOf g.edges v).length)).getD 0 =
          s.edgesExplored + (neighborsOf g.edges c).length
        rw [hlast]
        rfl

/-- For every graph whose edges reference existing node ids: when `bfs`
completes, its counter `edgesExplored` is the sum of the lengths of the
adjacency lists of the nodes dequeued, and the last record passed to
`setStats` lacks the length of the list of the last node dequeued. -/
theorem bfs_edge_counts (g : Graph) (hv : EdgesValid g) (s : BfsState)
    (h : bfs g = Run.completed s) :
    s.edgesExplored = (s.order.map (fun v => (neighborsOf g.edges v).length)).sum ∧
      s.stats.2 + (s.order.getLast?.map (fun v => (neighborsOf g.edges v).length)).getD 0 =
        s.edgesExplored := by
  obtain ⟨adj, hb, hadj⟩ := buildAdj_spec g hv
  unfold bfs at h
  cases hn : g.nodes with
  | nil => rw [hn] at h; simp at h
  | cons n0 rest =>
    rw [hn] at hb h
    simp only [hb] at h
    cases hl : bfsLoop adj (n0 :: rest).length
        { visited := [n0.id], queue := [n0.id], order := [], nodesVisited := 0,
          edgesExplored := 0, stats := (0, 0) } with
    | none => rw [hl] at h; simp at h
    | some s3 =>
      rw [hl] at h
      simp only [Run.completed.injEq] at h
      subst h
      exact bfsLoop_edges g adj (adj_getD_eq g hv adj hadj) _ _ _ hl ⟨rfl, rfl⟩

/-- Failing input of claim C28: on the graph with the nodes 1 and 2 and the
one edge 1-2, `bfs` dequeues both nodes and makes two adjacency checks (one
in the list of each node; the counter `edgesExplored` ends at 2), while the
last record passed to `setStats` holds `edgesExplored = 1`: it is passed
before the adjacency list of the node just dequeued is scanned.  On the
sample graph the counter ends at 14, the last record holds 11. -/
theorem bfs_reports_stale_edge_count :
    (∃ s, bfs { nodes := [⟨1⟩, ⟨2⟩], edges := [⟨1, 2, 1⟩] } = Run.completed s ∧
        s.order = [1, 2] ∧
        (s.order.map (fun v => (neighborsOf [⟨1, 2, 1⟩] v).length)).sum = 2 ∧
        s.edgesExplored = 2 ∧ s.stats = (2, 1)) ∧
      (∃ s, bfs sampleGraph = Run.completed s ∧
        (s.order.map (fun v => (neighborsOf sampleGraph.edges v).length)).sum = 14 ∧
        s.edgesExplored = 14 ∧ s.stats = (5, 11)) := by
  constructor
  · exact ⟨_, rfl, by decide⟩
  · exact ⟨_, rfl, by decide⟩

/-! ### Breadth-first search dequeues level by level -/

theorem bfsLevels_step (g : Graph) (start : Nat) (lvl : Nat → Nat) (s : BfsState) (c : Nat)
    (rest : List Nat) (hq : s.queue = c :: rest) (inv : BfsLevels g start lvl s) :
    ∃ lvl2, BfsLevels g start lvl2 ((neighborsOf g.edges c).foldl bfsNeighbor
      { s with
        queue := rest
        order := s.order ++ [c]
        nodesVisited := s.nodesVisited + 1
        stats := (s.nodesVisited + 1, s.edgesExplored) }) := by
  have hsplit := inv.split
  rw [hq] at hsplit
  obtain ⟨new, a1, a2, a3, _, _, _, a7, a8, a9⟩ := bfsNeighbors_spec (neighborsOf g.edges c)
    { s with
      queue := rest
      order := s.order ++ [c]
      nodesVisited := s.nodesVisited + 1
      stats := (s.nodesVisited + 1, s.edgesExplored) } inv.nodup
  simp only at a1 a2 a3
  have hsorted := inv.sorted
  rw [hq] at hsorted
  have hspan := inv.span
  rw [hq] at hspan
  obtain ⟨_, hs2, hs3⟩ := List.pairwise_append.1 hsorted
  have hcrest : ∀ u ∈ rest, lvl c ≤ lvl u := fun u hu => List.rel_of_pairwise_cons hs2 hu
  have hcmem : c ∈ s.visited := by rw [hsplit]; simp
  have hold : ∀ v ∈ s.visited, v ∉ new := by
    intro v hv hn
    rw [a1] at a7
    exact (List.disjoint_of_nodup_append a7) hv hn
  have hle : ∀ v ∈ s.visited, lvl v ≤ lvl c + 1 := by
    intro v hv
    rw [hsplit] at hv
    rcases List.mem_append.1 hv with h | h
    · have := hs3 v h c (List.mem_cons_self _ _)
      omega
    · exact hspan c (List.mem_cons_self _ _) v h
  refine ⟨fun v => if v ∈ new then lvl c + 1 else lvl v, ?_, a7, ?_, ?_, ?_, ?_, ?_, ?_⟩
  · rw [a1, a2, a3, hsplit]; simp
  · rw [a1]; exact List.mem_append_left _ inv.start_mem
  · simp only [hold start inv.start_mem, if_false]; exact inv.start_zero
  · rw [a2, a3]
    have e : s.order ++ [c] ++ (rest ++ new) = (s.order ++ c :: rest) ++ new := by simp
    rw [e, List.pairwise_append]
    refine ⟨?_, ?_, ?_⟩
    · apply List.Pairwise.imp_of_mem _ hsorted
      intro u v hu hv huv
      rw [← hsplit] at hu hv
      simp only [hold u hu, hold v hv, if_false]
      exact huv
    · have ht : List.Pairwise (fun (_ _ : Nat) => True) new :=
        List.pairwise_of_forall (fun _ _ => trivial)
      apply List.Pairwise.imp_of_mem _ ht
      intro u v hu hv _
      simp only [hu, hv, if_true]
      exact le_refl _
    · intro u hu v hv
      rw [← hsplit] at hu
      simp only [hold u hu, hv, if_false, if_true]
      exact hle u hu
  · intro u hu v hv
    rw [a2] at hu hv
    rcases List.mem_append.1 hv with h | h
    · have hvv : v ∈ s.visited := by rw [hsplit]; simp [h]
      simp only [hold v hvv, if_false]
      rcases List.mem_append.1 hu with h2 | h2
      · have huv : u ∈ s.visited := by rw [hsplit]; simp [h2]
        simp only [hold u huv, if_false]
        exact hspan u (List.mem_cons_of_mem _ h2) v (List.mem_cons_of_mem _ h)
      · simp only [h2, if_true]
        have := hle v hvv
        omega
    · simp only [h, if_true]
      rcases List.mem_append.1 hu with h2 | h2
      · have huv : u ∈ s.visited := by rw [hsplit]; simp [h2]
        simp only [hold u huv, if_false]
        have := hcrest u h2
        omega
      · simp only [h2, if_true]
        omega
  · intro v hv
    rw [a1] at hv
    rcases List.mem_append.1 hv with h | h
    · simp only [hold v h, if_false]
      exact inv.walk v h
    · simp only [h, if_true]
      exact ⟨c, inv.walk c hcmem, (mem_neighborsOf_iff_adj g c v).1 (a8 v h)⟩
  · intro u hu w hw
    rw [a3] at hu
    rw [a1]
    rcases List.mem_append.1 hu with h | h
    · obtain ⟨c1, c2⟩ := inv.closed u h w hw
      have huv : u ∈ s.visited := by rw [hsplit]; simp [h]
      simp only [hold u huv, hold w c1, if_false]
      exact ⟨List.mem_append_left _ c1, c2⟩
    · rw [List.mem_singleton] at h
      subst h
      have hw2 := a9 w ((mem_neighborsOf_iff_adj g u w).2 hw)
      rw [a1] at hw2
      refine ⟨hw2, ?_⟩
      simp only [hold u hcmem, if_false]
      by_cases hn : w ∈ new
      · simp only [hn, if_true]; exact le_refl _
      · simp only [hn, if_false]
        rcases List.mem_append.1 hw2 with h3 | h3
        · exact hle w h3
        · exact absurd h3 hn

theorem bfsLoop_levels (g : Graph) (start : Nat) (adj : Nat → Option (List Nat))
    (hadj : ∀ v, (adj v).getD [] = neighborsOf g.edges v) (fuel : Nat) :
    ∀ (s s2 : BfsState), bfsLoop adj fuel s = some s2 → (∃ lvl, BfsLevels g start lvl s) →
      ∃ lvl, BfsLevels g start lvl s2 ∧ s2.queue = [] := by
  induction fuel with
  | zero =>
    intro s s2 h inv
    cases hq : s.queue with
    | nil =>
      unfold bfsLoop at h
      simp only [hq, Option.some.injEq] at h
      subst h
      obtain ⟨lvl, hl⟩ := inv
      exact ⟨lvl, hl, hq⟩
    | cons c rest =>
      unfold bfsLoop at h
      simp [hq] at h
  | succ fuel ih =>
    intro s s2 h inv
    cases hq : s.queue with
    | nil =>
      unfold bfsLoop at h
      simp only [hq, Option.some.injEq] at h
      subst h
      obtain ⟨lvl, hl⟩ := inv
      exact ⟨lvl, hl, hq⟩
    | cons c rest =>
      unfold bfsLoop at h
      simp only [hq, hadj c] at h
      obtain ⟨lvl, hl⟩ := inv
      exact ih _ s2 h (bfsLevels_step g start lvl s c rest hq hl)

theorem bfsLevels_minimal (g : Graph) (start : Nat) (lvl : Nat → Nat) (s : BfsState)
    (inv : BfsLevels g start lvl s) (hq : s.queue = []) (k : Nat) :
    ∀ v, HopWalk g start k v → v ∈ s.order ∧ lvl v ≤ k := by
  have hvo : s.visited = s.order := by rw [inv.split, hq]; simp
  induction k with
  | zero =>
    intro v hv
    have e : v = start := hv
    subst e
    exact ⟨by rw [← hvo]; exact inv.start_mem, by rw [inv.start_zero]⟩
  | succ k ih =>
    intro w hw
    obtain ⟨v, h1, h2⟩ := hw
    obtain ⟨i1, i2⟩ := ih v h1
    obtain ⟨c1, c2⟩ := inv.closed v i1 w h2
    exact ⟨by rw [← hvo]; exact c1, by omega⟩

/-- Claim C30: on a non-empty graph whose edges reference existing node ids
`bfs` runs to completion, every node it dequeues has a hop distance from the
first inserted node, and the nodes are dequeued in non-decreasing order of
that distance: of two nodes of the dequeue order, the earlier one is not
farther from the start than the later one. -/
theorem bfs_order_by_hops (g : Graph) (hne : g.nodes ≠ []) (hv : EdgesValid g) :
    ∃ s, bfs g = Run.completed s ∧
      (∀ v ∈ s.order, ∃ d, IsHopDist g (g.nodes.head hne).id v d) ∧
      s.order.Pairwise (fun u v => ∀ du dv, IsHopDist g (g.nodes.head hne).id u du →
        IsHopDist g (g.nodes.head hne).id v dv → du ≤ dv) := by
  obtain ⟨n0, rest, hn⟩ := List.exists_cons_of_ne_nil hne
  rw [head_id_eq g hne n0 rest hn]
  obtain ⟨adj, hb, hadj⟩ := buildAdj_spec g hv
  obtain ⟨s, h1, _, hq⟩ := bfs_spec_cons g n0 rest hn hv
  have hloop : bfsLoop adj g.nodes.length
      { visited := [n0.id], queue := [n0.id], order := [], nodesVisited := 0,
        edgesExplored := 0, stats := (0, 0) } = some s := by
    unfold bfs at h1
    rw [hn] at hb h1 ⊢
    simp only [hb] at h1
    cases hl : bfsLoop adj (n0 :: rest).length
        { visited := [n0.id], queue := [n0.id], order := [], nodesVisited := 0,
          edgesExplored := 0, stats := (0, 0) } with
    | none => rw [hl] at h1; simp at h1
    | some s3 =>
      rw [hl] at h1
      simp only [Run.completed.injEq] at h1
      rw [h1]
  have inv0 : BfsLevels g n0.id (fun _ => 0)
      { visited := [n0.id], queue := [n0.id], order := [], nodesVisited := 0,
        edgesExplored := 0, stats := (0, 0) } := by
    refine ⟨by simp, List.nodup_singleton _, by simp, rfl, by simp, ?_, ?_, by simp⟩
    · intro u _ v _; exact Nat.zero_le _
    · intro v h
      simp only [List.mem_singleton] at h
      exact h
  obtain ⟨lvl, inv, _⟩ := bfsLoop_levels g n0.id adj (adj_getD_eq g hv adj hadj) g.nodes.length
    _ s hloop ⟨_, inv0⟩
  have hvo : s.visited = s.order := by rw [inv.split, hq]; simp
  have hdist : ∀ v ∈ s.order, IsHopDist g n0.id v (lvl v) := by
    intro v hvm
    exact ⟨inv.walk v (by rw [hvo]; exact hvm),
      fun k hk => (bfsLevels_minimal g n0.id lvl s inv hq k v hk).2⟩
  refine ⟨s, h1, fun v hvm => ⟨lvl v, hdist v hvm⟩, ?_⟩
  have hsorted := inv.sorted
  rw [hq, List.append_nil] at hsorted
  apply List.Pairwise.imp_of_mem _ hsorted
  intro u v hu hvm huv du dv h2 h3
  have e1 : du ≤ lvl u := h2.2 _ (hdist u hu).1
  have e2 : lvl v ≤ dv := (hdist v hvm).2 _ h3.1
  omega

/-- Witness of claim C30 at the sample graph, where `bfs` dequeues
1, 2, 4, 3, 5. -/
theorem bfs_order_by_hops_witness :
    EdgesValid sampleGraph ∧
    (∃ s, bfs sampleGraph = Run.completed s ∧
      (∀ v ∈ s.order, ∃ d, IsHopDist sampleGraph 1 v d) ∧
      s.order.Pairwise (fun u v => ∀ du dv, IsHopDist sampleGraph 1 u du →
        IsHopDist sampleGraph 1 v dv → du ≤ dv)) ∧
    (∃ s, bfs sampleGraph = Run.completed s ∧ s.order = [1, 2, 4, 3, 5]) :=
  ⟨by decide, bfs_order_by_hops sampleGraph (by decide) (by decide), ⟨_, rfl, by decide⟩⟩

/-! ### Dijkstra -/

theorem mem_validPart_edges (g : Graph) (e : Edge) :
    e ∈ (validPart g).edges ↔
      e ∈ g.edges ∧ e.fromId ∈ g.nodes.map Node.id ∧ e.toId ∈ g.nodes.map Node.id := by
  simp [validPart, List.mem_filter]

theorem validPart_eq_self (g : Graph) (hv : EdgesValid g) : validPart g = g := by
  obtain ⟨nodes, edges⟩ := g
  simp only [validPart, Graph.mk.injEq, true_and]
  rw [List.filter_eq_self]
  intro e he
  simpa using hv e he

theorem joins_neighbor (e : Edge) (u w : Nat) (h : Joins e u w) :
    (if e.fromId = u then e.toId else e.fromId) = w := by
  rcases h with ⟨h1, h2⟩ | ⟨h1, h2⟩
  · simp [h1, h2]
  · by_cases c : e.fromId = u
    · simp only [c, if_true]; rw [h1, ← h2, c]
    · simp only [c, if_false]; exact h2

theorem joins_of_incident (e : Edge) (u : Nat) (h : e.fromId = u ∨ e.toId = u) :
    Joins e u (if e.fromId = u then e.toId else e.fromId) := by
  by_cases c : e.fromId = u
  · simp only [c, if_true]; exact Or.inl ⟨c, rfl⟩
  · simp only [c, if_false]
    rcases h with h | h
    · exact absurd h c
    · exact Or.inr ⟨h, rfl⟩

theorem dist_gt_true (d : Dist) (n : Nat) (h : d.gt n = true) :
    d = Dist.inf ∨ ∃ k, d = Dist.fin k ∧ n < k := by
  cases d with
  | undef => simp [Dist.gt] at h
  | inf => exact Or.inl rfl
  | fin k => exact Or.inr ⟨k, rfl, by simpa [Dist.gt] using h⟩

theorem dist_gt_false (d : Dist) (n : Nat) (h : d.gt n = false) (hd : d ≠ Dist.undef) :
    ∃ k, d = Dist.fin k ∧ k ≤ n := by
  cases d with
  | undef => exact absurd rfl hd
  | inf => simp [Dist.gt] at h
  | fin k => exact ⟨k, rfl, by simpa [Dist.gt] using h⟩

theorem relax_update (u : Nat) (t : DijkstraState) (e : Edge) (du : Nat)
    (hdu : t.distances u = Dist.fin du)
    (hgt : (t.distances (if e.fromId = u then e.toId else e.fromId)).gt (du + e.weight) = true) :
    relax u t e =
      { t with
        edgesExplored := t.edgesExplored + 1
        distances := fun k =>
          if k = (if e.fromId = u then e.toId else e.fromId) then Dist.fin (du + e.weight)
          else t.distances k
        parent := fun k =>
          if k = (if e.fromId = u then e.toId else e.fromId) then some u else t.parent k
        pq := t.pq ++ [⟨if e.fromId = u then e.toId else e.fromId, du + e.weight⟩] } := by
  simp only [relax, hdu, hgt, if_true]

theorem relax_skip (u : Nat) (t : DijkstraState) (e : Edge) (du : Nat)
    (hdu : t.distances u = Dist.fin du)
    (hgt : (t.distances (if e.fromId = u then e.toId else e.fromId)).gt (du + e.weight) = false) :
    relax u t e = { t with edgesExplored := t.edgesExplored + 1 } := by
  simp [relax, hdu, hgt]

theorem relax_step (g : Graph) (start u : Nat) (done : Nat → Prop) (t : DijkstraState) (e : Edge)
    (inv : DInv g start done t) (hdone : ∀ x, done x → x ∈ t.visited) (hu : u ∈ t.visited)
    (he : e ∈ g.edges) (hinc : e.fromId = u ∨ e.toId = u) :
    DInv g start done (relax u t e) ∧ (relax u t e).visited = t.visited ∧
    (relax u t e).nodesVisited = t.nodesVisited ∧ (relax u t e).stats = t.stats ∧
    (∀ v d, t.distances v = Dist.fin d → ∃ d2, (relax u t e).distances v = Dist.fin d2 ∧ d2 ≤ d) ∧
    (∀ x ∈ t.visited, (relax u t e).distances x = t.distances x) ∧
    (e ∈ (validPart g).edges → ∀ w, Joins e u w →
      ∃ du dw, t.distances u = Dist.fin du ∧ (relax u t e).distances w = Dist.fin dw ∧
        dw ≤ du + e.weight) := by
  obtain ⟨du, hdu, hopt⟩ := inv.opt u hu
  have hj := joins_of_incident e u hinc
  have huid : u ∈ g.nodes.map Node.id := by
    by_contra c
    rw [(inv.undef_iff u).2 c] at hdu
    exact Dist.noConfusion hdu
  generalize hnb : (if e.fromId = u then e.toId else e.fromId) = nb at hj
  cases hgt : (t.distances nb).gt (du + e.weight) with
  | true =>
    have hgt2 := hgt
    rw [← hnb] at hgt2
    rw [relax_update u t e du hdu hgt2, hnb]
    have hnbid : nb ∈ g.nodes.map Node.id := by
      by_contra c
      rw [(inv.undef_iff nb).2 c] at hgt
      simp [Dist.gt] at hgt
    have hev : e ∈ (validPart g).edges := by
      rw [mem_validPart_edges]
      refine ⟨he, ?_⟩
      rcases hj with ⟨h1, h2⟩ | ⟨h1, h2⟩
      · rw [h1, h2]; exact ⟨huid, hnbid⟩
      · rw [h1, h2]; exact ⟨hnbid, huid⟩
    have hwalk : Walk (validPart g) start nb (du + e.weight) :=
      Walk.snoc u nb du e (inv.real u du hdu) hev hj
    have hlt : ∀ k, t.distances nb = Dist.fin k → du + e.weight < k := by
      intro k hk
      rcases dist_gt_true _ _ hgt with h | ⟨k2, h1, h2⟩
      · rw [hk] at h; exact Dist.noConfusion h
      · rw [hk] at h1
        have : k = k2 := by injection h1
        omega
    have hnbv : nb ∉ t.visited := by
      intro c
      obtain ⟨dn, h1, h2⟩ := inv.opt nb c
      have := h2 _ hwalk
      have := hlt dn h1
      omega
    have hnbs : nb ≠ start := by
      intro c
      have := hlt 0 (by rw [c]; exact inv.start_zero)
      omega
    have hvis : ∀ x, x ∈ t.visited → x ≠ nb := by
      intro x hx c
      rw [c] at hx; exact hnbv hx
    refine ⟨⟨?_, ?_, ?_, ?_, ?_, ?_, ?_, ?_, ?_, ?_⟩, rfl, rfl, rfl, ?_, ?_, ?_⟩
    · -- start_zero
      show (if start = nb then Dist.fin (du + e.weight) else t.distances start) = Dist.fin 0
      rw [if_neg (fun c => hnbs c.symm)]; exact inv.start_zero
    · -- undef_iff
      intro v
      show (if v = nb then Dist.fin (du + e.weight) else t.distances v) = Dist.undef ↔ _
      by_cases c : v = nb
      · rw [if_pos c, c]
        constructor
        · intro h; exact Dist.noConfusion h
        · intro h; exact absurd hnbid h
      · rw [if_neg c]; exact inv.undef_iff v
    · -- real
      intro v d
      show (if v = nb then Dist.fin (du + e.weight) else t.distances v) = Dist.fin d → _
      by_cases c : v = nb
      · rw [if_pos c, c]
        intro h
        have : du + e.weight = d := by injection h
        rw [← this]; exact hwalk
      · rw [if_neg c]; exact inv.real v d
    · -- opt
      intro x hx
      show ∃ dx, (if x = nb then Dist.fin (du + e.weight) else t.distances x) = Dist.fin dx ∧ _
      rw [if_neg (hvis x hx)]; exact inv.opt x hx
    · -- relaxed
      intro x hx
      obtain ⟨dx, h1, h2⟩ := inv.relaxed x hx
      refine ⟨dx, ?_, ?_⟩
      · show (if x = nb then Dist.fin (du + e.weight) else t.distances x) = Dist.fin dx
        rw [if_neg (hvis x (hdone x hx))]; exact h1
      · intro e2 he2 w hw
        obtain ⟨dw, h3, h4⟩ := h2 e2 he2 w hw
        show ∃ dw, (if w = nb then Dist.fin (du + e.weight) else t.distances w) = Dist.fin dw ∧ _
        by_cases c : w = nb
        · rw [if_pos c]
          have := hlt dw (by rw [← c]; exact h3)
          exact ⟨du + e.weight, rfl, by omega⟩
        · rw [if_neg c]; exact ⟨dw, h3, h4⟩
    · -- queued
      intro v d
      show (if v = nb then Dist.fin (du + e.weight) else t.distances v) = Dist.fin d →
        v ∉ t.visited → (⟨v, d⟩ : PQEntry) ∈ t.pq ++ [⟨nb, du + e.weight⟩]
      by_cases c : v = nb
      · rw [if_pos c, c]
        intro h _
        have : du + e.weight = d := by injection h
        rw [← this]; simp
      · rw [if_neg c]
        intro h1 h2
        exact List.mem_append_left _ (inv.queued v d h1 h2)
    · -- pq_ge
      intro x
      show x ∈ t.pq ++ [⟨nb, du + e.weight⟩] →
        ∃ d, (if x.node = nb then Dist.fin (du + e.weight) else t.distances x.node) = Dist.fin d ∧
          d ≤ x.distance
      intro hx
      rcases List.mem_append.1 hx with h | h
      · obtain ⟨d, h1, h2⟩ := inv.pq_ge x h
        by_cases c : x.node = nb
        · rw [if_pos c]
          have := hlt d (by rw [← c]; exact h1)
          exact ⟨du + e.weight, rfl, by omega⟩
        · rw [if_neg c]; exact ⟨d, h1, h2⟩
      · rw [List.mem_singleton] at h
        rw [h]
        exact ⟨du + e.weight, by simp, le_refl _⟩
    · -- par
      intro v p
      show (if v = nb then some u else t.parent v) = some p →
        p ∈ t.visited ∧ ∃ e2 ∈ (validPart g).edges, Joins e2 p v ∧
          ∃ dp, (if p = nb then Dist.fin (du + e.weight) else t.distances p) = Dist.fin dp ∧
            (if v = nb then Dist.fin (du + e.weight) else t.distances v) = Dist.fin (dp + e2.weight)
      by_cases c : v = nb
      · rw [if_pos c, if_pos c, c]
        intro h
        have hp : u = p := by injection h
        rw [← hp]
        exact ⟨hu, e, hev, hj, du, by rw [if_neg (hvis u hu)]; exact hdu, rfl⟩
      · rw [if_neg c, if_neg c]
        intro h
        obtain ⟨h1, e2, h2, h3, dp, h4, h5⟩ := inv.par v p h
        exact ⟨h1, e2, h2, h3, dp, by rw [if_neg (hvis p h1)]; exact h4, h5⟩
    · -- root
      constructor
      · show (if start = nb then some u else t.parent start) = none
        rw [if_neg (fun c => hnbs c.symm)]; exact inv.root.1
      · intro v d
        show (if v = nb then Dist.fin (du + e.weight) else t.distances v) = Dist.fin d → v ≠ start →
          (if v = nb then some u else t.parent v) ≠ none
        by_cases c : v = nb
        · rw [if_pos c, if_pos c]
          intro _ _ h; exact Option.noConfusion h
        · rw [if_neg c, if_neg c]; exact inv.root.2 v d
    · -- ord
      intro v p
      show (if v = nb then some u else t.parent v) = some p →
        ∀ pre post, t.visited = pre ++ v :: post → p ∈ pre
      by_cases c : v = nb
      · rw [if_pos c, c]
        intro _ pre post hsplit
        exfalso
        apply hnbv
        rw [hsplit]; simp
      · rw [if_neg c]; exact inv.ord v p
    · -- distances only decrease
      intro v d hd
      show ∃ d2, (if v = nb then Dist.fin (du + e.weight) else t.distances v) = Dist.fin d2 ∧ d2 ≤ d
      by_cases c : v = nb
      · rw [if_pos c]
        have := hlt d (by rw [← c]; exact hd)
        exact ⟨du + e.weight, rfl, by omega⟩
      · rw [if_neg c]; exact ⟨d, hd, le_refl _⟩
    · -- visited nodes keep their distance
      intro x hx
      show (if x = nb then Dist.fin (du + e.weight) else t.distances x) = t.distances x
      rw [if_neg (hvis x hx)]
    · -- the edge is relaxed
      intro _ w hw
      have hw2 : nb = w := by rw [← hnb]; exact joins_neighbor e u w hw
      refine ⟨du, du + e.weight, hdu, ?_, le_refl _⟩
      show (if w = nb then Dist.fin (du + e.weight) else t.distances w) = Dist.fin (du + e.weight)
      rw [if_pos hw2.symm]
  | false =>
    have hgt2 := hgt
    rw [← hnb] at hgt2
    rw [relax_skip u t e du hdu hgt2]
    refine ⟨⟨inv.start_zero, inv.undef_iff, inv.real, inv.opt, inv.relaxed, inv.queued, inv.pq_ge,
      inv.par, inv.root, inv.ord⟩, rfl, rfl, rfl, fun v d hd => ⟨d, hd, le_refl _⟩,
      fun _ _ => rfl, ?_⟩
    intro hev w hw
    have hw2 : nb = w := by rw [← hnb]; exact joins_neighbor e u w hw
    have hwid : w ∈ g.nodes.map Node.id := by
      have := (mem_validPart_edges g e).1 hev
      rcases hw with ⟨h1, h2⟩ | ⟨h1, h2⟩
      · rw [← h2]; exact this.2.2
      · rw [← h2]; exact this.2.1
    have hne : t.distances w ≠ Dist.undef := by
      intro c; exact (inv.undef_iff w).1 c hwid
    rw [hw2] at hgt
    obtain ⟨k, h1, h2⟩ := dist_gt_false _ _ hgt hne
    exact ⟨du, k, hdu, h1, h2⟩

theorem relaxLoop_spec (g : Graph) (start u : Nat) (done : Nat → Prop) (l : List Edge) :
    ∀ (t : DijkstraState), DInv g start done t → (∀ x, done x → x ∈ t.visited) →
    u ∈ t.visited → (∀ e ∈ l, e ∈ g.edges ∧ (e.fromId = u ∨ e.toId = u)) →
    DInv g start done (l.foldl (relax u) t) ∧ (l.foldl (relax u) t).visited = t.visited ∧
    (l.foldl (relax u) t).nodesVisited = t.nodesVisited ∧
    (l.foldl (relax u) t).stats = t.stats ∧
    (∀ v d, t.distances v = Dist.fin d →
      ∃ d2, (l.foldl (relax u) t).distances v = Dist.fin d2 ∧ d2 ≤ d) ∧
    (∀ x ∈ t.visited, (l.foldl (relax u) t).distances x = t.distances x) ∧
    (∀ e ∈ l, e ∈ (validPart g).edges → ∀ w, Joins e u w →
      ∃ du dw, t.distances u = Dist.fin du ∧ (l.foldl (relax u) t).distances w = Dist.fin dw ∧
        dw ≤ du + e.weight) := by
  induction l with
  | nil =>
    intro t inv _ _ _
    exact ⟨inv, rfl, rfl, rfl, fun v d hd => ⟨d, hd, le_refl _⟩, fun _ _ => rfl, by simp⟩
  | cons e es ih =>
    intro t inv hdone hu hl
    obtain ⟨he, hinc⟩ := hl e (List.mem_cons_self _ _)
    obtain ⟨a1, a2, a3, a4, a5, a6, a7⟩ := relax_step g start u done t e inv hdone hu he hinc
    obtain ⟨b1, b2, b3, b4, b5, b6, b7⟩ := ih (relax u t e) a1
      (fun x hx => by rw [a2]; exact hdone x hx) (by rw [a2]; exact hu)
      (fun x hx => hl x (List.mem_cons_of_mem _ hx))
    simp only [List.foldl_cons]
    refine ⟨b1, b2.trans a2, b3.trans a3, b4.trans a4, ?_, ?_, ?_⟩
    · intro v d hd
      obtain ⟨d2, h1, h2⟩ := a5 v d hd
      obtain ⟨d3, h3, h4⟩ := b5 v d2 h1
      exact ⟨d3, h3, le_trans h4 h2⟩
    · intro x hx
      rw [b6 x (by rw [a2]; exact hx), a6 x hx]
    · intro e2 he2 hv2 w hw
      rcases List.mem_cons.1 he2 with c | c
      · subst c
        obtain ⟨du, dw, h1, h2, h3⟩ := a7 hv2 w hw
        obtain ⟨d3, h4, h5⟩ := b5 w dw h2
        exact ⟨du, d3, h1, h4, le_trans h5 h3⟩
      · obtain ⟨du, dw, h1, h2, h3⟩ := b7 e2 c hv2 w hw
        rw [a6 u hu] at h1
        exact ⟨du, dw, h1, h2, h3⟩

theorem walk_frontier (g : Graph) (start : Nat) (s : DijkstraState)
    (inv : DInv g start (fun x => x ∈ s.visited) s) (y W : Nat)
    (h : Walk (validPart g) start y W) :
    (∃ z dz, z ∉ s.visited ∧ s.distances z = Dist.fin dz ∧ dz ≤ W) ∨
      (y ∈ s.visited ∧ ∃ dy, s.distances y = Dist.fin dy ∧ dy ≤ W) := by
  induction h with
  | nil =>
    by_cases c : start ∈ s.visited
    · exact Or.inr ⟨c, 0, inv.start_zero, le_refl _⟩
    · exact Or.inl ⟨start, 0, c, inv.start_zero, le_refl _⟩
  | snoc v w W e _ he hj ih =>
    rcases ih with ⟨z, dz, h1, h2, h3⟩ | ⟨h1, dv, h2, h3⟩
    · exact Or.inl ⟨z, dz, h1, h2, by omega⟩
    · obtain ⟨dx, h4, h5⟩ := inv.relaxed v h1
      rw [h2] at h4
      have e1 : dv = dx := by injection h4
      obtain ⟨dw, h6, h7⟩ := h5 e he w hj
      by_cases c : w ∈ s.visited
      · exact Or.inr ⟨c, dw, h6, by omega⟩
      · exact Or.inl ⟨w, dw, c, h6, by omega⟩

theorem sortPQ_cons (pq : List PQEntry) (top : PQEntry) (rest : List PQEntry)
    (h : sortPQ pq = top :: rest) :
    top ∈ pq ∧ (∀ x ∈ pq, top.distance ≤ x.distance) ∧ (∀ x, x ∈ pq ↔ x = top ∨ x ∈ rest) := by
  have hp : List.Perm (top :: rest) pq := by
    rw [← h]; exact List.perm_insertionSort _ pq
  have hs : List.Sorted (fun a b : PQEntry => a.distance ≤ b.distance) (top :: rest) := by
    rw [← h]; exact List.sorted_insertionSort _ pq
  have hmem : ∀ x, x ∈ pq ↔ x = top ∨ x ∈ rest := by
    intro x; rw [← hp.mem_iff, List.mem_cons]
  refine ⟨(hmem top).2 (Or.inl rfl), ?_, hmem⟩
  intro x hx
  rcases (hmem x).1 hx with c | c
  · rw [c]
  · exact List.rel_of_sorted_cons hs x c

theorem sortPQ_nil (pq : List PQEntry) (h : sortPQ pq = []) : pq = [] := by
  have hp : List.Perm [] pq := by
    rw [← h]; exact List.perm_insertionSort _ pq
  exact hp.symm.eq_nil

theorem reconstruct_path (g : Graph) (start : Nat) (done : Nat → Prop) (s : DijkstraState)
    (inv : DInv g start done s) (fuel : Nat) :
    ∀ (v : Nat) (acc : List Nat) (esacc : List Edge) (dv : Nat) (p : List Nat),
    JoinsPath (validPart g) (v :: acc) esacc → s.distances v = Dist.fin dv →
    reconstruct s.parent fuel v acc = some p →
    ∃ es, JoinsPath (validPart g) p es ∧ p.head? = some start ∧
      p.getLast? = (v :: acc).getLast? ∧ walkWeight es = dv + walkWeight esacc := by
  induction fuel with
  | zero =>
    intro v acc esacc dv p _ _ hrec
    simp [reconstruct] at hrec
  | succ fuel ih =>
    intro v acc esacc dv p hjp hdv hrec
    cases hpar : s.parent v with
    | none =>
      simp only [reconstruct, hpar, Option.some.injEq] at hrec
      have hvs : v = start := by
        by_contra c
        exact inv.root.2 v dv hdv c hpar
      have hd0 : dv = 0 := by
        have h0 := inv.start_zero
        rw [← hvs, hdv] at h0
        injection h0
      refine ⟨esacc, by rw [← hrec]; exact hjp, by rw [← hrec, hvs]; rfl, by rw [← hrec], ?_⟩
      omega
    | some u =>
      simp only [reconstruct, hpar] at hrec
      obtain ⟨_, e, he, hj, du, h1, h2⟩ := inv.par v u hpar
      rw [hdv] at h2
      have hd : dv = du + e.weight := by injection h2
      obtain ⟨es, a1, a2, a3, a4⟩ := ih u (v :: acc) (e :: esacc) du p
        (by simp only [JoinsPath]; exact ⟨he, hj, hjp⟩) h1 hrec
      refine ⟨es, a1, a2, by rw [a3, List.getLast?_cons_cons], ?_⟩
      rw [a4, hd]
      simp only [walkWeight, List.map_cons, List.sum_cons]
      omega

theorem dinv_pop_visited (g : Graph) (start : Nat) (s : DijkstraState) (top : PQEntry)
    (rest : List PQEntry) (inv : DInv g start (fun x => x ∈ s.visited) s)
    (hsort : sortPQ s.pq = top :: rest) (hvis : top.node ∈ s.visited) :
    DInv g start (fun x => x ∈ s.visited) { s with pq := rest } := by
  obtain ⟨_, _, hmem⟩ := sortPQ_cons s.pq top rest hsort
  refine ⟨inv.start_zero, inv.undef_iff, inv.real, inv.opt, inv.relaxed, ?_, ?_, inv.par, inv.root,
    inv.ord⟩
  · intro v d hd hv
    rcases (hmem _).1 (inv.queued v d hd hv) with c | c
    · exfalso
      apply hv
      rw [← c] at hvis
      exact hvis
    · exact c
  · intro x hx
    exact inv.pq_ge x ((hmem x).2 (Or.inr hx))

theorem dinv_pop_fresh (g : Graph) (start : Nat) (s : DijkstraState) (top : PQEntry)
    (rest : List PQEntry) (inv : DInv g start (fun x => x ∈ s.visited) s)
    (hsort : sortPQ s.pq = top :: rest) (hvis : top.node ∉ s.visited) :
    DInv g start (fun x => x ∈ s.visited)
      { s with
        pq := rest
        visited := s.visited ++ [top.node]
        nodesVisited := s.nodesVisited + 1
        stats := (s.nodesVisited + 1, s.edgesExplored) } := by
  obtain ⟨htop, hmin, hmem⟩ := sortPQ_cons s.pq top rest hsort
  obtain ⟨du, hdu, hle⟩ := inv.pq_ge top htop
  have hopt : ∀ W, Walk (validPart g) start top.node W → du ≤ W := by
    intro W hW
    rcases walk_frontier g start s inv top.node W hW with ⟨z, dz, h1, h2, h3⟩ | ⟨h1, _⟩
    · have := hmin _ (inv.queued z dz h2 h1)
      simp only at this
      omega
    · exact absurd h1 hvis
  refine ⟨inv.start_zero, inv.undef_iff, inv.real, ?_, inv.relaxed, ?_, ?_, ?_, inv.root, ?_⟩
  · intro x hx
    rcases List.mem_append.1 hx with c | c
    · exact inv.opt x c
    · rw [List.mem_singleton] at c
      rw [c]; exact ⟨du, hdu, hopt⟩
  · intro v d hd hv
    have hv1 : v ∉ s.visited := fun c => hv (List.mem_append_left _ c)
    have hv2 : v ≠ top.node := fun c => hv (by rw [c]; simp)
    rcases (hmem _).1 (inv.queued v d hd hv1) with c | c
    · exfalso
      apply hv2
      rw [← c]
    · exact c
  · intro x hx
    exact inv.pq_ge x ((hmem x).2 (Or.inr hx))
  · intro v u hp
    obtain ⟨h1, h2⟩ := inv.par v u hp
    exact ⟨List.mem_append_left _ h1, h2⟩
  · intro v u hp pre post hsplit
    show u ∈ pre
    have hsplit2 : s.visited ++ [top.node] = pre ++ v :: post := hsplit
    rcases List.eq_nil_or_concat post with c | ⟨post2, z, c⟩
    · rw [c] at hsplit2
      have e1 : pre ++ [v] = s.visited ++ [top.node] := hsplit2.symm
      have e2 := List.append_inj_left' e1 rfl
      rw [e2]; exact (inv.par v u hp).1
    · rw [c] at hsplit2
      have e1 : (pre ++ v :: post2) ++ [z] = s.visited ++ [top.node] := by
        rw [hsplit2]; simp
      have e2 := List.append_inj_left' e1 rfl
      exact inv.ord v u hp pre post2 e2.symm

theorem dinv_after_relax (g : Graph) (start : Nat) (s : DijkstraState) (top : PQEntry)
    (rest : List PQEntry) (inv : DInv g start (fun x => x ∈ s.visited) s)
    (hsort : sortPQ s.pq = top :: rest) (hvis : top.node ∉ s.visited) :
    DInv g start
      (fun x => x ∈ ((g.edges.filter (fun e => e.fromId = top.node || e.toId = top.node)).foldl
        (relax top.node)
        { s with
          pq := rest
          visited := s.visited ++ [top.node]
          nodesVisited := s.nodesVisited + 1
          stats := (s.nodesVisited + 1, s.edgesExplored) }).visited)
      ((g.edges.filter (fun e => e.fromId = top.node || e.toId = top.node)).foldl
        (relax top.node)
        { s with
          pq := rest
          visited := s.visited ++ [top.node]
          nodesVisited := s.nodesVisited + 1
          stats := (s.nodesVisited + 1, s.edgesExplored) }) := by
  have inv1 := dinv_pop_fresh g start s top rest inv hsort hvis
  obtain ⟨b1, b2, _, _, _, b6, b7⟩ := relaxLoop_spec g start top.node (fun x => x ∈ s.visited)
    (g.edges.filter (fun e => e.fromId = top.node || e.toId = top.node)) _ inv1
    (fun x hx => List.mem_append_left _ hx) (by simp)
    (by
      intro e he
      rw [List.mem_filter] at he
      exact ⟨he.1, by simpa using he.2⟩)
  simp only at b2 b6 b7
  refine ⟨b1.start_zero, b1.undef_iff, b1.real, b1.opt, ?_, b1.queued, b1.pq_ge, b1.par, b1.root,
    b1.ord⟩
  intro x hx
  rw [b2] at hx
  rcases List.mem_append.1 hx with c | c
  · exact b1.relaxed x c
  · rw [List.mem_singleton] at c
    subst c
    obtain ⟨du, hdu, _⟩ := inv1.opt top.node (by simp)
    simp only at hdu
    refine ⟨du, by rw [b6 top.node (by simp)]; exact hdu, ?_⟩
    intro e he w hw
    have heg : e ∈ g.edges := ((mem_validPart_edges g e).1 he).1
    have hinc : e.fromId = top.node ∨ e.toId = top.node := by
      rcases hw with ⟨h1, _⟩ | ⟨h1, _⟩
      · exact Or.inl h1
      · exact Or.inr h1
    obtain ⟨du2, dw, h1, h2, h3⟩ := b7 e
      (by rw [List.mem_filter]; exact ⟨heg, by simpa using hinc⟩) he w hw
    rw [hdu] at h1
    have : du = du2 := by injection h1
    exact ⟨dw, h2, by omega⟩

theorem dijkstraLoop_found (g : Graph) (start endId : Nat) (fuel : Nat) :
    ∀ (s : DijkstraState), DInv g start (fun x => x ∈ s.visited) s →
    ∀ (p : List Nat) (dist : Dist) (vis : List Nat) (st : Nat × Nat),
    dijkstraLoop g.edges endId fuel s = DijkstraRun.found p dist vis st →
    ∃ d, dist = Dist.fin d ∧ (∀ W, Walk (validPart g) start endId W → d ≤ W) ∧
      ∃ es, JoinsPath (validPart g) p es ∧ p.head? = some start ∧
        p.getLast? = some endId ∧ walkWeight es = d := by
  induction fuel with
  | zero =>
    intro s _ p dist vis st hrun
    cases hsort : sortPQ s.pq <;> simp [dijkstraLoop, hsort] at hrun
  | succ fuel ih =>
    intro s inv p dist vis st hrun
    cases hsort : sortPQ s.pq with
    | nil => simp [dijkstraLoop, hsort] at hrun
    | cons top rest =>
      simp only [dijkstraLoop, hsort] at hrun
      by_cases hvis : top.node ∈ s.visited
      · simp only [hvis, if_true] at hrun
        exact ih { s with pq := rest } (dinv_pop_visited g start s top rest inv hsort hvis)
          p dist vis st hrun
      · simp only [hvis, if_false] at hrun
        by_cases hend : top.node = endId
        · simp only [hend, if_true] at hrun
          have inv1 := dinv_pop_fresh g start s top rest inv hsort hvis
          obtain ⟨du, hdu, hopt⟩ := inv1.opt top.node (by simp)
          rw [hend] at hdu hopt
          simp only at hdu
          simp only [List.length_append, List.length_singleton] at hrun
          cases hrec : reconstruct s.parent (s.visited.length + 1) endId [] with
          | none => simp [hrec] at hrun
          | some pathArray =>
            simp only [hrec, DijkstraRun.found.injEq] at hrun
            obtain ⟨hp, hd, _, _⟩ := hrun
            obtain ⟨es, a1, a2, a3, a4⟩ := reconstruct_path g start _ s inv _ endId [] [] du
              pathArray (by simp [JoinsPath]) hdu hrec
            refine ⟨du, by rw [← hd]; exact hdu, hopt, es, ?_, ?_, ?_, ?_⟩
            · rw [← hp]; exact a1
            · rw [← hp]; exact a2
            · rw [← hp, a3]; rfl
            · rw [a4]; simp [walkWeight]
        · simp only [hend, if_false] at hrun
          exact ih _ (dinv_after_relax g start s top rest inv hsort hvis) p dist vis st hrun

theorem dinv_init (g : Graph) (start : Nat) (hs : start ∈ g.nodes.map Node.id) :
    DInv g start (fun x => x ∈ (dijkstraInit g start).visited) (dijkstraInit g start) := by
  have hfin : ∀ v d, (dijkstraInit g start).distances v = Dist.fin d → v = start ∧ d = 0 := by
    intro v d h
    simp only [dijkstraInit] at h
    by_cases c : v = start
    · rw [if_pos c] at h
      exact ⟨c, by injection h with h2; exact h2.symm⟩
    · rw [if_neg c] at h
      by_cases c2 : v ∈ g.nodes.map Node.id
      · rw [if_pos c2] at h; exact Dist.noConfusion h
      · rw [if_neg c2] at h; exact Dist.noConfusion h
  refine ⟨by simp [dijkstraInit], ?_, ?_, ?_, ?_, ?_, ?_, ?_, ?_, ?_⟩
  · intro v
    simp only [dijkstraInit]
    by_cases c : v = start
    · rw [if_pos c, c]
      constructor
      · intro h; exact Dist.noConfusion h
      · intro h; exact absurd hs h
    · rw [if_neg c]
      by_cases c2 : v ∈ g.nodes.map Node.id
      · rw [if_pos c2]
        constructor
        · intro h; exact Dist.noConfusion h
        · intro h; exact absurd c2 h
      · rw [if_neg c2]
        exact ⟨fun _ => c2, fun _ => rfl⟩
  · intro v d h
    obtain ⟨h1, h2⟩ := hfin v d h
    rw [h1, h2]; exact Walk.nil
  · intro u hu
    simp [dijkstraInit] at hu
  · intro x hx
    simp [dijkstraInit] at hx
  · intro v d h _
    obtain ⟨h1, h2⟩ := hfin v d h
    rw [h1, h2]; simp [dijkstraInit]
  · intro x hx
    simp only [dijkstraInit, List.mem_singleton] at hx
    rw [hx]
    exact ⟨0, by simp [dijkstraInit], le_refl _⟩
  · intro v u h
    simp [dijkstraInit] at h
  · refine ⟨rfl, ?_⟩
    intro v d h hne
    exact absurd (hfin v d h).1 hne
  · intro v u h
    simp [dijkstraInit] at h

theorem dijkstra_found (g : Graph) (n0 nl : Node) (h0 : g.nodes.head? = some n0)
    (hl : g.nodes.getLast? = some nl) (p : List Nat) (dist : Dist) (vis : List Nat)
    (st : Nat × Nat) (hrun : dijkstra g = DijkstraRun.found p dist vis st) :
    ∃ d, dist = Dist.fin d ∧ (∀ W, Walk (validPart g) n0.id nl.id W → d ≤ W) ∧
      ∃ es, JoinsPath (validPart g) p es ∧ p.head? = some n0.id ∧
        p.getLast? = some nl.id ∧ walkWeight es = d := by
  unfold dijkstra at hrun
  by_cases hlen : g.nodes.length < 2
  · simp [hlen] at hrun
  · simp only [hlen, if_false, h0, hl] at hrun
    have hs : n0.id ∈ g.nodes.map Node.id := by
      have : n0 ∈ g.nodes := List.mem_of_mem_head? h0
      exact List.mem_map_of_mem _ this
    exact dijkstraLoop_found g n0.id nl.id _ _ (dinv_init g n0.id hs) p dist vis st hrun

theorem joins_symm (e : Edge) (u v : Nat) (h : Joins e u v) : Joins e v u := by
  rcases h with ⟨h1, h2⟩ | ⟨h1, h2⟩
  · exact Or.inr ⟨h2, h1⟩
  · exact Or.inl ⟨h2, h1⟩

theorem walk_cons (g : Graph) (u v w W : Nat) (e : Edge) (he : e ∈ g.edges) (hj : Joins e u v)
    (h : Walk g v w W) : Walk g u w (e.weight + W) := by
  induction h with
  | nil => simpa using Walk.snoc u v 0 e Walk.nil he hj
  | snoc x y W2 e2 _ he2 hj2 ih =>
    have := Walk.snoc x y (e.weight + W2) e2 ih he2 hj2
    rwa [Nat.add_assoc] at this

theorem walk_symm (g : Graph) (u v W : Nat) (h : Walk g u v W) : Walk g v u W := by
  induction h with
  | nil => exact Walk.nil
  | snoc x y W2 e _ he hj ih =>
    have := walk_cons g y x u W2 e he (joins_symm e x y hj) ih
    rwa [Nat.add_comm] at this

theorem joinsPath_walk (g : Graph) (q : List Nat) : ∀ (es : List Edge) (u v : Nat),
    JoinsPath g q es → q.head? = some u → q.getLast? = some v → Walk g u v (walkWeight es) := by
  induction q with
  | nil => intro es u v h; simp [JoinsPath] at h
  | cons a rest ih =>
    intro es u v h hu hv
    simp only [List.head?_cons, Option.some.injEq] at hu
    subst hu
    cases rest with
    | nil =>
      cases es with
      | nil =>
        simp only [List.getLast?_singleton, Option.some.injEq] at hv
        subst hv
        exact Walk.nil
      | cons e es2 => simp [JoinsPath] at h
    | cons b rest2 =>
      cases es with
      | nil => simp [JoinsPath] at h
      | cons e es2 =>
        simp only [JoinsPath] at h
        obtain ⟨he, hj, hrest⟩ := h
        rw [List.getLast?_cons_cons] at hv
        have := walk_cons g a b v _ e he hj (ih es2 b v hrest rfl hv)
        simpa [walkWeight] using this

theorem joinsPath_mono (g : Graph) (q : List Nat) : ∀ (es : List Edge),
    JoinsPath (validPart g) q es → JoinsPath g q es := by
  induction q with
  | nil => intro es h; simp [JoinsPath] at h
  | cons a rest ih =>
    intro es h
    cases rest with
    | nil =>
      cases es with
      | nil => simp [JoinsPath]
      | cons e es2 => simp [JoinsPath] at h
    | cons b rest2 =>
      cases es with
      | nil => simp [JoinsPath] at h
      | cons e es2 =>
        simp only [JoinsPath] at h ⊢
        exact ⟨((mem_validPart_edges g e).1 h.1).1, h.2.1, ih es2 h.2.2⟩

theorem joinsPath_chain (g : Graph) (q : List Nat) : ∀ (es : List Edge),
    JoinsPath g q es → List.Chain' (Adj g) q := by
  induction q with
  | nil => intro es h; simp [JoinsPath] at h
  | cons a rest ih =>
    intro es h
    cases rest with
    | nil => exact List.chain'_singleton a
    | cons b rest2 =>
      cases es with
      | nil => simp [JoinsPath] at h
      | cons e es2 =>
        simp only [JoinsPath] at h
        rw [List.chain'_cons]
        exact ⟨⟨e, h.1, h.2.1⟩, ih es2 h.2.2⟩

theorem dijkstra_found_nodes (g : Graph) (p : List Nat) (dist : Dist) (vis : List Nat)
    (st : Nat × Nat) (hrun : dijkstra g = DijkstraRun.found p dist vis st) :
    ∃ n0 nl, g.nodes.head? = some n0 ∧ g.nodes.getLast? = some nl := by
  unfold dijkstra at hrun
  by_cases hlen : g.nodes.length < 2
  · simp [hlen] at hrun
  · cases h0 : g.nodes.head? with
    | none => simp [hlen, h0] at hrun
    | some n0 =>
      cases hl : g.nodes.getLast? with
      | none => simp [hlen, h0, hl] at hrun
      | some nl => exact ⟨n0, nl, rfl, rfl⟩

/-! ### Dijkstra: the run ends -/

theorem relax_pq_visited (u : Nat) (t : DijkstraState) (e : Edge) :
    (relax u t e).pq.length ≤ t.pq.length + 1 ∧ (relax u t e).visited = t.visited := by
  unfold relax
  cases t.distances u with
  | undef => simp
  | inf => simp
  | fin dc =>
    simp only
    split_ifs <;> simp

theorem relaxLoop_pq_visited (u : Nat) (l : List Edge) : ∀ (t : DijkstraState),
    (l.foldl (relax u) t).pq.length ≤ t.pq.length + l.length ∧
      (l.foldl (relax u) t).visited = t.visited := by
  induction l with
  | nil => intro t; simp
  | cons e es ih =>
    intro t
    obtain ⟨a1, a2⟩ := relax_pq_visited u t e
    obtain ⟨b1, b2⟩ := ih (relax u t e)
    simp only [List.foldl_cons, List.length_cons]
    exact ⟨by omega, b2.trans a2⟩

theorem unvisitedEnds_append (edges : List Edge) (visited : List Nat) (u : Nat)
    (hu : u ∉ visited) :
    unvisitedEnds edges (visited ++ [u]) +
        (edges.filter (fun e => e.fromId = u || e.toId = u)).length ≤
      unvisitedEnds edges visited := by
  induction edges with
  | nil => simp [unvisitedEnds]
  | cons e es ih =>
    simp only [unvisitedEnds, List.map_cons, List.sum_cons, List.mem_append,
      List.mem_singleton, List.filter_cons] at ih ⊢
    by_cases h1 : e.fromId = u <;> by_cases h2 : e.toId = u <;>
      by_cases h3 : e.fromId ∈ visited <;> by_cases h4 : e.toId ∈ visited <;>
      simp [h1, h2, h3, h4] <;> simp_all <;> omega

theorem unvisitedEnds_nil_le (edges : List Edge) : unvisitedEnds edges [] ≤ 2 * edges.length := by
  induction edges with
  | nil => simp [unvisitedEnds]
  | cons e es ih =>
    simp only [unvisitedEnds, List.map_cons, List.sum_cons, List.length_cons,
      List.not_mem_nil, if_false] at ih ⊢
    omega

theorem reconstruct_total (g : Graph) (start : Nat) (done : Nat → Prop) (s : DijkstraState)
    (inv : DInv g start done s) (n : Nat) :
    ∀ (pre : List Nat) (v : Nat) (post acc : List Nat), s.visited = pre ++ v :: post →
      pre.length < n → ∃ p, reconstruct s.parent n v acc = some p := by
  induction n with
  | zero => intro pre v post acc _ h; omega
  | succ n ih =>
    intro pre v post acc hsplit hlen
    cases hpar : s.parent v with
    | none => exact ⟨v :: acc, by simp [reconstruct, hpar]⟩
    | some u =>
      have hu := inv.ord v u hpar pre post hsplit
      obtain ⟨pre2, post2, h2⟩ := List.append_of_mem hu
      have hsplit2 : s.visited = pre2 ++ u :: (post2 ++ v :: post) := by
        rw [hsplit, h2]; simp
      have hlen2 : pre2.length < n := by
        rw [h2, List.length_append, List.length_cons] at hlen
        omega
      obtain ⟨p, hp⟩ := ih pre2 u (post2 ++ v :: post) (v :: acc) hsplit2 hlen2
      exact ⟨p, by simp only [reconstruct, hpar]; exact hp⟩

theorem dijkstraLoop_ends (g : Graph) (start endId : Nat) (fuel : Nat) :
    ∀ (s : DijkstraState), DInv g start (fun x => x ∈ s.visited) s →
    s.pq.length + unvisitedEnds g.edges s.visited ≤ fuel →
    dijkstraLoop g.edges endId fuel s ≠ DijkstraRun.outOfFuel := by
  induction fuel with
  | zero =>
    intro s _ hf
    have : s.pq = [] := List.length_eq_zero.mp (by omega)
    simp [dijkstraLoop, sortPQ, this]
  | succ fuel ih =>
    intro s inv hf
    cases hsort : sortPQ s.pq with
    | nil => simp [dijkstraLoop, hsort]
    | cons top rest =>
      have hlen : s.pq.length = rest.length + 1 := by
        have := (List.perm_insertionSort (fun a b : PQEntry => a.distance ≤ b.distance) s.pq).length_eq
        unfold sortPQ at hsort
        rw [hsort] at this
        simpa using this.symm
      simp only [dijkstraLoop, hsort]
      by_cases hvis : top.node ∈ s.visited
      · simp only [hvis, if_true]
        exact ih { s with pq := rest } (dinv_pop_visited g start s top rest inv hsort hvis)
          (by simp only; omega)
      · simp only [hvis, if_false]
        by_cases hend : top.node = endId
        · simp only [hend, if_true, List.length_append, List.length_singleton]
          have inv1 := dinv_pop_fresh g start s top rest inv hsort hvis
          obtain ⟨p, hp⟩ := reconstruct_total g start _ _ inv1 (s.visited.length + 1)
            s.visited endId [] [] (by rw [← hend]) (by omega)
          simp only at hp
          rw [hp]
          simp
        · simp only [hend, if_false]
          apply ih _ (dinv_after_relax g start s top rest inv hsort hvis)
          obtain ⟨c1, c2⟩ := relaxLoop_pq_visited top.node
            (g.edges.filter (fun e => e.fromId = top.node || e.toId = top.node))
            { s with
              pq := rest
              visited := s.visited ++ [top.node]
              nodesVisited := s.nodesVisited + 1
              stats := (s.nodesVisited + 1, s.edgesExplored) }
          simp only at c1 c2
          rw [c2]
          have := unvisitedEnds_append g.edges s.visited top.node hvis
          omega

/-- The run of `dijkstra` always ends: the fuel of the embedding is never
used up. -/
theorem dijkstra_ends (g : Graph) : dijkstra g ≠ DijkstraRun.outOfFuel := by
  unfold dijkstra
  by_cases hlen : g.nodes.length < 2
  · simp [hlen]
  · simp only [hlen, if_false]
    cases h0 : g.nodes.head? with
    | none => simp
    | some n0 =>
      cases hl : g.nodes.getLast? with
      | none => simp
      | some nl =>
        simp only
        have hs : n0.id ∈ g.nodes.map Node.id :=
          List.mem_map_of_mem _ (List.mem_of_mem_head? h0)
        apply dijkstraLoop_ends g n0.id nl.id _ _ (dinv_init g n0.id hs)
        have := unvisitedEnds_nil_le g.edges
        simp only [dijkstraInit, List.length_singleton]
        omega

/-! ### Dijkstra: unreachable target and the sample graph -/

theorem walk_reachable (g : Graph) (u v W : Nat) (h : Walk (validPart g) u v W) :
    Reachable g u v := by
  induction h with
  | nil => exact Relation.ReflTransGen.refl
  | snoc x y W2 e _ he hj ih =>
    exact Relation.ReflTransGen.tail ih ⟨e, ((mem_validPart_edges g e).1 he).1, hj⟩

theorem joinsPath_validPart_walk (g : Graph) (q : List Nat) : ∀ (es : List Edge) (u v : Nat),
    JoinsPath (validPart g) q es → q.head? = some u → q.getLast? = some v →
    Walk (validPart g) u v (walkWeight es) :=
  joinsPath_walk (validPart g) q

theorem dijkstraLoop_ne_rejected (edges : List Edge) (endId : Nat) (fuel : Nat) :
    ∀ s : DijkstraState, dijkstraLoop edges endId fuel s ≠ DijkstraRun.rejected := by
  induction fuel with
  | zero =>
    intro s
    cases hsort : sortPQ s.pq <;> simp [dijkstraLoop, hsort]
  | succ fuel ih =>
    intro s
    cases hsort : sortPQ s.pq with
    | nil => simp [dijkstraLoop, hsort]
    | cons top rest =>
      simp only [dijkstraLoop, hsort]
      split_ifs with h1 h2
      · exact ih _
      · cases reconstruct s.parent (s.visited ++ [top.node]).length endId [] <;> simp
      · exact ih _

/-- Claim C16: on a graph with at least two nodes whose last inserted node is
not reachable from the first one, `dijkstra` ends with `pq` empty (the outcome
`completed`) and the path it leaves for the page is empty. -/
theorem dijkstra_unreachable (g : Graph) (h2 : 2 ≤ g.nodes.length) (n0 nl : Node)
    (h0 : g.nodes.head? = some n0) (hl : g.nodes.getLast? = some nl)
    (hnr : ¬ Reachable g n0.id nl.id) :
    ∃ vis st, dijkstra g = DijkstraRun.completed vis st ∧
      (dijkstra g).pathLeft = some [] := by
  cases hrun : dijkstra g with
  | rejected =>
    exfalso
    unfold dijkstra at hrun
    have hlen : ¬ g.nodes.length < 2 := by omega
    simp only [hlen, if_false, h0, hl] at hrun
    exact dijkstraLoop_ne_rejected _ _ _ _ hrun
  | outOfFuel => exact absurd hrun (dijkstra_ends g)
  | found p dist vis st =>
    exfalso
    obtain ⟨d, _, _, es, a1, a2, a3, _⟩ := dijkstra_found g n0 nl h0 hl p dist vis st hrun
    exact hnr (walk_reachable g _ _ _ (joinsPath_validPart_walk g p es _ _ a1 a2 a3))
  | completed vis st => exact ⟨vis, st, rfl, rfl⟩

/-- Witness of claim C16 at the graph with nodes 1, 2, 3 and the one edge
1-2: node 3 is not reachable from node 1. -/
theorem dijkstra_unreachable_witness :
    ∃ vis st, dijkstra { nodes := [⟨1⟩, ⟨2⟩, ⟨3⟩], edges := [⟨1, 2, 4⟩] } =
        DijkstraRun.completed vis st ∧
      (dijkstra { nodes := [⟨1⟩, ⟨2⟩, ⟨3⟩], edges := [⟨1, 2, 4⟩] }).pathLeft = some [] :=
  dijkstra_unreachable { nodes := [⟨1⟩, ⟨2⟩, ⟨3⟩], edges := [⟨1, 2, 4⟩] } (by decide) ⟨1⟩ ⟨3⟩
    rfl rfl
    (by
      have hclosed : ∀ u v : Nat, Reachable { nodes := [⟨1⟩, ⟨2⟩, ⟨3⟩], edges := [⟨1, 2, 4⟩] } u v →
          u ≠ 3 → v ≠ 3 := by
        intro u v h
        induction h with
        | refl => exact id
        | tail _ hbc ih =>
          intro hu
          have hb := ih hu
          obtain ⟨e, he, hj⟩ := hbc
          simp only [List.mem_singleton] at he
          subst he
          rcases hj with ⟨h1, h2⟩ | ⟨h1, h2⟩
          · simp only at h1 h2; omega
          · simp only at h1 h2; omega
      intro h
      exact hclosed 1 3 h (by decide) rfl)

/-- Counterexample to claim C20: on the sample graph `dijkstra` does not
report the distance 7, and the edges A-D and D-E join A to E with total
weight 5, which is under 7. -/
theorem sample_dijkstra_not_seven :
    (¬ ∃ p vis st, dijkstra sampleGraph = DijkstraRun.found p (Dist.fin 7) vis st) ∧
      ¬ (∀ q es, JoinsPath sampleGraph q es → q.head? = some 1 → q.getLast? = some 5 →
          7 ≤ walkWeight es) := by
  have hrun : dijkstra sampleGraph =
      DijkstraRun.found [1, 4, 5] (Dist.fin 5) [1, 4, 2, 5] (4, 9) := by decide
  constructor
  · rintro ⟨p, vis, st, h⟩
    rw [hrun] at h
    injection h with _ h2 _ _
    injection h2 with h3
    omega
  · intro h
    have := h [1, 4, 5] [⟨1, 4, 2⟩, ⟨4, 5, 3⟩]
      (by simp [JoinsPath, Joins, sampleGraph]) rfl rfl
    simp [walkWeight] at this

/-- Claim C20, amended: on the sample graph `dijkstra` from A to E reports the
path A, D, E and the total distance 5, the edges A-D and D-E along it weigh 5
together, and no sequence of edges that joins A to E weighs less than 5. -/
theorem sample_dijkstra_five :
    dijkstra sampleGraph = DijkstraRun.found [1, 4, 5] (Dist.fin 5) [1, 4, 2, 5] (4, 9) ∧
      (JoinsPath sampleGraph [1, 4, 5] [⟨1, 4, 2⟩, ⟨4, 5, 3⟩] ∧
        walkWeight [⟨1, 4, 2⟩, ⟨4, 5, 3⟩] = 5) ∧
      (∀ q es, JoinsPath sampleGraph q es → q.head? = some 1 → q.getLast? = some 5 →
        5 ≤ walkWeight es) := by
  have hrun : dijkstra sampleGraph =
      DijkstraRun.found [1, 4, 5] (Dist.fin 5) [1, 4, 2, 5] (4, 9) := by decide
  refine ⟨hrun, ⟨by simp [JoinsPath, Joins, sampleGraph], by simp [walkWeight]⟩, ?_⟩
  intro q es hj hh hl
  obtain ⟨d, hd, hopt, _⟩ := dijkstra_found sampleGraph ⟨1⟩ ⟨5⟩ rfl rfl _ _ _ _ hrun
  have hd5 : d = 5 := by injection hd with h; exact h.symm
  rw [validPart_eq_self sampleGraph (by decide)] at hopt
  rw [← hd5]
  exact hopt _ (joinsPath_walk sampleGraph q es 1 5 hj hh hl)

/-! ### Dijkstra: the sums of the run are exact -/

theorem relaxChecked_step (W fuel u : Nat) (t : DijkstraState) (e : Edge) (he : e.weight ≤ W)
    (h : ∀ v d, t.distances v = Dist.fin d →
      d + W * fuel ≤ 2 ^ 53 ∧ (v = u → d + W * fuel + W ≤ 2 ^ 53)) :
    relaxChecked u t e = some (relax u t e) ∧
      ∀ v d, (relax u t e).distances v = Dist.fin d →
        d + W * fuel ≤ 2 ^ 53 ∧ (v = u → d + W * fuel + W ≤ 2 ^ 53) := by
  cases hu : t.distances u with
  | undef =>
    have e1 : relax u t e = { t with edgesExplored := t.edgesExplored + 1 } := by
      simp [relax, hu]
    exact ⟨by simp [relaxChecked, hu], by rw [e1]; exact h⟩
  | inf =>
    have e1 : relax u t e = { t with edgesExplored := t.edgesExplored + 1 } := by
      simp [relax, hu]
    exact ⟨by simp [relaxChecked, hu], by rw [e1]; exact h⟩
  | fin dc =>
    obtain ⟨b1, b2⟩ := h u dc hu
    have b3 := b2 rfl
    have hsum : dc + e.weight ≤ 2 ^ 53 := by omega
    refine ⟨by simp only [relaxChecked, hu]; rw [if_pos hsum], ?_⟩
    cases hgt : (t.distances (if e.fromId = u then e.toId else e.fromId)).gt (dc + e.weight) with
    | false =>
      rw [relax_skip u t e dc hu hgt]
      exact h
    | true =>
      rw [relax_update u t e dc hu hgt]
      intro v d hv
      simp only at hv
      by_cases c : v = (if e.fromId = u then e.toId else e.fromId)
      · simp only [c, if_true, Dist.fin.injEq] at hv
        subst hv
        refine ⟨by omega, ?_⟩
        intro hvu
        exfalso
        rw [← c, hvu, hu] at hgt
        simp [Dist.gt] at hgt
      · simp only [c, if_false] at hv
        exact h v d hv

theorem relaxChecked_fold (W fuel u : Nat) (l : List Edge) :
    ∀ (t : DijkstraState), (∀ e ∈ l, e.weight ≤ W) →
      (∀ v d, t.distances v = Dist.fin d →
        d + W * fuel ≤ 2 ^ 53 ∧ (v = u → d + W * fuel + W ≤ 2 ^ 53)) →
      forEachOpt (relaxChecked u) t l = some (l.foldl (relax u) t) ∧
        ∀ v d, (l.foldl (relax u) t).distances v = Dist.fin d → d + W * fuel ≤ 2 ^ 53 := by
  induction l with
  | nil => intro t _ h; exact ⟨rfl, fun v d hv => (h v d hv).1⟩
  | cons e es ih =>
    intro t hl h
    obtain ⟨a1, a2⟩ := relaxChecked_step W fuel u t e (hl e (List.mem_cons_self _ _)) h
    obtain ⟨b1, b2⟩ := ih (relax u t e) (fun x hx => hl x (List.mem_cons_of_mem _ hx)) a2
    refine ⟨?_, b2⟩
    simp only [forEachOpt, a1, List.foldl_cons]
    exact b1

theorem dijkstraLoopChecked_eq (edges : List Edge) (endId W : Nat)
    (hW : ∀ e ∈ edges, e.weight ≤ W) (fuel : Nat) :
    ∀ (s : DijkstraState), (∀ v d, s.distances v = Dist.fin d → d + W * fuel ≤ 2 ^ 53) →
      dijkstraLoopChecked edges endId fuel s = some (dijkstraLoop edges endId fuel s) := by
  induction fuel with
  | zero => intro s _; rfl
  | succ fuel ih =>
    intro s h
    have hm : W * (fuel + 1) = W * fuel + W := Nat.mul_succ W fuel
    cases hsort : sortPQ s.pq with
    | nil => simp [dijkstraLoopChecked, dijkstraLoop, hsort]
    | cons top rest =>
      simp only [dijkstraLoopChecked, dijkstraLoop, hsort]
      split_ifs with h1 h2
      · apply ih
        intro v d hv
        have := h v d hv
        omega
      · cases reconstruct s.parent (s.visited ++ [top.node]).length endId [] <;> rfl
      · obtain ⟨a1, a2⟩ := relaxChecked_fold W fuel top.node
          (edges.filter (fun e => e.fromId = top.node || e.toId = top.node))
          { s with
            pq := rest
            visited := s.visited ++ [top.node]
            nodesVisited := s.nodesVisited + 1
            stats := (s.nodesVisited + 1, s.edgesExplored) }
          (fun e he => hW e (List.mem_of_mem_filter he))
          (by
            intro v d hv
            have := h v d hv
            exact ⟨by omega, fun _ => by omega⟩)
        simp only [a1]
        exact ih _ a2

/-- With every weight at most `W` and `W (2 m + 1) ≤ 2 ^ 53` for the number `m`
of edges, no sum that a run of `dijkstra` forms exceeds `2 ^ 53`: the run with
the check on every sum is the run of `dijkstra`.  (The loop makes at most
`2 m + 1` passes, and a pass raises the largest finite distance by at most
`W`.) -/
theorem dijkstra_sums_exact (g : Graph) (W : Nat) (hW : ∀ e ∈ g.edges, e.weight ≤ W)
    (hB : W * (2 * g.edges.length + 1) ≤ 2 ^ 53) : dijkstraChecked g = some (dijkstra g) := by
  unfold dijkstraChecked dijkstra
  split_ifs with hlen
  · rfl
  · cases h0 : g.nodes.head? with
    | none => rfl
    | some n0 =>
      cases hl : g.nodes.getLast? with
      | none => rfl
      | some nl =>
        simp only
        apply dijkstraLoopChecked_eq g.edges nl.id W hW
        intro v d hv
        simp only [dijkstraInit] at hv
        split_ifs at hv with c1 c2
        · injection hv with hv
          omega

/-! ### Dijkstra: the reported distance and path -/

/-- Claim C3: on a graph with positive integer edge weights, at least two
nodes and edges that reference existing node ids, when `dijkstra` reports a
distance for the target (the last inserted node), the reported value is a
finite number and no sequence of edges joining the source (the first inserted
node) to the target, or the target to the source, each edge taken in either
direction, has a smaller total weight.  The weights are numbers of the page:
they are at most `W` with `W (2 m + 1) ≤ 2 ^ 53` for the number `m` of edges,
so that every sum of the run is at most `2 ^ 53` and exact in the double
arithmetic of the source (first part of the statement). -/
theorem dijkstra_distance_minimal (g : Graph) (_hpos : ∀ e ∈ g.edges, 0 < e.weight)
    (_h2 : 2 ≤ g.nodes.length) (hv : EdgesValid g)
    (W : Nat) (hW : ∀ e ∈ g.edges, e.weight ≤ W) (hB : W * (2 * g.edges.length + 1) ≤ 2 ^ 53)
    (p : List Nat) (dist : Dist) (vis : List Nat) (st : Nat × Nat)
    (hrun : dijkstra g = DijkstraRun.found p dist vis st) :
    dijkstraChecked g = some (DijkstraRun.found p dist vis st) ∧
    ∃ d, dist = Dist.fin d ∧
      (∀ q es, JoinsPath g q es → q.head? = g.nodes.head?.map Node.id →
        q.getLast? = g.nodes.getLast?.map Node.id → d ≤ walkWeight es) ∧
      (∀ q es, JoinsPath g q es → q.head? = g.nodes.getLast?.map Node.id →
        q.getLast? = g.nodes.head?.map Node.id → d ≤ walkWeight es) := by
  refine ⟨by rw [dijkstra_sums_exact g W hW hB, hrun], ?_⟩
  obtain ⟨n0, nl, h0, hl⟩ := dijkstra_found_nodes g p dist vis st hrun
  obtain ⟨d, hd, hopt, _⟩ := dijkstra_found g n0 nl h0 hl p dist vis st hrun
  rw [validPart_eq_self g hv] at hopt
  rw [h0, hl]
  refine ⟨d, hd, ?_, ?_⟩
  · intro q es hj hh hl2
    exact hopt _ (joinsPath_walk g q es n0.id nl.id hj hh hl2)
  · intro q es hj hh hl2
    exact hopt _ (walk_symm g _ _ _ (joinsPath_walk g q es nl.id n0.id hj hh hl2))

/-- Witness of claim C3 at the sample graph (weights at most 5, seven edges),
where the run reports the path `[1, 4, 5]` and the distance 5. -/
theorem dijkstra_distance_minimal_witness :
    dijkstraChecked sampleGraph =
        some (DijkstraRun.found [1, 4, 5] (Dist.fin 5) [1, 4, 2, 5] (4, 9)) ∧
    ∃ d, Dist.fin 5 = Dist.fin d ∧
      (∀ q es, JoinsPath sampleGraph q es → q.head? = sampleGraph.nodes.head?.map Node.id →
        q.getLast? = sampleGraph.nodes.getLast?.map Node.id → d ≤ walkWeight es) ∧
      (∀ q es, JoinsPath sampleGraph q es → q.head? = sampleGraph.nodes.getLast?.map Node.id →
        q.getLast? = sampleGraph.nodes.head?.map Node.id → d ≤ walkWeight es) :=
  dijkstra_distance_minimal sampleGraph (by decide) (by decide) (by decide) 5 (by decide)
    (by decide) [1, 4, 5] (Dist.fin 5) [1, 4, 2, 5] (4, 9) (by decide)

/-- Claim C4: on a graph with positive integer edge weights, whenever
`dijkstra` reports a path, the reconstructed parent-pointer path starts at
the first inserted node, ends at the last inserted node, every two
consecutive path nodes are joined by an edge of the graph, and the reported
distance is the total weight of a sequence of edges of the graph that joins
the consecutive path nodes.  The weights are numbers of the page: they are at
most `W` with `W (2 m + 1) ≤ 2 ^ 53` for the number `m` of edges, so that
every sum of the run is at most `2 ^ 53` and exact in the double arithmetic
of the source (first part of the statement). -/
theorem dijkstra_path_valid (g : Graph) (_hpos : ∀ e ∈ g.edges, 0 < e.weight)
    (W : Nat) (hW : ∀ e ∈ g.edges, e.weight ≤ W) (hB : W * (2 * g.edges.length + 1) ≤ 2 ^ 53)
    (p : List Nat) (dist : Dist) (vis : List Nat) (st : Nat × Nat)
    (hrun : dijkstra g = DijkstraRun.found p dist vis st) :
    dijkstraChecked g = some (DijkstraRun.found p dist vis st) ∧
    p.head? = g.nodes.head?.map Node.id ∧ p.getLast? = g.nodes.getLast?.map Node.id ∧
      List.Chain' (Adj g) p ∧
      ∃ es, JoinsPath g p es ∧ dist = Dist.fin (walkWeight es) := by
  refine ⟨by rw [dijkstra_sums_exact g W hW hB, hrun], ?_⟩
  obtain ⟨n0, nl, h0, hl⟩ := dijkstra_found_nodes g p dist vis st hrun
  obtain ⟨d, hd, _, es, a1, a2, a3, a4⟩ := dijkstra_found g n0 nl h0 hl p dist vis st hrun
  have hj := joinsPath_mono g p es a1
  rw [h0, hl]
  exact ⟨a2, a3, joinsPath_chain g p es hj, es, hj, by rw [a4]; exact hd⟩

/-- Witness of claim C4 at the sample graph (weights at most 5, seven edges),
where the run reports the path `[1, 4, 5]` and the distance 5. -/
theorem dijkstra_path_valid_witness :
    dijkstraChecked sampleGraph =
        some (DijkstraRun.found [1, 4, 5] (Dist.fin 5) [1, 4, 2, 5] (4, 9)) ∧
    ([1, 4, 5] : List Nat).head? = sampleGraph.nodes.head?.map Node.id ∧
      ([1, 4, 5] : List Nat).getLast? = sampleGraph.nodes.getLast?.map Node.id ∧
      List.Chain' (Adj sampleGraph) [1, 4, 5] ∧
      ∃ es, JoinsPath sampleGraph [1, 4, 5] es ∧ Dist.fin 5 = Dist.fin (walkWeight es) :=
  dijkstra_path_valid sampleGraph (by decide) 5 (by decide) (by decide)
    [1, 4, 5] (Dist.fin 5) [1, 4, 2, 5] (4, 9) (by decide)
end Visualgo
